import Mathlib

/-!
# Jeditor: a shallow embedding of `src/main.c`

The editor keeps one global `struct EditorConfig E`.  Here the global is passed
explicitly: a C function that mutates `E` becomes a Lean function from
`EditorConfig` to `EditorConfig`.

Representation choices (all read off the C source):

* a `char` is its byte code, a `Nat` (`'\t'` is `9`, `'\n'` is `10`, ...);
* a buffer with its length field (`chars`/`size`, `render`/`rndrSize`) is a
  `List Nat` of exactly that length; the terminating NUL the C code keeps at
  index `size` is what `List.getD _ _ 0` returns there;
* an `int` is an `Int`; no row is assumed long enough for `int` arithmetic to
  overflow;
* an `eRow*` that points into `E.row` is the position of the row in the array,
  a `Nat`;
* `E.row` holds `E.numRows` rows; `numRows` stays a field of its own because
  `EditorInsertRow` re-renders the new row before it increments `numRows`;
* `statusMsg`, `statusMsgTime` and `originalTermios` only feed the message bar
  and the terminal set-up and are left out.
-/

namespace Jeditor

/-! ## Defines -/

/-- The macro `JEDITOR_TAB_STOP`. -/
def JEDITOR_TAB_STOP : Nat := 8

/-- The macro `JEDITOR_QUIT_TIMES`. -/
def JEDITOR_QUIT_TIMES : Int := 3

/-- The macro `CTRL_KEY(k)`, `k & 0x1f`. -/
def CTRL_KEY (k : Nat) : Int := ((k &&& 0x1f : Nat) : Int)

/-- The bytes of a C string literal. -/
def cstr (s : String) : List Nat := s.toList.map Char.toNat

/-! `enum editorKey` -/

def BACKSPACE : Int := 127
def ARROW_LEFT : Int := 1000
def ARROW_RIGHT : Int := 1001
def ARROW_UP : Int := 1002
def ARROW_DOWN : Int := 1003
def DEL_KEY : Int := 1004
def HOME_KEY : Int := 1005
def END_KEY : Int := 1006
def PAGE_UP : Int := 1007
def PAGE_DOWN : Int := 1008

/-! `enum editorHighlight` -/

def HL_NORMAL : Nat := 0
def HL_COMMENT : Nat := 1
def HL_MCOMMENT : Nat := 2
def HL_KEYWORD1 : Nat := 3
def HL_KEYWORD2 : Nat := 4
def HL_STRING : Nat := 5
def HL_NUMBER : Nat := 6
def HL_MATCH : Nat := 7

def HL_HIGHLIGHT_NUMBERS : Nat := 1
def HL_HIGHLIGHT_STRINGS : Nat := 2

/-! ## Data -/

/-- The C `struct EditorSyntax`; a `char*` that may be `NULL` is an `Option`. -/
structure EditorSyntax where
  filetype : List Nat
  filematch : List (List Nat)
  keywords : List (List Nat)
  singleLineCommentStart : Option (List Nat)
  multilineCommentStart : Option (List Nat)
  multilineCommentEnd : Option (List Nat)
  flags : Nat
  deriving DecidableEq, Repr

/-- The C `struct eRow`.  `size` is `chars.length` and `rndrSize` is
`render.length`; `hlOpenComment` only ever holds `0` or the truth value
`inComment`. -/
structure eRow where
  idx : Int
  chars : List Nat
  render : List Nat
  highlight : List Nat
  hlOpenComment : Bool
  deriving DecidableEq, Repr, Inhabited

/-- The field `row->size`. -/
def eRow.size (row : eRow) : Int := (row.chars.length : Int)

/-- The field `row->rndrSize`. -/
def eRow.rndrSize (row : eRow) : Int := (row.render.length : Int)

/-- The C `struct EditorConfig` (the global `E`).  The field the source calls
`syntax` is `syntaxRules` here. -/
structure EditorConfig where
  curX : Int
  curY : Int
  rndrX : Int
  terminalRows : Int
  terminalCols : Int
  rowOff : Int
  colOff : Int
  numRows : Int
  row : List eRow
  dirty : Int
  filename : Option (List Nat)
  syntaxRules : Option EditorSyntax
  deriving DecidableEq, Repr

/-- The row `E.row[at]`; outside the array the read is undefined in C and
gives an empty row here. -/
def EditorConfig.rowAt (E : EditorConfig) (pos : Nat) : eRow := E.row.getD pos default

/-! ## File types -/

def C_HL_Extentions : List (List Nat) := [cstr ".c", cstr ".h", cstr ".cpp"]

def C_HL_Keywords : List (List Nat) :=
  [cstr "switch", cstr "if", cstr "while", cstr "for", cstr "break", cstr "continue",
   cstr "return", cstr "else", cstr "struct", cstr "union", cstr "typedef", cstr "static",
   cstr "enum", cstr "class", cstr "case",
   cstr "int|", cstr "long|", cstr "double|", cstr "float|", cstr "char|", cstr "unsigned|",
   cstr "signed|", cstr "void|"]

/-- The table `HLDB`: its single entry, the C rule set. -/
def HLDB : List EditorSyntax :=
  [{ filetype := cstr "c"
     filematch := C_HL_Extentions
     keywords := C_HL_Keywords
     singleLineCommentStart := some (cstr "//")
     multilineCommentStart := some (cstr "/*")
     multilineCommentEnd := some (cstr "*/")
     flags := HL_HIGHLIGHT_NUMBERS ||| HL_HIGHLIGHT_STRINGS }]

/-- The C rule set, `HLDB[0]`. -/
def cSyntax : EditorSyntax := HLDB.getD 0 ⟨[], [], [], none, none, none, 0⟩

/-! ## Row operations: column mapping -/

/-- One pass of the loop body shared by `EditorRowCurXToRndrX` and
`EditorRowRendrXToCurX`: a tab moves `rx` to the last column before the next
tab stop, then `rx++`. -/
def advanceRx (c : Nat) (rx : Int) : Int :=
  (if c = 9 then rx + ((JEDITOR_TAB_STOP - 1 : Nat) : Int) - rx % (JEDITOR_TAB_STOP : Int)
   else rx) + 1

/-- The loop of `EditorRowCurXToRndrX`, from `j` with `n` passes left. -/
def curXToRndrXLoop (chars : List Nat) : Nat → Nat → Int → Int
  | 0, _, rx => rx
  | n + 1, j, rx => curXToRndrXLoop chars n (j + 1) (advanceRx (chars.getD j 0) rx)

/-- The C function `EditorRowCurXToRndrX`: `for(j = 0; j < curX; ++j)`. -/
def EditorRowCurXToRndrX (row : eRow) (curX : Int) : Int :=
  curXToRndrXLoop row.chars curX.toNat 0 0

/-- The loop of `EditorRowRendrXToCurX`, from `cx` with `n` passes left. -/
def rendrXToCurXLoop (chars : List Nat) (rowX : Int) : Nat → Nat → Int → Int
  | 0, cx, _ => (cx : Int)
  | n + 1, cx, curRx =>
    let curRx1 := advanceRx (chars.getD cx 0) curRx
    if curRx1 > rowX then (cx : Int) else rendrXToCurXLoop chars rowX n (cx + 1) curRx1

/-- The C function `EditorRowRendrXToCurX`: `for(cx = 0; cx < row->size; cx++)`. -/
def EditorRowRendrXToCurX (row : eRow) (rowX : Int) : Int :=
  rendrXToCurXLoop row.chars rowX row.chars.length 0 0

/-! ## Syntax highlighting -/

/-- The libc test `isspace(c)` in the C locale. -/
def isspace (c : Nat) : Bool := c = 32 || (9 ≤ c && c ≤ 13)

/-- The libc test `isdigit(c)`. -/
def isdigit (c : Nat) : Bool := 48 ≤ c && c ≤ 57

/-- The C function `IsSeparator`.  `strchr(s, c)` also finds the terminating NUL
of `s`, which the C code tests a second time as `c == 0`. -/
def IsSeparator (c : Nat) : Bool :=
  isspace c || c = 0 || (cstr ",.()+-/*=~%<>[];").contains c

/-- The libc call `strncmp(&a[i], s, n) == 0`, both strings NUL-terminated: the
first `n` bytes agree, or the strings agree up to a NUL that ends both. -/
def strncmpEq (a : List Nat) (i : Nat) (s : List Nat) : Nat → Bool
  | 0 => true
  | n + 1 =>
    if a.getD i 0 ≠ s.headD 0 then false
    else if a.getD i 0 = 0 then true
    else strncmpEq a (i + 1) s.tail n

/-- The libc call `memset(&hl[i], v, n)`. -/
def memset (hl : List Nat) (i : Nat) (v : Nat) : Nat → List Nat
  | 0 => hl
  | n + 1 => memset (hl.set i v) (i + 1) v n

/-- The locals of the scan loop of `EditorUpdateSyntax` together with the
highlight array it writes. -/
structure ScanState where
  i : Nat
  prevSep : Bool
  inString : Nat
  inComment : Bool
  hl : List Nat
  deriving DecidableEq, Repr

/-- The keyword loop `for(j = 0; keywords[j]; ++j)` at display column `i`: the
length and class of the first keyword that matches there and is followed by a
separator, `none` when the loop runs to the `NULL` entry. -/
def matchKeyword (render : List Nat) (i : Nat) : List (List Nat) → Option (Nat × Bool)
  | [] => none
  | kw :: rest =>
    let kw2 : Bool := kw.getD (kw.length - 1) 0 = 124
    let kLen : Nat := if kw2 then kw.length - 1 else kw.length
    if strncmpEq render i kw kLen && IsSeparator (render.getD (i + kLen) 0) then some (kLen, kw2)
    else matchKeyword render i rest

/-- One pass of the loop `while(i < row->rndrSize)` of `EditorUpdateSyntax` at a
column `i < rndrSize`: the locals after the pass, and `false` when the pass
leaves the loop with `break`, `true` when it goes on (`continue` or the end of
the body). -/
def scanStep (syn : EditorSyntax) (render : List Nat) (s : ScanState) : ScanState × Bool :=
  let c := render.getD s.i 0
  let prevHL := if s.i > 0 then s.hl.getD (s.i - 1) HL_NORMAL else HL_NORMAL
  let scs := syn.singleLineCommentStart.getD []
  let mcs := syn.multilineCommentStart.getD []
  let mce := syn.multilineCommentEnd.getD []
  if scs.length ≠ 0 ∧ s.inString = 0 ∧ s.inComment = false
      ∧ strncmpEq render s.i scs scs.length = true then
    ({ s with hl := memset s.hl s.i HL_COMMENT (render.length - s.i) }, false)
  else if mcs.length ≠ 0 ∧ mce.length ≠ 0 ∧ s.inString = 0 ∧ s.inComment = true then
    if strncmpEq render s.i mce mce.length = true then
      ({ s with hl := memset (s.hl.set s.i HL_MCOMMENT) s.i HL_MCOMMENT mce.length,
                i := s.i + mce.length, inComment := false, prevSep := true }, true)
    else
      ({ s with hl := s.hl.set s.i HL_MCOMMENT, i := s.i + 1 }, true)
  else if mcs.length ≠ 0 ∧ mce.length ≠ 0 ∧ s.inString = 0
      ∧ strncmpEq render s.i mcs mcs.length = true then
    ({ s with hl := memset s.hl s.i HL_MCOMMENT mcs.length,
              i := s.i + mcs.length, inComment := true }, true)
  else if syn.flags &&& HL_HIGHLIGHT_STRINGS ≠ 0 ∧ s.inString ≠ 0 then
    if c = 92 ∧ s.i + 1 < render.length then
      ({ s with hl := (s.hl.set s.i HL_STRING).set (s.i + 1) HL_STRING, i := s.i + 2 }, true)
    else
      ({ s with hl := s.hl.set s.i HL_STRING,
                inString := if c = s.inString then 0 else s.inString,
                i := s.i + 1, prevSep := true }, true)
  else if syn.flags &&& HL_HIGHLIGHT_STRINGS ≠ 0 ∧ (c = 34 ∨ c = 39) then
    ({ s with inString := c, hl := s.hl.set s.i HL_STRING, i := s.i + 1 }, true)
  else if syn.flags &&& HL_HIGHLIGHT_NUMBERS ≠ 0
      ∧ ((isdigit c = true ∧ (s.prevSep = true ∨ prevHL = HL_NUMBER))
          ∨ (c = 46 ∧ prevHL = HL_NUMBER)) then
    ({ s with hl := s.hl.set s.i HL_NUMBER, i := s.i + 1, prevSep := false }, true)
  else
    match (if s.prevSep then matchKeyword render s.i syn.keywords else none) with
    | some (kLen, kw2) =>
      ({ s with hl := memset s.hl s.i (if kw2 then HL_KEYWORD2 else HL_KEYWORD1) kLen,
                i := s.i + kLen, prevSep := false }, true)
    | none => ({ s with prevSep := IsSeparator c, i := s.i + 1 }, true)

/-- The loop `while(i < row->rndrSize)` of `EditorUpdateSyntax`, with `fuel`
passes left. -/
def scanLoop (syn : EditorSyntax) (render : List Nat) : Nat → ScanState → ScanState
  | 0, s => s
  | fuel + 1, s =>
    if s.i < render.length then
      if (scanStep syn render s).2 = true then scanLoop syn render fuel (scanStep syn render s).1
      else (scanStep syn render s).1
    else s

/-- The scan of one row of `EditorUpdateSyntax`: from the cleared highlight
array and the incoming block-comment state to the final locals.  Every pass
that does not leave the loop moves `i` forward under the C rule set, so
`rndrSize` passes are enough there (`scanLoop_fuel_irrelevant`). -/
def scanRow (syn : EditorSyntax) (render : List Nat) (inComment : Bool) : ScanState :=
  scanLoop syn render render.length
    ⟨0, true, 0, inComment, List.replicate render.length HL_NORMAL⟩

/-- The C function `EditorUpdateSyntax(&E.row[pos])`.  The recursive call on
the next row is bounded by `fuel`; `EditorUpdateSyntax` below passes the
number of rows, which is enough when every row's `idx` is its position
(`updateSyntaxFuel_fuel_irrelevant`). -/
def updateSyntaxFuel : Nat → EditorConfig → Nat → EditorConfig
  | fuel, E, pos =>
    let row := E.rowAt pos
    match E.syntaxRules with
    | none =>
      let row1 : eRow := { row with highlight := List.replicate row.render.length HL_NORMAL }
      { E with row := E.row.set pos row1 }
    | some syn =>
      let inComment : Bool :=
        decide (row.idx > 0) && (E.rowAt (row.idx - 1).toNat).hlOpenComment
      let s := scanRow syn row.render inComment
      let changed : Bool := row.hlOpenComment != s.inComment
      let row1 : eRow := { row with highlight := s.hl, hlOpenComment := s.inComment }
      let E1 : EditorConfig := { E with row := E.row.set pos row1 }
      if changed = true ∧ row.idx + 1 < E.numRows then
        match fuel with
        | 0 => E1
        | fuel1 + 1 => updateSyntaxFuel fuel1 E1 (row.idx + 1).toNat
      else E1

/-- The C function `EditorUpdateSyntax(&E.row[pos])`. -/
def EditorUpdateSyntax (E : EditorConfig) (pos : Nat) : EditorConfig :=
  updateSyntaxFuel E.row.length E pos

/-- The C function `EditorSyntaxToColor`. -/
def EditorSyntaxToColor (hl : Nat) : Nat :=
  if hl = HL_COMMENT ∨ hl = HL_MCOMMENT then 36
  else if hl = HL_KEYWORD1 then 33
  else if hl = HL_KEYWORD2 then 32
  else if hl = HL_STRING then 35
  else if hl = HL_NUMBER then 31
  else if hl = HL_MATCH then 34
  else 37

/-! ## Row operations -/

/-- The inner loop `while(idx % JEDITOR_TAB_STOP != 0) row->render[idx++] = ' '`
of `EditorUpdateRow`, with `n` passes left (it never needs more than seven). -/
def tabPad : Nat → List Nat → List Nat
  | 0, render => render
  | n + 1, render =>
    if render.length % JEDITOR_TAB_STOP ≠ 0 then tabPad n (render ++ [32]) else render

/-- The second loop of `EditorUpdateRow`: the display content written so far is
`render`, `idx` is its length. -/
def renderLoop : List Nat → List Nat → List Nat
  | [], render => render
  | c :: cs, render =>
    if c = 9 then renderLoop cs (tabPad JEDITOR_TAB_STOP (render ++ [32]))
    else renderLoop cs (render ++ [c])

/-- The C function `EditorUpdateRow(&E.row[pos])`. -/
def EditorUpdateRow (E : EditorConfig) (pos : Nat) : EditorConfig :=
  let row := E.rowAt pos
  let row1 : eRow := { row with render := renderLoop row.chars [] }
  EditorUpdateSyntax { E with row := E.row.set pos row1 } pos

/-- The C function `EditorInsertRow(at, str, len)`; `str` has `len` bytes. -/
def EditorInsertRow (E : EditorConfig) (pos : Int) (str : List Nat) : EditorConfig :=
  if pos < 0 ∨ pos > E.numRows then E
  else
    let shifted := (E.row.drop pos.toNat).map (fun r => { r with idx := r.idx + 1 })
    let newRow : eRow :=
      { idx := pos, chars := str, render := [], highlight := [], hlOpenComment := false }
    let E1 : EditorConfig := { E with row := E.row.take pos.toNat ++ newRow :: shifted }
    let E2 := EditorUpdateRow E1 pos.toNat
    { E2 with numRows := E2.numRows + 1, dirty := E2.dirty + 1 }

/-- The C function `EditorDelRow(at)`. -/
def EditorDelRow (E : EditorConfig) (pos : Int) : EditorConfig :=
  if pos < 0 ∨ pos ≥ E.numRows then E
  else
    let shifted := (E.row.drop (pos.toNat + 1)).map (fun r => { r with idx := r.idx - 1 })
    { E with row := E.row.take pos.toNat ++ shifted
             numRows := E.numRows - 1, dirty := E.dirty + 1 }

/-- The C function `EditorRowInsertChar(&E.row[pos], at, c)`; storing the `int`
`c` in a `char` keeps its low byte. -/
def EditorRowInsertChar (E : EditorConfig) (pos : Nat) (col : Int) (c : Int) : EditorConfig :=
  let row := E.rowAt pos
  let col1 : Int := if col < 0 ∨ col > row.size then row.size else col
  let row1 : eRow :=
    { row with chars := row.chars.take col1.toNat ++ (c % 256).toNat :: row.chars.drop col1.toNat }
  let E1 := EditorUpdateRow { E with row := E.row.set pos row1 } pos
  { E1 with dirty := E1.dirty + 1 }

/-- The C function `EditorRowAppendString(&E.row[pos], str, len)`. -/
def EditorRowAppendString (E : EditorConfig) (pos : Nat) (str : List Nat) : EditorConfig :=
  let row := E.rowAt pos
  let row1 : eRow := { row with chars := row.chars ++ str }
  let E1 := EditorUpdateRow { E with row := E.row.set pos row1 } pos
  { E1 with dirty := E1.dirty + 1 }

/-- The C function `EditorRowDelChar(&E.row[pos], at)`. -/
def EditorRowDelChar (E : EditorConfig) (pos : Nat) (col : Int) : EditorConfig :=
  let row := E.rowAt pos
  if col < 0 ∨ col ≥ row.size then E
  else
    let row1 : eRow := { row with chars := row.chars.eraseIdx col.toNat }
    let E1 := EditorUpdateRow { E with row := E.row.set pos row1 } pos
    { E1 with dirty := E1.dirty + 1 }

/-! ## Editor operations -/

/-- The C function `EditorInsertChar(c)`. -/
def EditorInsertChar (E : EditorConfig) (c : Int) : EditorConfig :=
  let E1 := if E.curY = E.numRows then EditorInsertRow E E.numRows [] else E
  let E2 := EditorRowInsertChar E1 E1.curY.toNat E1.curX c
  { E2 with curX := E2.curX + 1 }

/-- The C function `EditorInsertNewline`. -/
def EditorInsertNewline (E : EditorConfig) : EditorConfig :=
  let E3 :=
    if E.curX = 0 then EditorInsertRow E E.curY []
    else
      let row := E.rowAt E.curY.toNat
      let E1 := EditorInsertRow E (E.curY + 1) (row.chars.drop E.curX.toNat)
      let row1 := E1.rowAt E1.curY.toNat
      let row2 : eRow := { row1 with chars := row1.chars.take E1.curX.toNat }
      EditorUpdateRow { E1 with row := E1.row.set E1.curY.toNat row2 } E1.curY.toNat
  { E3 with curY := E3.curY + 1, curX := 0 }

/-- The C function `EditorDelChar`. -/
def EditorDelChar (E : EditorConfig) : EditorConfig :=
  if E.curY = E.numRows then E
  else if E.curX = 0 ∧ E.curY = 0 then E
  else if E.curX > 0 then
    let E1 := EditorRowDelChar E E.curY.toNat (E.curX - 1)
    { E1 with curX := E1.curX - 1 }
  else
    let row := E.rowAt E.curY.toNat
    let E1 : EditorConfig := { E with curX := (E.rowAt (E.curY - 1).toNat).size }
    let E2 := EditorRowAppendString E1 (E1.curY - 1).toNat row.chars
    let E3 := EditorDelRow E2 E2.curY
    { E3 with curY := E3.curY - 1 }

/-! ## C strings -/

/-- A buffer read as a C string: its bytes before the first NUL. -/
def cString (a : List Nat) : List Nat := a.takeWhile (fun c => c != 0)

/-- The search of `strstr` over the rest of the haystack; `k` is the offset
of that rest. -/
def strstrFrom (needle : List Nat) : List Nat → Nat → Option Nat
  | [], k => if needle = [] then some k else none
  | h :: t, k => if needle.isPrefixOf (h :: t) then some k else strstrFrom needle t (k + 1)

/-- The libc call `strstr(hay, needle)`: the offset of the first occurrence,
`none` for `NULL`. -/
def strstr (hay needle : List Nat) : Option Nat :=
  strstrFrom (cString needle) (cString hay) 0

/-- The search of `strrchr` over the rest of the string; `last` is the latest
hit so far. -/
def strrchrFrom (c : Nat) : List Nat → Option (List Nat) → Option (List Nat)
  | [], last => last
  | h :: t, last => strrchrFrom c t (if h = c then some (h :: t) else last)

/-- The libc call `strrchr(s, c)` for `c` other than NUL: the tail of `s` from
the last `c` on, `none` for `NULL`. -/
def strrchr (s : List Nat) (c : Nat) : Option (List Nat) :=
  strrchrFrom c (cString s) none

/-- The libc call `memcpy(dst, src, n)`. -/
def memcpy (dst src : List Nat) (n : Nat) : List Nat := src.take n ++ dst.drop n

/-! ## Selecting the rule set -/

/-- The loop `for(filerow = 0; filerow < E.numRows; ++filerow)` of
`EditorSelectSyntaxHighlight`. -/
def rehighlightAll (E : EditorConfig) : EditorConfig :=
  (List.range E.numRows.toNat).foldl (fun E1 filerow => EditorUpdateSyntax E1 filerow) E

/-- The loop `while(s->filematch[i])` of `EditorSelectSyntaxHighlight` for one
table entry `s`. -/
def selectInEntry (ext : Option (List Nat)) (filename : List Nat) (syn : EditorSyntax) :
    List (List Nat) → EditorConfig → EditorConfig
  | [], E => E
  | pat :: rest, E =>
    let isExt : Bool := pat.headD 0 = 46
    let hit : Bool :=
      (isExt && (match ext with | some e => cString e == cString pat | none => false))
        || (!isExt && (strstr filename pat).isSome)
    let E1 : EditorConfig := if hit then { E with syntaxRules := some syn } else E
    selectInEntry ext filename syn rest (rehighlightAll E1)

/-- The C function `EditorSelectSyntaxHighlight`. -/
def EditorSelectSyntaxHighlight (E : EditorConfig) : EditorConfig :=
  let E1 : EditorConfig := { E with syntaxRules := none }
  match E1.filename with
  | none => E1
  | some filename =>
    let ext := strrchr filename 46
    HLDB.foldl (fun E2 syn => selectInEntry ext filename syn syn.filematch E2) E1

/-! ## File I/O -/

/-- The C function `EditorRowsToString`: the buffer and `*bufLen`. -/
def EditorRowsToString (E : EditorConfig) : List Nat × Int :=
  let rows := List.range E.numRows.toNat
  let totalLen : Int := rows.foldl (fun acc j => acc + ((E.rowAt j).size + 1)) 0
  let buf : List Nat := rows.foldl (fun acc j => acc ++ (E.rowAt j).chars ++ [10]) []
  (buf, totalLen)

/-- The successive results of the libc call `getline` on a stream: each line
up to and including its `'\n'`, and a last line without one when the stream
does not end in `'\n'`.  `acc` is the line read so far. -/
def getlines : List Nat → List Nat → List (List Nat)
  | [], acc => if acc = [] then [] else [acc]
  | c :: cs, acc => if c = 10 then (acc ++ [10]) :: getlines cs [] else getlines cs (acc ++ [c])

/-- The loop of `EditorOpen` that drops trailing `'\n'` and `'\r'` from a line:
the bytes `line[0 .. lineLen)` it leaves. -/
def stripLineEnd (line : List Nat) : List Nat :=
  (line.reverse.dropWhile (fun c => c = 10 || c = 13)).reverse

/-- The C function `EditorOpen(file)`; `contents` are the bytes of the file,
`none` when `fopen` fails, and the result is `none` when the editor dies. -/
def EditorOpen (E : EditorConfig) (file : List Nat) (contents : Option (List Nat)) :
    Option EditorConfig :=
  let E1 := EditorSelectSyntaxHighlight { E with filename := some (cString file) }
  match contents with
  | none => none
  | some bytes =>
    let E2 := (getlines bytes []).foldl
      (fun E3 line => EditorInsertRow E3 E3.numRows (stripLineEnd line)) E1
    some { E2 with dirty := 0 }

/-! ## Output: scrolling -/

/-- The C function `EditorScroll`. -/
def EditorScroll (E : EditorConfig) : EditorConfig :=
  let E1 : EditorConfig := { E with rndrX := 0 }
  let E2 : EditorConfig :=
    if E1.curY < E1.numRows then
      { E1 with rndrX := EditorRowCurXToRndrX (E1.rowAt E1.curY.toNat) E1.curX }
    else E1
  let E3 : EditorConfig := if E2.curY < E2.rowOff then { E2 with rowOff := E2.curY } else E2
  let E4 : EditorConfig :=
    if E3.curY ≥ E3.rowOff + E3.terminalRows then
      { E3 with rowOff := E3.curY - E3.terminalRows + 1 }
    else E3
  let E5 : EditorConfig := if E4.rndrX < E4.colOff then { E4 with colOff := E4.rndrX } else E4
  if E5.rndrX ≥ E5.colOff + E5.terminalCols then
    { E5 with colOff := E5.rndrX - E5.terminalCols + 1 }
  else E5

/-! ## Find -/

/-- The global `E` together with the function-static variables: `quitTimes` of
`EditorProcessKeypress` and `lastMatch`, `direction`, `savedHLLine`, `savedHL`
of `EditorFindCallback`. -/
structure EditorGlobals where
  E : EditorConfig
  quitTimes : Int
  lastMatch : Int
  direction : Int
  savedHLLine : Int
  savedHL : Option (List Nat)
  deriving DecidableEq, Repr

/-- The loop `for(i = 0; i < E.numRows; ++i)` of `EditorFindCallback`, with `n`
passes left and the local `current`. -/
def findLoop (query : List Nat) : Nat → EditorGlobals → Int → EditorGlobals
  | 0, G, _ => G
  | n + 1, G, current =>
    let current1 := current + G.direction
    let current2 : Int :=
      if current1 = -1 then G.E.numRows - 1
      else if current1 = G.E.numRows then 0
      else current1
    let row := G.E.rowAt current2.toNat
    match strstr row.render query with
    | some m =>
      let row1 : eRow :=
        { row with highlight := memset row.highlight m HL_MATCH (cString query).length }
      let E1 : EditorConfig :=
        { G.E with curY := current2
                   curX := EditorRowRendrXToCurX row (m : Int)
                   rowOff := G.E.numRows
                   row := G.E.row.set current2.toNat row1 }
      { G with lastMatch := current2, E := E1, savedHLLine := current2
               savedHL := some (memcpy [] row.highlight row.render.length) }
    | none => findLoop query n G current2

/-- The C function `EditorFindCallback(query, key)`. -/
def EditorFindCallback (G : EditorGlobals) (query : List Nat) (key : Int) : EditorGlobals :=
  let G1 : EditorGlobals :=
    match G.savedHL with
    | some saved =>
      let row := G.E.rowAt G.savedHLLine.toNat
      let row1 : eRow := { row with highlight := memcpy row.highlight saved row.render.length }
      { G with E := { G.E with row := G.E.row.set G.savedHLLine.toNat row1 }, savedHL := none }
    | none => G
  if key = 13 ∨ key = 27 then { G1 with lastMatch := -1, direction := 1 }
  else
    let G2 : EditorGlobals :=
      if key = ARROW_RIGHT ∨ key = ARROW_DOWN then { G1 with direction := 1 }
      else if key = ARROW_LEFT ∨ key = ARROW_UP then { G1 with direction := -1 }
      else { G1 with lastMatch := -1, direction := 1 }
    let G3 : EditorGlobals := if G2.lastMatch = -1 then { G2 with direction := 1 } else G2
    findLoop query G3.E.numRows.toNat G3 G3.lastMatch

/-! ## Input -/

/-- The libc test `iscntrl(c)` in the C locale. -/
def iscntrl (c : Int) : Bool := (0 ≤ c && c ≤ 31) || c = 127

/-- The call `if(callback) callback(buf, c)` of `EditorPrompt`. -/
def runCallback (callback : Option (EditorGlobals → List Nat → Int → EditorGlobals))
    (G : EditorGlobals) (buf : List Nat) (c : Int) : EditorGlobals :=
  match callback with
  | some f => f G buf c
  | none => G

/-- The C function `EditorPrompt(prompt, callback)` from the current `buf` on.
`EditorReadKey` takes the next decoded key from `keys`; of `EditorRefreshScreen`
only the call of `EditorScroll` changes `E`.  The result is the returned
string (`none` for `NULL`), the globals and the keys not yet read; it is `none`
when the keys run out before the prompt returns. -/
def EditorPrompt (callback : Option (EditorGlobals → List Nat → Int → EditorGlobals)) :
    List Int → EditorGlobals → List Nat → Option (Option (List Nat) × EditorGlobals × List Int)
  | [], _, _ => none
  | c :: keys, G, buf =>
    let G1 : EditorGlobals := { G with E := EditorScroll G.E }
    if c = DEL_KEY ∨ c = CTRL_KEY 104 ∨ c = BACKSPACE then
      let buf1 := if buf.length ≠ 0 then buf.dropLast else buf
      EditorPrompt callback keys (runCallback callback G1 buf1 c) buf1
    else if c = 27 then some (none, runCallback callback G1 buf c, keys)
    else if c = 13 then
      if buf.length ≠ 0 then some (some buf, runCallback callback G1 buf c, keys)
      else EditorPrompt callback keys (runCallback callback G1 buf c) buf
    else if iscntrl c = false ∧ c < 128 then
      let buf1 := buf ++ [(c % 256).toNat]
      EditorPrompt callback keys (runCallback callback G1 buf1 c) buf1
    else EditorPrompt callback keys (runCallback callback G1 buf c) buf

/-- The C function `EditorFind`; `none` when the keys run out inside the
prompt. -/
def EditorFind (G : EditorGlobals) (keys : List Int) : Option (EditorGlobals × List Int) :=
  let savedCurX := G.E.curX
  let savedCurY := G.E.curY
  let savedColOff := G.E.colOff
  let savedRowOff := G.E.rowOff
  match EditorPrompt (some EditorFindCallback) keys G [] with
  | none => none
  | some (some _, G1, keys1) => some (G1, keys1)
  | some (none, G1, keys1) =>
    let E1 : EditorConfig :=
      { G1.E with curX := savedCurX, curY := savedCurY, colOff := savedColOff,
                  rowOff := savedRowOff }
    some ({ G1 with E := E1 }, keys1)

/-- The C function `EditorSave`; `writeOk` tells whether `open`, `ftruncate`
and `write` all succeed.  `none` when the keys run out inside the prompt. -/
def EditorSave (G : EditorGlobals) (keys : List Int) (writeOk : Bool) :
    Option (EditorGlobals × List Int) :=
  let write (G1 : EditorGlobals) : EditorGlobals :=
    if writeOk then { G1 with E := { G1.E with dirty := 0 } } else G1
  match G.E.filename with
  | some _ => some (write G, keys)
  | none =>
    match EditorPrompt none keys G [] with
    | none => none
    | some (none, G1, keys1) => some (G1, keys1)
    | some (some name, G1, keys1) =>
      let E1 := EditorSelectSyntaxHighlight { G1.E with filename := some name }
      some (write { G1 with E := E1 }, keys1)

/-- The C function `EditorMoveCursor(key)`. -/
def EditorMoveCursor (E : EditorConfig) (key : Int) : EditorConfig :=
  let row : Option eRow := if E.curY ≥ E.numRows then none else some (E.rowAt E.curY.toNat)
  let E1 : EditorConfig :=
    if key = ARROW_LEFT then
      if E.curX ≠ 0 then { E with curX := E.curX - 1 }
      else if E.curY > 0 then
        { E with curY := E.curY - 1, curX := (E.rowAt (E.curY - 1).toNat).size }
      else E
    else if key = ARROW_RIGHT then
      match row with
      | some r =>
        if E.curX < r.size then { E with curX := E.curX + 1 }
        else if E.curX = r.size then { E with curY := E.curY + 1, curX := 0 }
        else E
      | none => E
    else if key = ARROW_UP then
      if E.curY ≠ 0 then { E with curY := E.curY - 1 } else E
    else if key = ARROW_DOWN then
      if E.curY < E.numRows then { E with curY := E.curY + 1 } else E
    else E
  let rowLen : Int := if E1.curY ≥ E1.numRows then 0 else (E1.rowAt E1.curY.toNat).size
  if E1.curX > rowLen then { E1 with curX := rowLen } else E1

/-- The loop `while(times--) EditorMoveCursor(key)` of `EditorProcessKeypress`. -/
def moveCursorTimes (key : Int) : Nat → EditorConfig → EditorConfig
  | 0, E => E
  | n + 1, E => moveCursorTimes key n (EditorMoveCursor E key)

/-- What a call of `EditorProcessKeypress` ends in: the process exits, the call
returns, or it waits for a key that never comes. -/
inductive KeyResult where
  | exited (code : Int)
  | returned (G : EditorGlobals) (keys : List Int)
  | starved
  deriving DecidableEq, Repr

/-- The C function `EditorProcessKeypress`.  `EditorReadKey` takes the next
decoded key from `keys`; `writeOk` is the outcome of the file write of
`EditorSave`. -/
def EditorProcessKeypress (G : EditorGlobals) (keys : List Int) (writeOk : Bool) : KeyResult :=
  match keys with
  | [] => KeyResult.starved
  | c :: rest =>
    let done (E1 : EditorConfig) : KeyResult :=
      KeyResult.returned { G with E := E1, quitTimes := JEDITOR_QUIT_TIMES } rest
    if c = 13 then done (EditorInsertNewline G.E)
    else if c = CTRL_KEY 113 then
      if G.E.dirty ≠ 0 ∧ G.quitTimes > 0 then
        KeyResult.returned { G with quitTimes := G.quitTimes - 1 } rest
      else KeyResult.exited 0
    else if c = CTRL_KEY 115 then
      match EditorSave G rest writeOk with
      | none => KeyResult.starved
      | some (G1, rest1) =>
        KeyResult.returned { G1 with quitTimes := JEDITOR_QUIT_TIMES } rest1
    else if c = HOME_KEY then done { G.E with curX := 0 }
    else if c = END_KEY then
      done (if G.E.curY < G.E.numRows then
              { G.E with curX := (G.E.rowAt G.E.curY.toNat).size } else G.E)
    else if c = CTRL_KEY 102 then
      match EditorFind G rest with
      | none => KeyResult.starved
      | some (G1, rest1) =>
        KeyResult.returned { G1 with quitTimes := JEDITOR_QUIT_TIMES } rest1
    else if c = BACKSPACE ∨ c = CTRL_KEY 104 ∨ c = DEL_KEY then
      done (EditorDelChar (if c = DEL_KEY then EditorMoveCursor G.E ARROW_RIGHT else G.E))
    else if c = PAGE_UP ∨ c = PAGE_DOWN then
      let E1 : EditorConfig :=
        if c = PAGE_UP then { G.E with curY := G.E.rowOff }
        else
          let E2 : EditorConfig := { G.E with curY := G.E.rowOff + G.E.terminalRows - 1 }
          if E2.curY > E2.numRows then { E2 with curY := E2.numRows } else E2
      done (moveCursorTimes (if c = PAGE_UP then ARROW_UP else ARROW_DOWN)
              E1.terminalRows.toNat E1)
    else if c = ARROW_UP ∨ c = ARROW_DOWN ∨ c = ARROW_LEFT ∨ c = ARROW_RIGHT then
      done (EditorMoveCursor G.E c)
    else if c = CTRL_KEY 108 ∨ c = 27 then done G.E
    else done (EditorInsertChar G.E c)

/-! ## Init -/

/-- The C function `InitEditor` when `GetTerminalSize` reports `rows` and
`cols`. -/
def InitEditor (rows cols : Int) : EditorConfig :=
  { curX := 0, curY := 0, rndrX := 0, rowOff := 0, colOff := 0, numRows := 0, dirty := 0
    row := [], filename := none, syntaxRules := none
    terminalRows := rows - 2, terminalCols := cols }

/-- The static variables as the program starts. -/
def initGlobals (E : EditorConfig) : EditorGlobals :=
  { E := E, quitTimes := JEDITOR_QUIT_TIMES, lastMatch := -1, direction := 1
    savedHLLine := 0, savedHL := none }

/-! ## The main loop -/

/-- The loop `while(1){ EditorRefreshScreen(); EditorProcessKeypress(); }` of
`main`, cut off after `n` rounds: what the last round run ends in.  Of
`EditorRefreshScreen` only the call of `EditorScroll` changes `E`. -/
def mainLoop (writeOk : Bool) : Nat → EditorGlobals → List Int → KeyResult
  | 0, G, keys => KeyResult.returned G keys
  | n + 1, G, keys =>
    match EditorProcessKeypress { G with E := EditorScroll G.E } keys writeOk with
    | KeyResult.returned G1 keys1 => mainLoop writeOk n G1 keys1
    | r => r

/-! ## Parts of `EditorUpdateSyntax` named for the theorems -/

/-- The initial value of the local `inComment` in `EditorUpdateSyntax(&E.row[pos])`:
`row->idx > 0 && E.row[row->idx - 1].hlOpenComment`. -/
def seedOf (E : EditorConfig) (pos : Nat) : Bool :=
  decide ((E.rowAt pos).idx > 0) && (E.rowAt ((E.rowAt pos).idx - 1).toNat).hlOpenComment

/-- The row that `EditorUpdateSyntax(&E.row[pos])` has written at `pos` when it
reaches its recursive call. -/
def freshRow (E : EditorConfig) (pos : Nat) : eRow :=
  match E.syntaxRules with
  | none => { E.rowAt pos with highlight := List.replicate (E.rowAt pos).render.length HL_NORMAL }
  | some syn =>
    { E.rowAt pos with highlight := (scanRow syn (E.rowAt pos).render (seedOf E pos)).hl,
                       hlOpenComment := (scanRow syn (E.rowAt pos).render (seedOf E pos)).inComment }

/-- The fields of a row that highlighting never writes. -/
def eRow.base (row : eRow) : Int × List Nat × List Nat := (row.idx, row.chars, row.render)

/-! ## Highlighting a buffer from scratch

The reference the editing operations are compared with: every row scanned
top to bottom, each seeded with the outgoing block-comment state of the row
above it (the first row with "not in a comment"). -/

/-- The highlight tags and open-comment flag of every row of `rows` when the
rows are scanned in order, the first one entered with the state `seed`. -/
def scratchHighlight (syn : EditorSyntax) : Bool → List eRow → List (List Nat × Bool)
  | _, [] => []
  | seed, r :: rs =>
    ((scanRow syn r.render seed).hl, (scanRow syn r.render seed).inComment)
      :: scratchHighlight syn (scanRow syn r.render seed).inComment rs

/-- Every row's stored highlight tags and open-comment flag are the ones a
from-scratch highlighting of the buffer produces. -/
def highlightConsistent (syn : EditorSyntax) (E : EditorConfig) : Bool :=
  E.row.map (fun r => (r.highlight, r.hlOpenComment)) == scratchHighlight syn false E.row

/-! ## Well-formed buffers -/

/-- Every row's `idx` is its position in the array. -/
def rowsNumbered (rows : List eRow) : Prop :=
  ∀ j, j < rows.length → (rows.getD j default).idx = (j : Int)

instance (rows : List eRow) : Decidable (rowsNumbered rows) := by
  unfold rowsNumbered
  infer_instance

/-- The close marker `*/` stands at display column `p` of `render`. -/
def closeAt (render : List Nat) (p : Nat) : Bool :=
  render.getD p 0 = 42 && render.getD (p + 1) 0 = 47

/-- The display content `render` holds the close marker `*/` somewhere. -/
def hasClose (render : List Nat) : Bool := (List.range render.length).any (closeAt render)

/-- A buffer built the way `EditorOpen` builds it: the lines appended in
order, each with `EditorInsertRow(E.numRows, line, len)`. -/
def appendRows (E : EditorConfig) (lines : List (List Nat)) : EditorConfig :=
  lines.foldl (fun E1 line => EditorInsertRow E1 E1.numRows line) E

/-- Every row holds the highlight tags and the open-comment flag that
`EditorUpdateSyntax` would store for it now. -/
def rowsFresh (E : EditorConfig) : Prop := ∀ k, k < E.row.length → E.rowAt k = freshRow E k

instance (E : EditorConfig) : Decidable (rowsFresh E) := by
  unfold rowsFresh
  infer_instance

/-! ## Example buffers -/

/-- An editor state with the given rows, as it is after loading them from a
file named `x.c` on a terminal of 24 lines and 80 columns: the C rule set is
selected and nothing is modified. -/
def loadedBuffer (rows : List eRow) : EditorConfig :=
  { InitEditor 24 80 with
      numRows := rows.length, row := rows, filename := some (cstr "x.c"),
      syntaxRules := some cSyntax }

/-- The two-row buffer `a /* b`, `c */ d` as `EditorOpen` leaves it. -/
def blockCommentBuffer : EditorConfig :=
  loadedBuffer
    [⟨0, cstr "a /* b", cstr "a /* b",
        [HL_NORMAL, HL_NORMAL, HL_MCOMMENT, HL_MCOMMENT, HL_MCOMMENT, HL_MCOMMENT], true⟩,
     ⟨1, cstr "c */ d", cstr "c */ d",
        [HL_MCOMMENT, HL_MCOMMENT, HL_MCOMMENT, HL_MCOMMENT, HL_NORMAL, HL_NORMAL], false⟩]

/-- The three-row buffer `//`, `/*`, `x` as `EditorOpen` leaves it. -/
def staleMergeBuffer : EditorConfig :=
  loadedBuffer
    [⟨0, cstr "//", cstr "//", [HL_COMMENT, HL_COMMENT], false⟩,
     ⟨1, cstr "/*", cstr "/*", [HL_MCOMMENT, HL_MCOMMENT], true⟩,
     ⟨2, cstr "x", cstr "x", [HL_MCOMMENT], true⟩]

/-- The buffer `staleMergeBuffer` after the keys Arrow-Down and Backspace. -/
def staleMergeAfter : EditorConfig :=
  { loadedBuffer
      [⟨0, cstr "///*", cstr "///*", [HL_COMMENT, HL_COMMENT, HL_COMMENT, HL_COMMENT], false⟩,
       ⟨1, cstr "x", cstr "x", [HL_MCOMMENT], true⟩] with
    curX := 2, curY := 0, dirty := 2 }

/-- The two-row buffer `"/*"`, `x` as `EditorOpen` leaves it. -/
def staleSplitBuffer : EditorConfig :=
  loadedBuffer
    [⟨0, cstr "\"/*\"", cstr "\"/*\"", [HL_STRING, HL_STRING, HL_STRING, HL_STRING], false⟩,
     ⟨1, cstr "x", cstr "x", [HL_NORMAL], false⟩]

/-- The buffer `staleSplitBuffer` after the keys Arrow-Right and Enter. -/
def staleSplitAfter : EditorConfig :=
  { loadedBuffer
      [⟨0, cstr "\"", cstr "\"", [HL_STRING], false⟩,
       ⟨1, cstr "/*\"", cstr "/*\"", [HL_MCOMMENT, HL_MCOMMENT, HL_MCOMMENT], true⟩,
       ⟨2, cstr "x", cstr "x", [HL_NORMAL], false⟩] with
    curX := 0, curY := 1, rndrX := 1, dirty := 1 }

/-- A one-row buffer holding `a`, a tab and `int`, not yet rendered. -/
def tabRowBuffer : EditorConfig := loadedBuffer [⟨0, cstr "a\tint", [], [], false⟩]

/-- The display column of the cursor as `EditorScroll` computes it. -/
def cursorRndrX (E : EditorConfig) : Int :=
  if E.curY < E.numRows then EditorRowCurXToRndrX (E.rowAt E.curY.toNat) E.curX else 0

/-! ## Terminal: reading a key -/

/-- What one call `read(STDIN_FILENO, &c, 1)` gives in raw mode (`VMIN = 0`,
`VTIME = 1`): a byte (the call returns 1), nothing within the timeout (it
returns 0), or an error (it returns -1) with `errno` equal to `EAGAIN` or
not. -/
inductive ReadResult where
  | byte (b : Nat)
  | timeout
  | error (eagain : Bool)
  deriving DecidableEq, Repr

/-- What a call of `EditorReadKey` ends in: it returns a key and leaves the
rest of the input, it dies in `Die("read")`, or it waits for a byte that never
comes. -/
inductive ReadKeyResult where
  | key (c : Int) (rest : List ReadResult)
  | died
  | starved
  deriving DecidableEq, Repr

/-- The value of a `char` holding the byte `b` as an `int`; `signedChar` tells
whether `char` is signed on the platform. -/
def charToInt (signedChar : Bool) (b : Nat) : Int :=
  if signedChar = true ∧ 128 ≤ b then (b : Int) - 256 else (b : Int)

/-- The next call of `read` on the input: once the recorded input is used up
every call times out. -/
def readOne : List ReadResult → ReadResult × List ReadResult
  | [] => (ReadResult.timeout, [])
  | r :: rest => (r, rest)

/-- The `switch (seq[1])` of `EditorReadKey` after `ESC [ <digit> ~`; `none`
when no case applies. -/
def escTildeKey (s1 : Nat) : Option Int :=
  if s1 = 49 then some HOME_KEY
  else if s1 = 51 then some DEL_KEY
  else if s1 = 52 then some END_KEY
  else if s1 = 53 then some PAGE_UP
  else if s1 = 54 then some PAGE_DOWN
  else if s1 = 55 then some HOME_KEY
  else if s1 = 56 then some END_KEY
  else none

/-- The `switch (seq[1])` of `EditorReadKey` after `ESC [` and a byte that is
not a digit; `none` when no case applies. -/
def escBracketKey (s1 : Nat) : Option Int :=
  if s1 = 65 then some ARROW_UP
  else if s1 = 66 then some ARROW_DOWN
  else if s1 = 67 then some ARROW_RIGHT
  else if s1 = 68 then some ARROW_LEFT
  else if s1 = 72 then some HOME_KEY
  else if s1 = 70 then some END_KEY
  else none

/-- The `switch (seq[1])` of `EditorReadKey` after `ESC O`; `none` when no case
applies. -/
def escOKey (s1 : Nat) : Option Int :=
  if s1 = 72 then some HOME_KEY
  else if s1 = 70 then some END_KEY
  else none

/-- The branch `if (c == '\\x1b')` of `EditorReadKey`: the input after the
escape byte. -/
def readEscape (input : List ReadResult) : ReadKeyResult :=
  match readOne input with
  | (ReadResult.byte s0, r1) =>
    match readOne r1 with
    | (ReadResult.byte s1, r2) =>
      if s0 = 91 then
        if 48 ≤ s1 ∧ s1 ≤ 57 then
          match readOne r2 with
          | (ReadResult.byte s2, r3) =>
            if s2 = 126 then
              match escTildeKey s1 with
              | some k => ReadKeyResult.key k r3
              | none => ReadKeyResult.key 27 r3
            else ReadKeyResult.key 27 r3
          | (_, r3) => ReadKeyResult.key 27 r3
        else
          match escBracketKey s1 with
          | some k => ReadKeyResult.key k r2
          | none => ReadKeyResult.key 27 r2
      else if s0 = 79 then
        match escOKey s1 with
        | some k => ReadKeyResult.key k r2
        | none => ReadKeyResult.key 27 r2
      else ReadKeyResult.key 27 r2
    | (_, r2) => ReadKeyResult.key 27 r2
  | (_, r1) => ReadKeyResult.key 27 r1

/-- The C function `EditorReadKey` as a function of what the successive calls
of `read` give. -/
def EditorReadKey (signedChar : Bool) : List ReadResult → ReadKeyResult
  | [] => ReadKeyResult.starved
  | ReadResult.byte b :: rest =>
    if b = 27 then readEscape rest else ReadKeyResult.key (charToInt signedChar b) rest
  | ReadResult.timeout :: rest => EditorReadKey signedChar rest
  | ReadResult.error true :: rest => EditorReadKey signedChar rest
  | ReadResult.error false :: _ => ReadKeyResult.died

/-- The escape sequences `EditorReadKey` decodes: the bytes after the escape
byte and the key. -/
def escapeTable : List (List Nat × Int) :=
  [([91, 65], ARROW_UP), ([91, 66], ARROW_DOWN), ([91, 67], ARROW_RIGHT), ([91, 68], ARROW_LEFT),
   ([91, 72], HOME_KEY), ([79, 72], HOME_KEY), ([91, 70], END_KEY), ([79, 70], END_KEY),
   ([91, 49, 126], HOME_KEY), ([91, 55, 126], HOME_KEY),
   ([91, 52, 126], END_KEY), ([91, 56, 126], END_KEY),
   ([91, 51, 126], DEL_KEY), ([91, 53, 126], PAGE_UP), ([91, 54, 126], PAGE_DOWN)]

/-! ## Find: the callback step by step -/

/-- The first statement of `EditorFindCallback`: a saved highlight array is
copied back into its row and freed. -/
def restoreSavedHL (G : EditorGlobals) : EditorGlobals :=
  match G.savedHL with
  | some saved =>
    let row := G.E.rowAt G.savedHLLine.toNat
    let row1 : eRow := { row with highlight := memcpy row.highlight saved row.render.length }
    { G with E := { G.E with row := G.E.row.set G.savedHLLine.toNat row1 }, savedHL := none }
  | none => G

/-- The row the loop of `EditorFindCallback` turns to from `current`. -/
def nextRow (numRows direction current : Int) : Int :=
  if current + direction = -1 then numRows - 1
  else if current + direction = numRows then 0
  else current + direction

/-- The rows the loop of `EditorFindCallback` looks at in `n` passes without a
match, starting from `current`. -/
def scanRows (numRows direction : Int) : Nat → Int → List Int
  | 0, _ => []
  | n + 1, current =>
    nextRow numRows direction current ::
      scanRows numRows direction n (nextRow numRows direction current)

/-- The globals as the loop of `EditorFindCallback` leaves them on a match in
row `current` at display column `m`. -/
def matchState (G : EditorGlobals) (query : List Nat) (current : Int) (m : Nat) :
    EditorGlobals :=
  let row := G.E.rowAt current.toNat
  let row1 : eRow :=
    { row with highlight := memset row.highlight m HL_MATCH (cString query).length }
  let E1 : EditorConfig :=
    { G.E with curY := current
               curX := EditorRowRendrXToCurX row (m : Int)
               rowOff := G.E.numRows
               row := G.E.row.set current.toNat row1 }
  { G with lastMatch := current, E := E1, savedHLLine := current
           savedHL := some (memcpy [] row.highlight row.render.length) }

/-- Following the specification: the text `q` stands in `text` at column
`d`. -/
def occursAt (text q : List Nat) (d : Nat) : Prop := d ≤ text.length ∧ q <+: text.drop d

instance (text q : List Nat) (d : Nat) : Decidable (occursAt text q d) := by
  unfold occursAt
  infer_instance

/-- Following the specification: the first occurrence of `q` in `text` is at
column `d`. -/
def firstOccurrenceAt (text q : List Nat) (d : Nat) : Prop :=
  occursAt text q d ∧ ∀ d1, d1 < d → ¬ occursAt text q d1

instance (text q : List Nat) (d : Nat) : Decidable (firstOccurrenceAt text q d) := by
  unfold firstOccurrenceAt
  infer_instance

/-- Following the specification: the text `q` occurs somewhere in `text`. -/
def containsText (text q : List Nat) : Prop := q <:+: text

instance (text q : List Nat) : Decidable (containsText text q) := by
  unfold containsText
  infer_instance

/-! ## Find: orders and example buffers -/

/-- Following the specification: the rows in the cyclic order `m+1, m+2, ...,
n-1, 0, ..., m`. -/
def cyclicForward (n m : Nat) : List Nat := List.range' (m + 1) (n - 1 - m) ++ List.range (m + 1)

/-- Following the specification: the rows in the cyclic order `m-1, ..., 0,
n-1, ..., m`. -/
def cyclicBackward (n m : Nat) : List Nat :=
  (List.range m).reverse ++ (List.range' m (n - m)).reverse

/-- The display string of row `i` holds the query: what `strstr(row->render,
query)` tests, both read as C strings. -/
def rowHasQuery (E : EditorConfig) (query : List Nat) (i : Nat) : Bool :=
  decide (containsText (cString (E.rowAt i).render) (cString query))

/-- The two-row buffer whose first row is a NUL byte followed by `x` and whose
second row is `a`, as `EditorOpen` leaves it, with the cursor on the second
row. -/
def nulRowBuffer : EditorConfig :=
  { loadedBuffer
      [⟨0, [0, 120], [0, 120], [HL_NORMAL, HL_NORMAL], false⟩,
       ⟨1, cstr "a", cstr "a", [HL_NORMAL], false⟩] with curY := 1 }

/-- The three-row buffer `x`, `a`, `x` as `EditorOpen` leaves it, with the
cursor on the second row. -/
def xaxBuffer : EditorConfig :=
  { loadedBuffer
      [⟨0, cstr "x", cstr "x", [HL_NORMAL], false⟩,
       ⟨1, cstr "a", cstr "a", [HL_NORMAL], false⟩,
       ⟨2, cstr "x", cstr "x", [HL_NORMAL], false⟩] with curY := 1 }

/-- The two-row buffer whose first row is `x` and whose second row is a NUL
byte followed by `x`, as `EditorOpen` leaves it. -/
def nulSecondBuffer : EditorConfig :=
  loadedBuffer
    [⟨0, cstr "x", cstr "x", [HL_NORMAL], false⟩,
     ⟨1, [0, 120], [0, 120], [HL_NORMAL, HL_NORMAL], false⟩]

/-! ## Cursor validity -/

/-- The cursor of `E` is valid: the row array has `numRows` rows,
`0 ≤ curY ≤ numRows` and `0 ≤ curX ≤ size` of the row `curY` (which is 0 on the
line past the last row). -/
def cursorValid (E : EditorConfig) : Prop :=
  E.numRows = E.row.length ∧ 0 ≤ E.curY ∧ E.curY ≤ E.numRows ∧ 0 ≤ E.curX
    ∧ E.curX ≤ (E.rowAt E.curY.toNat).size

instance (E : EditorConfig) : Decidable (cursorValid E) := by
  unfold cursorValid
  infer_instance

/-- The `switch(key)` of `EditorMoveCursor`. -/
def moveCore (E : EditorConfig) (key : Int) : EditorConfig :=
  let row : Option eRow := if E.curY ≥ E.numRows then none else some (E.rowAt E.curY.toNat)
  if key = ARROW_LEFT then
    if E.curX ≠ 0 then { E with curX := E.curX - 1 }
    else if E.curY > 0 then
      { E with curY := E.curY - 1, curX := (E.rowAt (E.curY - 1).toNat).size }
    else E
  else if key = ARROW_RIGHT then
    match row with
    | some r =>
      if E.curX < r.size then { E with curX := E.curX + 1 }
      else if E.curX = r.size then { E with curY := E.curY + 1, curX := 0 }
      else E
    | none => E
  else if key = ARROW_UP then
    if E.curY ≠ 0 then { E with curY := E.curY - 1 } else E
  else if key = ARROW_DOWN then
    if E.curY < E.numRows then { E with curY := E.curY + 1 } else E
  else E

/-- The end of `EditorMoveCursor`: `curX` is cut to the length of the row the
cursor is on now. -/
def clampCurX (E1 : EditorConfig) : EditorConfig :=
  let rowLen : Int := if E1.curY ≥ E1.numRows then 0 else (E1.rowAt E1.curY.toNat).size
  if E1.curX > rowLen then { E1 with curX := rowLen } else E1

/-! ## Output: drawing the rows -/

/-- The string `JEDITOR_VERSION`. -/
def JEDITOR_VERSION : List Nat := cstr "0.0.1"

/-- The decimal digits of `n`, most significant first, with `fuel` divisions
left. -/
def decimalDigits : Nat → Nat → List Nat
  | 0, _ => []
  | fuel + 1, n => if n < 10 then [48 + n] else decimalDigits fuel (n / 10) ++ [48 + n % 10]

/-- What the conversion `%d` of `snprintf` writes for `n`. -/
def formatInt (n : Int) : List Nat :=
  if n < 0 then 45 :: decimalDigits (n.natAbs + 1) n.natAbs
  else decimalDigits (n.toNat + 1) n.toNat

/-- The bytes of `buf` after `snprintf(buf, sizeof(buf), "\x1b[%dm", color)`;
they fit into the 16 bytes of `buf` for every 32-bit `color`. -/
def colorEscape (color : Int) : List Nat := [27, 91] ++ formatInt color ++ [109]

/-- The C function `abAppend(ab, str, len)`, `realloc` succeeding: the first
`len` bytes at `str` are appended. -/
def abAppend (ab str : List Nat) (len : Nat) : List Nat := ab ++ str.take len

/-- One pass of the loop `for(j = 0; j < len; ++j)` of `EditorDrawRows` on the
byte `c` with the tag `hl`: `ab` and `curColor` after the pass.  `after` is
what lies behind the one-byte local `sym` in memory: `abAppend(ab, &sym, 3)`
copies `sym` and these two bytes. -/
def drawColumn (ab : List Nat) (c hl : Nat) (after : Nat × Nat) (curColor : Int) :
    List Nat × Int :=
  if iscntrl (c : Int) = true then
    let sym : Nat := if c ≤ 26 then 64 + c else 63
    let ab1 := abAppend ab [27, 91, 55, 109] 4
    let ab2 := abAppend ab1 [sym, after.1, after.2] 3
    let ab3 := abAppend ab2 [27, 91, 109] 3
    if curColor ≠ -1 then
      (abAppend ab3 (colorEscape curColor) (colorEscape curColor).length, curColor)
    else (ab3, curColor)
  else if hl = HL_NORMAL then
    if curColor ≠ -1 then (abAppend (abAppend ab [27, 91, 51, 57, 109] 5) [c] 1, -1)
    else (abAppend ab [c] 1, curColor)
  else
    let color : Int := (EditorSyntaxToColor hl : Int)
    if color ≠ curColor then
      (abAppend (abAppend ab (colorEscape color) (colorEscape color).length) [c] 1, color)
    else (abAppend ab [c] 1, curColor)

/-- The loop `for(j = 0; j < len; ++j)` of `EditorDrawRows` over `c =
&render[colOff]` and `hl = &highlight[colOff]`, from `j` with `n` passes left;
`mem j` is what lies behind `sym` during pass `j`. -/
def drawColumns (render highlight : List Nat) (colOff : Int) (mem : Nat → Nat × Nat) :
    Nat → Nat → List Nat → Int → List Nat
  | 0, _, ab, _ => ab
  | n + 1, j, ab, curColor =>
    let r := drawColumn ab (render.getD (colOff + (j : Int)).toNat 0)
      (highlight.getD (colOff + (j : Int)).toNat 0) (mem j) curColor
    drawColumns render highlight colOff mem n (j + 1) r.1 r.2

/-- The local `len` of `EditorDrawRows` for the row at `fileRow`. -/
def drawLen (E : EditorConfig) (fileRow : Nat) : Int :=
  let len : Int := (E.rowAt fileRow).rndrSize - E.colOff
  let len1 : Int := if len < 0 then 0 else len
  if len1 > E.terminalCols then E.terminalCols else len1

/-- The `else` branch of the body of the loop of `EditorDrawRows`: the row at
`fileRow` is appended to `ab`. -/
def drawFileRow (E : EditorConfig) (fileRow : Nat) (mem : Nat → Nat × Nat) (ab : List Nat) :
    List Nat :=
  let row := E.rowAt fileRow
  abAppend
    (drawColumns row.render row.highlight E.colOff mem (drawLen E fileRow).toNat 0 ab (-1))
    [27, 91, 51, 57, 109] 5

/-- The welcome branch of the body of the loop of `EditorDrawRows`. -/
def drawWelcome (E : EditorConfig) (ab : List Nat) : List Nat :=
  let welcome := cstr "JEDITOR -- version " ++ JEDITOR_VERSION
  let welcomelen0 : Int := (welcome.length : Int)
  let welcomelen : Int := if welcomelen0 > E.terminalCols then E.terminalCols else welcomelen0
  let padding : Int := (E.terminalCols - welcomelen) / 2
  let ab1 := if padding ≠ 0 then abAppend ab [126] 1 else ab
  let padding1 : Int := if padding ≠ 0 then padding - 1 else padding
  let ab2 := ab1 ++ List.replicate padding1.toNat 32
  abAppend ab2 welcome welcomelen.toNat

/-- The body of the loop `for (y = 0; y < E.terminalRows; y++)` of
`EditorDrawRows` for the screen line `y`. -/
def drawScreenLine (E : EditorConfig) (mem : Nat → Nat × Nat) (y : Nat) (ab : List Nat) :
    List Nat :=
  let fileRow : Int := (y : Int) + E.rowOff
  let ab1 :=
    if fileRow ≥ E.numRows then
      if E.numRows = 0 ∧ (y : Int) = E.terminalRows / 3 then drawWelcome E ab
      else abAppend ab [126] 1
    else drawFileRow E fileRow.toNat mem ab
  abAppend (abAppend ab1 [27, 91, 75] 3) [13, 10] 2

/-- The loop of `EditorDrawRows` from the screen line `y`, with `n` passes
left. -/
def drawRowsLoop (E : EditorConfig) (mem : Nat → Nat → Nat × Nat) :
    Nat → Nat → List Nat → List Nat
  | 0, _, ab => ab
  | n + 1, y, ab => drawRowsLoop E mem n (y + 1) (drawScreenLine E (mem y) y ab)

/-- The C function `EditorDrawRows(ab)`; `mem y j` is what lies behind the
local `sym` in memory while column `j` of screen line `y` is drawn. -/
def EditorDrawRows (E : EditorConfig) (mem : Nat → Nat → Nat × Nat) (ab : List Nat) :
    List Nat :=
  drawRowsLoop E mem E.terminalRows.toNat 0 ab

/-! ## Drawing: what the specification says -/

/-- Following the specification: the colour a column with tag `hl` is to be
shown in, the default colour (written -1, as in `curColor`) for `HL_NORMAL`. -/
def requiredColor (hl : Nat) : Int :=
  if hl = HL_NORMAL then -1 else (EditorSyntaxToColor hl : Int)

/-- Following the specification: the escape sequence that selects `color`,
`ESC[39m` for the default colour and `ESC[<color>m` otherwise. -/
def selectColor (color : Int) : List Nat :=
  if color = -1 then [27, 91, 51, 57, 109] else colorEscape color

/-- Following the specification: the colour in effect when column `j` of the
visible slice is reached: the default colour at the start of the line, then
the colour required for the column before. -/
def colorInEffect (highlight : List Nat) (colOff : Int) : Nat → Int
  | 0 => -1
  | j + 1 => requiredColor (highlight.getD (colOff + (j : Int)).toNat 0)

/-- Following the specification: the bytes for column `j` of the visible slice
of a row without control characters: a colour escape exactly when the colour
required differs from the colour in effect, then the byte of the column. -/
def expectedColumn (render highlight : List Nat) (colOff : Int) (j : Nat) : List Nat :=
  (if requiredColor (highlight.getD (colOff + (j : Int)).toNat 0)
        ≠ colorInEffect highlight colOff j
    then selectColor (requiredColor (highlight.getD (colOff + (j : Int)).toNat 0)) else [])
    ++ [render.getD (colOff + (j : Int)).toNat 0]

/-- Following the specification: the number of columns of the row at `fileRow`
that are visible, `min(max(rndrSize - colOff, 0), terminalCols)`. -/
def visibleLen (E : EditorConfig) (fileRow : Nat) : Int :=
  min (max ((E.rowAt fileRow).rndrSize - E.colOff) 0) E.terminalCols

/-- Following the specification: `bytes` with the escape sequences removed.
The state is 0 in plain text, 1 after `ESC`, 2 inside a control sequence
`ESC [ ...`, which ends with a byte from `@` to `~`. -/
def stripEscapes : Nat → List Nat → List Nat
  | _, [] => []
  | 0, c :: rest => if c = 27 then stripEscapes 1 rest else c :: stripEscapes 0 rest
  | 1, c :: rest => if c = 91 then stripEscapes 2 rest else stripEscapes 0 rest
  | _ + 2, c :: rest =>
    if 64 ≤ c ∧ c ≤ 126 then stripEscapes 0 rest else stripEscapes 2 rest

/-- The one-row buffer `//a` followed by the byte 1 (Ctrl-A) and `b`, as
`EditorOpen` leaves it: a line comment with a control character in it. -/
def controlRowBuffer : EditorConfig :=
  loadedBuffer [⟨0, [47, 47, 97, 1, 98], [47, 47, 97, 1, 98],
    [HL_COMMENT, HL_COMMENT, HL_COMMENT, HL_COMMENT, HL_COMMENT], false⟩]

/-! ## Keywords: what the specification says -/

/-- The number of bytes of the keyword entry `kw` that are compared: the entry
without the trailing `|` that marks the second class. -/
def kwLen (kw : List Nat) : Nat :=
  if kw.getD (kw.length - 1) 0 = 124 then kw.length - 1 else kw.length

/-- The text of the keyword entry `kw`. -/
def kwBody (kw : List Nat) : List Nat := kw.take (kwLen kw)

/-- The tag of the keyword entry `kw`: `HL_KEYWORD2` for an entry listed with a
trailing `|`, `HL_KEYWORD1` for the others. -/
def kwTag (kw : List Nat) : Nat :=
  if kw.getD (kw.length - 1) 0 = 124 then HL_KEYWORD2 else HL_KEYWORD1

/-- The tag `t` is a keyword tag. -/
def kwTagged (t : Nat) : Prop := t = HL_KEYWORD1 ∨ t = HL_KEYWORD2

instance (t : Nat) : Decidable (kwTagged t) := by
  unfold kwTagged
  infer_instance

/-- What stands before display column `s`: nothing (the column starts the
row), a separator, or a quote character tagged as part of a string. -/
def prevOk (render hl : List Nat) (s : Nat) : Prop :=
  s = 0 ∨ IsSeparator (render.getD (s - 1) 0) = true
    ∨ ((render.getD (s - 1) 0 = 34 ∨ render.getD (s - 1) 0 = 39) ∧ hl.getD (s - 1) 0 = HL_STRING)

/-- Following the specification: the display columns from `s` on are a keyword
span for the entry `kw` of the table: their text is the keyword, every one of
them carries the tag of the entry, the span ends the row or a separator follows
it, and `prevOk` holds of what stands before it. -/
def keywordSpan (render hl : List Nat) (s : Nat) (kw : List Nat) : Prop :=
  kw ∈ C_HL_Keywords ∧
  (∀ q, q < (kwBody kw).length →
    render.getD (s + q) 0 = (kwBody kw).getD q 0 ∧ hl.getD (s + q) 0 = kwTag kw) ∧
  s + (kwBody kw).length ≤ render.length ∧
  (s + (kwBody kw).length = render.length
    ∨ IsSeparator (render.getD (s + (kwBody kw).length) 0) = true) ∧
  prevOk render hl s

/-- Column `p` lies in a keyword span that ends at or before column `n`. -/
def goodBelow (render hl : List Nat) (n p : Nat) : Prop :=
  ∃ s kw, s ≤ p ∧ p < s + (kwBody kw).length ∧ s + (kwBody kw).length ≤ n
    ∧ keywordSpan render hl s kw

/-- What holds of the locals of the scan loop of `EditorUpdateSyntax` each time
the loop test is reached, under the C rule set. -/
def scanInv (render : List Nat) (s : ScanState) : Prop :=
  s.hl.length = render.length ∧
  (∀ q, s.i ≤ q → s.hl.getD q 0 = HL_NORMAL) ∧
  (∀ p, p < s.i → kwTagged (s.hl.getD p 0) → goodBelow render s.hl s.i p) ∧
  (s.inString = 0 ∨ s.inString = 34 ∨ s.inString = 39) ∧
  (s.prevSep = true → s.inComment = false → s.inString = 0 → prevOk render s.hl s.i)

/-- Every keyword tag of `hl` lies in a keyword span. -/
def scanDone (render hl : List Nat) : Prop :=
  ∀ p, kwTagged (hl.getD p 0) → ∃ n, goodBelow render hl n p

instance (render hl : List Nat) (s : Nat) : Decidable (prevOk render hl s) := by
  unfold prevOk
  infer_instance

instance (render hl : List Nat) (s : Nat) (kw : List Nat) :
    Decidable (keywordSpan render hl s kw) := by
  unfold keywordSpan
  infer_instance

/-- Following the specification: the span of the table entry `kw` at display
column `s` as the claim words it, the column before it holding a separator
unless the span starts the row. -/
def claimedSpan (render hl : List Nat) (s : Nat) (kw : List Nat) : Prop :=
  kw ∈ C_HL_Keywords ∧
  (∀ q, q < (kwBody kw).length →
    render.getD (s + q) 0 = (kwBody kw).getD q 0 ∧ hl.getD (s + q) 0 = kwTag kw) ∧
  s + (kwBody kw).length ≤ render.length ∧
  (s + (kwBody kw).length = render.length
    ∨ IsSeparator (render.getD (s + (kwBody kw).length) 0) = true) ∧
  (s = 0 ∨ IsSeparator (render.getD (s - 1) 0) = true)

instance (render hl : List Nat) (s : Nat) (kw : List Nat) :
    Decidable (claimedSpan render hl s kw) := by
  unfold claimedSpan
  infer_instance

/-- The one-row buffer `"a"int x` as `EditorOpen` leaves it: the string `"a"`
directly followed by `int x`. -/
def quoteKeywordBuffer : EditorConfig :=
  loadedBuffer
    [⟨0, [34, 97, 34, 105, 110, 116, 32, 120], [34, 97, 34, 105, 110, 116, 32, 120],
        [HL_STRING, HL_STRING, HL_STRING, HL_KEYWORD2, HL_KEYWORD2, HL_KEYWORD2,
          HL_NORMAL, HL_NORMAL], false⟩]

/-! ## Theorems: the column mapping -/

theorem advanceRx_gt (c : Nat) (rx : Int) : rx < advanceRx c rx := by
  unfold advanceRx JEDITOR_TAB_STOP
  split
  · have h1 : rx % ((8 : Nat) : Int) < 8 := Int.emod_lt_of_pos rx (by norm_num)
    have h2 : 0 ≤ rx % ((8 : Nat) : Int) := Int.emod_nonneg rx (by norm_num)
    push_cast at h1 h2 ⊢
    omega
  · omega

theorem curXToRndrXLoop_add (chars : List Nat) (n m j : Nat) (rx : Int) :
    curXToRndrXLoop chars (n + m) j rx
      = curXToRndrXLoop chars m (j + n) (curXToRndrXLoop chars n j rx) := by
  induction n generalizing j rx with
  | zero => simp [curXToRndrXLoop]
  | succ n ih =>
    have : n + 1 + m = (n + m) + 1 := by omega
    rw [this]
    simp only [curXToRndrXLoop]
    rw [ih]
    congr 1
    omega

theorem curXToRndrXLoop_ge (chars : List Nat) (n j : Nat) (rx : Int) :
    rx + n ≤ curXToRndrXLoop chars n j rx := by
  induction n generalizing j rx with
  | zero => simp [curXToRndrXLoop]
  | succ n ih =>
    simp only [curXToRndrXLoop]
    have h1 := ih (j + 1) (advanceRx (chars.getD j 0) rx)
    have h2 := advanceRx_gt (chars.getD j 0) rx
    push_cast
    omega

theorem rendrXToCurXLoop_inverse (chars : List Nat) (n k cx : Nat) (curRx : Int) (hk : k ≤ n) :
    rendrXToCurXLoop chars (curXToRndrXLoop chars k cx curRx) n cx curRx = ((cx + k : Nat) : Int) := by
  induction n generalizing k cx curRx with
  | zero =>
    have : k = 0 := by omega
    subst this
    simp [rendrXToCurXLoop]
  | succ n ih =>
    cases k with
    | zero =>
      simp only [curXToRndrXLoop, rendrXToCurXLoop]
      have := advanceRx_gt (chars.getD cx 0) curRx
      rw [if_pos this]
      simp
    | succ k =>
      simp only [curXToRndrXLoop, rendrXToCurXLoop]
      have h1 := curXToRndrXLoop_ge chars k (cx + 1) (advanceRx (chars.getD cx 0) curRx)
      have h2 : ¬ (advanceRx (chars.getD cx 0) curRx
          > curXToRndrXLoop chars k (cx + 1) (advanceRx (chars.getD cx 0) curRx)) := by
        have : (0 : Int) ≤ (k : Int) := Int.ofNat_nonneg k
        omega
      rw [if_neg h2, ih k (cx + 1) _ (by omega)]
      congr 1
      omega

/-- C1: for every row and every logical column `c` with `0 ≤ c ≤ row.size`,
mapping `c` to its display column with `EditorRowCurXToRndrX` and back with
`EditorRowRendrXToCurX` gives `c` again, whatever tabs the row holds. -/
theorem C1_rendrX_curX_roundtrip (row : eRow) (c : Int) (h0 : 0 ≤ c) (h1 : c ≤ row.size) :
    EditorRowRendrXToCurX row (EditorRowCurXToRndrX row c) = c := by
  unfold EditorRowRendrXToCurX EditorRowCurXToRndrX
  unfold eRow.size at h1
  rw [rendrXToCurXLoop_inverse row.chars row.chars.length c.toNat 0 0 (by omega)]
  simp
  omega

theorem C1_rendrX_curX_roundtrip_witness :
    EditorRowRendrXToCurX ⟨0, [9, 97, 9, 98], [], [], false⟩
      (EditorRowCurXToRndrX ⟨0, [9, 97, 9, 98], [], [], false⟩ 3) = 3 :=
  C1_rendrX_curX_roundtrip ⟨0, [9, 97, 9, 98], [], [], false⟩ 3 (by decide) (by decide)

/-- C2: for every row and all logical columns `c1 ≤ c2 ≤ row.size`, the display
column of `c1` is at most the display column of `c2`: `EditorRowCurXToRndrX`
is monotonically non-decreasing in the logical column. -/
theorem C2_curX_to_rndrX_monotone (row : eRow) (c1 c2 : Int) (h12 : c1 ≤ c2)
    (_h2 : c2 ≤ row.size) :
    EditorRowCurXToRndrX row c1 ≤ EditorRowCurXToRndrX row c2 := by
  unfold EditorRowCurXToRndrX
  have hsplit : c2.toNat = c1.toNat + (c2.toNat - c1.toNat) := by omega
  rw [hsplit, curXToRndrXLoop_add]
  have := curXToRndrXLoop_ge row.chars (c2.toNat - c1.toNat) (0 + c1.toNat)
    (curXToRndrXLoop row.chars c1.toNat 0 0)
  have h0 : (0 : Int) ≤ ((c2.toNat - c1.toNat : Nat) : Int) := Int.ofNat_nonneg _
  omega

theorem C2_curX_to_rndrX_monotone_witness :
    EditorRowCurXToRndrX ⟨0, [9, 97, 9, 98], [], [], false⟩ 1
      ≤ EditorRowCurXToRndrX ⟨0, [9, 97, 9, 98], [], [], false⟩ 3 :=
  C2_curX_to_rndrX_monotone ⟨0, [9, 97, 9, 98], [], [], false⟩ 1 3 (by decide) (by decide)

/-! ## Theorems: what re-highlighting leaves alone -/

theorem getD_set_self {α : Type} (l : List α) (i : Nat) (a d : α) (h : i < l.length) :
    (l.set i a).getD i d = a := by
  simp [List.getD_eq_getElem?_getD, h]

theorem getD_set_ne {α : Type} (l : List α) (i j : Nat) (a d : α) (h : i ≠ j) :
    (l.set i a).getD j d = l.getD j d := by
  simp [List.getD_eq_getElem?_getD, List.getElem?_set_ne h]

theorem map_base_set (l : List eRow) (i : Nat) (r : eRow)
    (h : r.base = (l.getD i default).base) :
    (l.set i r).map eRow.base = l.map eRow.base := by
  induction l generalizing i with
  | nil => simp
  | cons a t ih =>
    cases i with
    | zero => simpa using h
    | succ i =>
      simp only [List.set_cons_succ, List.map_cons]
      rw [ih i (by simpa using h)]

theorem rowAt_base_of_map (E E1 : EditorConfig)
    (h : E1.row.map eRow.base = E.row.map eRow.base) (j : Nat) :
    (E1.rowAt j).base = (E.rowAt j).base := by
  have hlen : E1.row.length = E.row.length := by
    simpa using congrArg List.length h
  unfold EditorConfig.rowAt
  by_cases hj : j < E.row.length
  · have h1 : (E1.row.map eRow.base)[j]? = (E.row.map eRow.base)[j]? := by rw [h]
    simp only [List.getElem?_map] at h1
    rw [List.getD_eq_getElem?_getD, List.getD_eq_getElem?_getD]
    rw [List.getElem?_eq_getElem (by omega), List.getElem?_eq_getElem hj] at h1 ⊢
    simpa using h1
  · rw [List.getD_eq_default _ _ (by omega), List.getD_eq_default _ _ (by omega)]

theorem freshRow_base (E : EditorConfig) (pos : Nat) :
    (freshRow E pos).base = (E.rowAt pos).base := by
  unfold freshRow
  split <;> rfl

/-- `updateSyntaxFuel` written with `freshRow`. -/
theorem updateSyntaxFuel_eq (fuel : Nat) (E : EditorConfig) (pos : Nat) :
    updateSyntaxFuel fuel E pos =
      if E.syntaxRules.isSome = true
          ∧ ((E.rowAt pos).hlOpenComment != (freshRow E pos).hlOpenComment) = true
          ∧ (E.rowAt pos).idx + 1 < E.numRows then
        match fuel with
        | 0 => { E with row := E.row.set pos (freshRow E pos) }
        | fuel1 + 1 =>
          updateSyntaxFuel fuel1 { E with row := E.row.set pos (freshRow E pos) }
            ((E.rowAt pos).idx + 1).toNat
      else { E with row := E.row.set pos (freshRow E pos) } := by
  cases fuel <;>
  · conv_lhs => unfold updateSyntaxFuel
    unfold freshRow seedOf
    cases hs : E.syntaxRules <;> simp

theorem updateSyntaxFuel_frame (fuel : Nat) (E : EditorConfig) (pos : Nat) :
    ∃ rows, updateSyntaxFuel fuel E pos = { E with row := rows }
      ∧ rows.map eRow.base = E.row.map eRow.base := by
  induction fuel generalizing E pos with
  | zero =>
    rw [updateSyntaxFuel_eq]
    refine ⟨E.row.set pos (freshRow E pos), by split <;> rfl, ?_⟩
    exact map_base_set _ _ _ (freshRow_base E pos)
  | succ n ih =>
    rw [updateSyntaxFuel_eq]
    split
    · obtain ⟨rows, h1, h2⟩ := ih { E with row := E.row.set pos (freshRow E pos) }
        ((E.rowAt pos).idx + 1).toNat
      refine ⟨rows, h1, ?_⟩
      rw [h2]
      exact map_base_set _ _ _ (freshRow_base E pos)
    · exact ⟨E.row.set pos (freshRow E pos), rfl, map_base_set _ _ _ (freshRow_base E pos)⟩

theorem scanRow_nil (syn : EditorSyntax) (seed : Bool) :
    scanRow syn [] seed = ⟨0, true, 0, seed, []⟩ := by
  simp [scanRow, scanLoop]

theorem updateSyntaxFuel_out_of_range (fuel : Nat) (E : EditorConfig) (pos : Nat)
    (hpos : E.row.length ≤ pos) : updateSyntaxFuel fuel E pos = E := by
  have hrow : E.rowAt pos = default := by
    unfold EditorConfig.rowAt
    exact List.getD_eq_default _ _ hpos
  have hfresh : (freshRow E pos).hlOpenComment = false := by
    unfold freshRow seedOf
    rw [hrow]
    cases E.syntaxRules <;> simp [scanRow_nil] <;> rfl
  rw [updateSyntaxFuel_eq, hfresh, hrow]
  have : ((default : eRow).hlOpenComment != false) = false := rfl
  simp [this, List.set_eq_of_length_le hpos]

theorem rowsNumbered_of_map (rows rows1 : List eRow)
    (h : rows1.map eRow.base = rows.map eRow.base) (hn : rowsNumbered rows) :
    rowsNumbered rows1 := by
  intro j hj
  have hlen : rows1.length = rows.length := by simpa using congrArg List.length h
  have h1 : (rows1.map eRow.base)[j]? = (rows.map eRow.base)[j]? := by rw [h]
  simp only [List.getElem?_map] at h1
  rw [List.getElem?_eq_getElem hj, List.getElem?_eq_getElem (by omega)] at h1
  have h2 := hn j (by omega)
  rw [List.getD_eq_getElem?_getD, List.getElem?_eq_getElem (by omega)] at h2 ⊢
  simp only [Option.map_some', Option.some.injEq, eRow.base, Prod.mk.injEq] at h1
  simp only [Option.getD_some] at h2 ⊢
  rw [h1.1]
  exact h2

theorem take_succ_set {α : Type} (l : List α) (i : Nat) (a : α) (h : i < l.length) :
    (l.set i a).take (i + 1) = l.take i ++ [a] := by
  induction l generalizing i with
  | nil => simp at h
  | cons b t ih =>
    cases i with
    | zero => simp
    | succ i =>
      simp only [List.set_cons_succ, List.take_succ_cons, List.cons_append]
      rw [ih i (by simpa using h)]

theorem rowAt_idx (E : EditorConfig) (pos : Nat) (hidx : rowsNumbered E.row)
    (hpos : pos < E.row.length) : (E.rowAt pos).idx = (pos : Int) := hidx pos hpos

theorem updateSyntaxFuel_take (fuel : Nat) (E : EditorConfig) (pos : Nat)
    (hidx : rowsNumbered E.row) (hpos : pos < E.row.length) :
    (updateSyntaxFuel fuel E pos).row.take (pos + 1) = E.row.take pos ++ [freshRow E pos] := by
  induction fuel generalizing E pos with
  | zero =>
    rw [updateSyntaxFuel_eq]
    split <;> exact take_succ_set _ _ _ hpos
  | succ n ih =>
    rw [updateSyntaxFuel_eq]
    split
    · rw [rowAt_idx E pos hidx hpos]
      have hnext : ((pos : Int) + 1).toNat = pos + 1 := by omega
      rw [hnext]
      show List.take (pos + 1) (updateSyntaxFuel n _ (pos + 1)).row = _
      by_cases hlen : pos + 1 < E.row.length
      · have hidx1 : rowsNumbered (E.row.set pos (freshRow E pos)) :=
          rowsNumbered_of_map _ _ (map_base_set _ _ _ (freshRow_base E pos)) hidx
        have h1 := ih { E with row := E.row.set pos (freshRow E pos) } (pos + 1) hidx1
          (by simpa using hlen)
        have h2 := congrArg (List.take (pos + 1)) h1
        rw [List.take_take] at h2
        simp only [Nat.min_def] at h2
        rw [if_pos (by omega)] at h2
        rw [h2, List.take_append_of_le_length (by simp; omega), List.take_take]
        simp only [Nat.min_def]
        rw [if_pos (by omega)]
        exact take_succ_set _ _ _ hpos
      · rw [updateSyntaxFuel_out_of_range _ _ _ (by simp only [List.length_set]; omega)]
        exact take_succ_set _ _ _ hpos
    · exact take_succ_set _ _ _ hpos

theorem updateSyntaxFuel_rowAt (fuel : Nat) (E : EditorConfig) (pos : Nat)
    (hidx : rowsNumbered E.row) (hpos : pos < E.row.length) :
    (updateSyntaxFuel fuel E pos).rowAt pos = freshRow E pos := by
  have h := updateSyntaxFuel_take fuel E pos hidx hpos
  have h1 := congrArg (fun l => l.getD pos default) h
  simp only [List.getD_eq_getElem?_getD] at h1
  rw [List.getElem?_take_of_lt (by omega)] at h1
  unfold EditorConfig.rowAt
  rw [List.getD_eq_getElem?_getD, h1]
  rw [List.getElem?_append_right (by simp)]
  simp [List.length_take, Nat.min_eq_left (Nat.le_of_lt hpos)]

theorem updateSyntaxFuel_rowAt_lt (fuel : Nat) (E : EditorConfig) (pos j : Nat)
    (hidx : rowsNumbered E.row) (hpos : pos < E.row.length) (hj : j < pos) :
    (updateSyntaxFuel fuel E pos).rowAt j = E.rowAt j := by
  have h := updateSyntaxFuel_take fuel E pos hidx hpos
  have h1 := congrArg (fun l => l.getD j default) h
  simp only [List.getD_eq_getElem?_getD] at h1
  rw [List.getElem?_take_of_lt (by omega)] at h1
  unfold EditorConfig.rowAt
  rw [List.getD_eq_getElem?_getD, h1]
  rw [List.getElem?_append_left (by simp; omega)]
  rw [List.getElem?_take_of_lt hj, List.getD_eq_getElem?_getD]

theorem rowAt_set_self (E : EditorConfig) (pos : Nat) (r : eRow) (h : pos < E.row.length) :
    EditorConfig.rowAt { E with row := E.row.set pos r } pos = r := by
  unfold EditorConfig.rowAt
  exact getD_set_self _ _ _ _ h

theorem rowAt_set_ne (E : EditorConfig) (pos j : Nat) (r : eRow) (h : pos ≠ j) :
    EditorConfig.rowAt { E with row := E.row.set pos r } j = E.rowAt j := by
  unfold EditorConfig.rowAt
  exact getD_set_ne _ _ _ _ _ h

theorem rowsNumbered_set (rows : List eRow) (pos : Nat) (r : eRow)
    (hn : rowsNumbered rows) (hr : r.idx = (rows.getD pos default).idx) :
    rowsNumbered (rows.set pos r) := by
  intro j hj
  rw [List.length_set] at hj
  by_cases h : pos = j
  · subst h
    rw [getD_set_self _ _ _ _ hj, hr]
    exact hn pos hj
  · rw [getD_set_ne _ _ _ _ _ h]
    exact hn j hj

/-- `EditorUpdateRow` on a row that has just been stored at `pos`. -/
theorem EditorUpdateRow_set (E : EditorConfig) (pos : Nat) (r : eRow) (h : pos < E.row.length) :
    EditorUpdateRow { E with row := E.row.set pos r } pos
      = updateSyntaxFuel E.row.length
          { E with row := E.row.set pos { r with render := renderLoop r.chars [] } } pos := by
  unfold EditorUpdateRow EditorUpdateSyntax
  rw [rowAt_set_self E pos r h]
  simp only [List.set_set, List.length_set]

theorem EditorUpdateRow_eq (E : EditorConfig) (pos : Nat) :
    EditorUpdateRow E pos
      = updateSyntaxFuel E.row.length
          { E with row := E.row.set pos ⟨(E.rowAt pos).idx, (E.rowAt pos).chars,
              renderLoop (E.rowAt pos).chars [], (E.rowAt pos).highlight,
              (E.rowAt pos).hlOpenComment⟩ } pos := by
  unfold EditorUpdateRow EditorUpdateSyntax
  simp only [List.length_set]

theorem freshRow_highlight_congr (E E1 : EditorConfig) (pos : Nat)
    (hs : E.syntaxRules = E1.syntaxRules)
    (hr : (E.rowAt pos).render = (E1.rowAt pos).render)
    (hseed : seedOf E pos = seedOf E1 pos) :
    (freshRow E pos).highlight = (freshRow E1 pos).highlight := by
  unfold freshRow
  rw [← hs, ← hr, ← hseed]
  cases E.syntaxRules <;> rfl

theorem freshRow_chars (E : EditorConfig) (pos : Nat) :
    (freshRow E pos).chars = (E.rowAt pos).chars := by
  have := freshRow_base E pos
  simp only [eRow.base, Prod.mk.injEq] at this
  exact this.2.1

theorem freshRow_render (E : EditorConfig) (pos : Nat) :
    (freshRow E pos).render = (E.rowAt pos).render := by
  have := freshRow_base E pos
  simp only [eRow.base, Prod.mk.injEq] at this
  exact this.2.2

theorem freshRow_idx (E : EditorConfig) (pos : Nat) :
    (freshRow E pos).idx = (E.rowAt pos).idx := by
  have := freshRow_base E pos
  simp only [eRow.base, Prod.mk.injEq] at this
  exact this.1

theorem eraseIdx_insert {α : Type} (l : List α) (n : Nat) (a : α) (h : n ≤ l.length) :
    (l.take n ++ a :: l.drop n).eraseIdx n = l := by
  induction l generalizing n with
  | nil =>
    have : n = 0 := by simpa using h
    subst this
    simp
  | cons b t ih =>
    cases n with
    | zero => simp
    | succ n =>
      simp only [List.take_succ_cons, List.drop_succ_cons, List.cons_append, List.eraseIdx_cons_succ]
      rw [ih n (by simpa using h)]

/-! ## Theorems: inserting then deleting a character -/

theorem seedOf_eq_of_before (E E1 : EditorConfig) (pos : Nat)
    (hidx : (E.rowAt pos).idx = (pos : Int)) (hidx1 : (E1.rowAt pos).idx = (pos : Int))
    (hbefore : ∀ j, j < pos → E1.rowAt j = E.rowAt j) :
    seedOf E1 pos = seedOf E pos := by
  unfold seedOf
  rw [hidx, hidx1]
  cases pos with
  | zero => simp
  | succ p =>
    have : (((p + 1 : Nat) : Int) - 1).toNat = p := by omega
    rw [this, hbefore p (by omega)]

/-- What `EditorUpdateRow` does to a buffer whose rows are numbered, after a
row `r` has been stored at `pos`: the rows above `pos` stay, the row at `pos`
is `r` with its display content and highlighting recomputed. -/
theorem EditorUpdateRow_set_spec (E : EditorConfig) (pos : Nat) (r : eRow)
    (hpos : pos < E.row.length) (hidx : rowsNumbered E.row) (hr : r.idx = (E.rowAt pos).idx) :
    ∃ rows, EditorUpdateRow { E with row := E.row.set pos r } pos = { E with row := rows }
      ∧ rows.length = E.row.length ∧ rowsNumbered rows
      ∧ rows.getD pos default
          = freshRow { E with row := E.row.set pos { r with render := renderLoop r.chars [] } } pos
      ∧ ∀ j, j < pos → rows.getD j default = E.rowAt j := by
  rw [EditorUpdateRow_set E pos r hpos]
  have hnumX : rowsNumbered
      (EditorConfig.row { E with row := E.row.set pos { r with render := renderLoop r.chars [] } }) :=
    rowsNumbered_set E.row pos _ hidx hr
  obtain ⟨rows, hr1, hr2⟩ := updateSyntaxFuel_frame E.row.length
    { E with row := E.row.set pos { r with render := renderLoop r.chars [] } } pos
  have hat := updateSyntaxFuel_rowAt E.row.length
    { E with row := E.row.set pos { r with render := renderLoop r.chars [] } } pos hnumX
    (by simpa using hpos)
  have hlt := fun j (hj : j < pos) =>
    updateSyntaxFuel_rowAt_lt E.row.length
      { E with row := E.row.set pos { r with render := renderLoop r.chars [] } } pos j hnumX
      (by simpa using hpos) hj
  rw [hr1] at hat hlt
  refine ⟨rows, hr1, ?_, ?_, hat, ?_⟩
  · simpa using congrArg List.length hr2
  · exact rowsNumbered_of_map _ _ hr2 hnumX
  · intro j hj
    have := hlt j hj
    rw [rowAt_set_ne E pos j _ (by omega)] at this
    exact this

/-- C3: for a row of a buffer whose rows are numbered by position and whose
derived fields are up to date (re-running `EditorUpdateRow` on it changes
neither its display content nor its highlight tags), for every column
`0 ≤ col ≤ row.size` and every character `ch`: `EditorRowInsertChar(row, col, ch)`
followed by `EditorRowDelChar(row, col)` leaves `chars`, `size`, `render`,
`rndrSize` and the highlight tags of the row as they were. -/
theorem C3_insert_then_delete_restores_row (E : EditorConfig) (pos : Nat) (col ch : Int)
    (hpos : pos < E.row.length) (hidx : rowsNumbered E.row)
    (hrender : ((EditorUpdateRow E pos).rowAt pos).render = (E.rowAt pos).render)
    (hhl : ((EditorUpdateRow E pos).rowAt pos).highlight = (E.rowAt pos).highlight)
    (h0 : 0 ≤ col) (h1 : col ≤ (E.rowAt pos).size) :
    ((EditorRowDelChar (EditorRowInsertChar E pos col ch) pos col).rowAt pos).chars
        = (E.rowAt pos).chars
      ∧ ((EditorRowDelChar (EditorRowInsertChar E pos col ch) pos col).rowAt pos).size
        = (E.rowAt pos).size
      ∧ ((EditorRowDelChar (EditorRowInsertChar E pos col ch) pos col).rowAt pos).render
        = (E.rowAt pos).render
      ∧ ((EditorRowDelChar (EditorRowInsertChar E pos col ch) pos col).rowAt pos).rndrSize
        = (E.rowAt pos).rndrSize
      ∧ ((EditorRowDelChar (EditorRowInsertChar E pos col ch) pos col).rowAt pos).highlight
        = (E.rowAt pos).highlight := by
  -- the up-to-date hypotheses, unfolded
  have hrowidx : (E.rowAt pos).idx = (pos : Int) := hidx pos hpos
  have hnum0 : rowsNumbered (E.row.set pos ⟨(E.rowAt pos).idx, (E.rowAt pos).chars,
      renderLoop (E.rowAt pos).chars [], (E.rowAt pos).highlight,
      (E.rowAt pos).hlOpenComment⟩) := rowsNumbered_set _ _ _ hidx rfl
  rw [EditorUpdateRow_eq, updateSyntaxFuel_rowAt _ _ _ hnum0 (by simpa using hpos)] at hrender hhl
  rw [freshRow_render, rowAt_set_self E pos _ hpos] at hrender
  simp only at hrender
  -- the state after the insertion
  have hcol : ¬ (col < 0 ∨ col > (E.rowAt pos).size) := by omega
  obtain ⟨rowsA, hEA, hlenA, hnumA, hatA, hltA⟩ := EditorUpdateRow_set_spec E pos
    { E.rowAt pos with chars := (E.rowAt pos).chars.take col.toNat
        ++ (ch % 256).toNat :: (E.rowAt pos).chars.drop col.toNat } hpos hidx rfl
  have hA : EditorRowInsertChar E pos col ch = { E with row := rowsA, dirty := E.dirty + 1 } := by
    unfold EditorRowInsertChar
    simp only [if_neg hcol]
    rw [hEA]
  have hcharsA : (rowsA.getD pos default).chars = (E.rowAt pos).chars.take col.toNat
        ++ (ch % 256).toNat :: (E.rowAt pos).chars.drop col.toNat := by
    rw [hatA, freshRow_chars, rowAt_set_self E pos _ hpos]
  have hidxA : (rowsA.getD pos default).idx = (pos : Int) := hnumA pos (by omega)
  -- the state after the deletion
  have hcolB : ¬ (col < 0 ∨ col ≥ (rowsA.getD pos default).size) := by
    unfold eRow.size at h1 ⊢
    rw [hcharsA]
    simp only [List.length_append, List.length_cons, List.length_take, List.length_drop]
    push_cast
    omega
  have herase : (rowsA.getD pos default).chars.eraseIdx col.toNat = (E.rowAt pos).chars := by
    rw [hcharsA]
    apply eraseIdx_insert
    unfold eRow.size at h1
    omega
  obtain ⟨rowsB, hEB, hlenB, hnumB, hatB, hltB⟩ := EditorUpdateRow_set_spec
    { E with row := rowsA, dirty := E.dirty + 1 } pos
    { EditorConfig.rowAt { E with row := rowsA, dirty := E.dirty + 1 } pos with
        chars := (EditorConfig.rowAt { E with row := rowsA, dirty := E.dirty + 1 } pos).chars.eraseIdx
          col.toNat }
    (by simpa [hlenA] using hpos) hnumA rfl
  have hB : EditorRowDelChar (EditorRowInsertChar E pos col ch) pos col
      = { E with row := rowsB, dirty := E.dirty + 1 + 1 } := by
    rw [hA]
    unfold EditorRowDelChar
    have hcolB1 : ¬ (col < 0 ∨ col ≥
        (EditorConfig.rowAt { E with row := rowsA, dirty := E.dirty + 1 } pos).size) := hcolB
    simp only [if_neg hcolB1]
    rw [hEB]
  have hrowB : EditorConfig.rowAt { E with row := rowsB, dirty := E.dirty + 1 + 1 } pos
      = rowsB.getD pos default := rfl
  have hrowA : EditorConfig.rowAt { E with row := rowsA, dirty := E.dirty + 1 } pos
      = rowsA.getD pos default := rfl
  rw [hB, hrowB, hatB]
  rw [hrowA, herase]
  have hposA : pos < rowsA.length := by omega
  refine ⟨?_, ?_, ?_, ?_, ?_⟩
  · rw [freshRow_chars, rowAt_set_self _ pos _ hposA]
  · unfold eRow.size
    rw [freshRow_chars, rowAt_set_self _ pos _ hposA]
  · rw [freshRow_render, rowAt_set_self _ pos _ hposA]
    exact hrender
  · unfold eRow.rndrSize
    rw [freshRow_render, rowAt_set_self _ pos _ hposA]
    exact congrArg (fun l => (List.length l : Int)) hrender
  · rw [← hhl]
    apply freshRow_highlight_congr
    · rfl
    · rw [rowAt_set_self _ pos _ hposA, rowAt_set_self E pos _ hpos]
    · apply seedOf_eq_of_before
      · rw [rowAt_set_self E pos _ hpos]
        exact hrowidx
      · rw [rowAt_set_self _ pos _ hposA]
        exact hidxA
      · intro j hj
        rw [rowAt_set_ne _ pos j _ (by omega), rowAt_set_ne E pos j _ (by omega)]
        exact hltA j hj

/-! ## Theorems: serialising and loading a buffer -/

theorem map_chars_of_map_base (rows rows1 : List eRow)
    (h : rows1.map eRow.base = rows.map eRow.base) :
    rows1.map eRow.chars = rows.map eRow.chars := by
  have := congrArg (List.map (fun b : Int × List Nat × List Nat => b.2.1)) h
  simpa [List.map_map, Function.comp_def, eRow.base] using this

theorem map_idx_of_map_base (rows rows1 : List eRow)
    (h : rows1.map eRow.base = rows.map eRow.base) :
    rows1.map eRow.idx = rows.map eRow.idx := by
  have := congrArg (List.map (fun b : Int × List Nat × List Nat => b.1)) h
  simpa [List.map_map, Function.comp_def, eRow.base] using this

theorem map_set_of_eq {α β : Type} [Inhabited α] (f : α → β) (l : List α) (i : Nat) (r : α)
    (h : f r = f (l.getD i default)) : (l.set i r).map f = l.map f := by
  induction l generalizing i with
  | nil => simp
  | cons a t ih =>
    cases i with
    | zero => simpa using h
    | succ i =>
      simp only [List.set_cons_succ, List.map_cons]
      rw [ih i (by simpa using h)]

/-- `EditorUpdateRow` changes no field of `E` but `row`, and there neither the
logical content nor the numbering of any row. -/
theorem EditorUpdateRow_frame (E : EditorConfig) (pos : Nat) :
    ∃ rows, EditorUpdateRow E pos = { E with row := rows }
      ∧ rows.map eRow.chars = E.row.map eRow.chars
      ∧ rows.map eRow.idx = E.row.map eRow.idx := by
  rw [EditorUpdateRow_eq]
  obtain ⟨rows, h1, h2⟩ := updateSyntaxFuel_frame E.row.length
    { E with row := E.row.set pos ⟨(E.rowAt pos).idx, (E.rowAt pos).chars,
        renderLoop (E.rowAt pos).chars [], (E.rowAt pos).highlight,
        (E.rowAt pos).hlOpenComment⟩ } pos
  refine ⟨rows, h1, ?_, ?_⟩
  · rw [map_chars_of_map_base _ _ h2]
    exact map_set_of_eq eRow.chars E.row pos _ rfl
  · rw [map_idx_of_map_base _ _ h2]
    exact map_set_of_eq eRow.idx E.row pos _ rfl

/-- Appending a row, as `EditorOpen` does: `EditorInsertRow(E.numRows, str, len)`. -/
theorem EditorInsertRow_append (E : EditorConfig) (str : List Nat)
    (hnum : E.numRows = E.row.length) :
    (EditorInsertRow E E.numRows str).numRows = E.numRows + 1
      ∧ ((EditorInsertRow E E.numRows str).numRows
          = ((EditorInsertRow E E.numRows str).row.length : Int))
      ∧ (EditorInsertRow E E.numRows str).row.map eRow.chars = E.row.map eRow.chars ++ [str] := by
  unfold EditorInsertRow
  have hguard : ¬ (E.numRows < 0 ∨ E.numRows > E.numRows) := by omega
  rw [if_neg hguard]
  have htoNat : E.numRows.toNat = E.row.length := by omega
  obtain ⟨rows, h1, h2, _⟩ := EditorUpdateRow_frame
    { E with row := E.row.take E.numRows.toNat
        ++ (⟨E.numRows, str, [], [], false⟩ : eRow)
          :: (E.row.drop E.numRows.toNat).map (fun r => { r with idx := r.idx + 1 }) }
    E.numRows.toNat
  simp only [h1]
  simp only [htoNat, List.take_length, List.drop_length, List.map_nil, List.map_append,
    List.map_cons] at h2
  refine ⟨trivial, ?_, h2⟩
  have := congrArg List.length h2
  simp only [List.length_map, List.length_append, List.length_cons, List.length_nil] at this
  rw [this, hnum]
  push_cast
  rfl

theorem EditorUpdateSyntax_frame (E : EditorConfig) (pos : Nat) :
    ∃ rows, EditorUpdateSyntax E pos = { E with row := rows }
      ∧ rows.map eRow.base = E.row.map eRow.base :=
  updateSyntaxFuel_frame E.row.length E pos

theorem foldl_EditorUpdateSyntax_frame (l : List Nat) (E : EditorConfig) :
    ∃ rows, l.foldl (fun E1 filerow => EditorUpdateSyntax E1 filerow) E = { E with row := rows }
      ∧ rows.map eRow.base = E.row.map eRow.base := by
  induction l generalizing E with
  | nil => exact ⟨E.row, rfl, rfl⟩
  | cons a t ih =>
    obtain ⟨rows1, h1, h2⟩ := EditorUpdateSyntax_frame E a
    obtain ⟨rows2, h3, h4⟩ := ih (EditorUpdateSyntax E a)
    refine ⟨rows2, ?_, ?_⟩
    · rw [List.foldl_cons, h3, h1]
    · rw [h4, h1]
      exact h2

theorem rehighlightAll_frame (E : EditorConfig) :
    ∃ rows, rehighlightAll E = { E with row := rows }
      ∧ rows.map eRow.base = E.row.map eRow.base :=
  foldl_EditorUpdateSyntax_frame _ E

theorem selectInEntry_frame (ext : Option (List Nat)) (filename : List Nat) (syn : EditorSyntax)
    (pats : List (List Nat)) (E : EditorConfig) :
    ∃ rows rules, selectInEntry ext filename syn pats E
        = { E with row := rows, syntaxRules := rules }
      ∧ rows.map eRow.base = E.row.map eRow.base := by
  induction pats generalizing E with
  | nil => exact ⟨E.row, E.syntaxRules, rfl, rfl⟩
  | cons p t ih =>
    unfold selectInEntry
    simp only
    split
    · obtain ⟨rows1, h1, h2⟩ := rehighlightAll_frame { E with syntaxRules := some syn }
      obtain ⟨rows2, rules2, h3, h4⟩ := ih (rehighlightAll { E with syntaxRules := some syn })
      refine ⟨rows2, rules2, ?_, ?_⟩
      · rw [h3, h1]
      · rw [h4, h1]
        exact h2
    · obtain ⟨rows1, h1, h2⟩ := rehighlightAll_frame E
      obtain ⟨rows2, rules2, h3, h4⟩ := ih (rehighlightAll E)
      refine ⟨rows2, rules2, ?_, ?_⟩
      · rw [h3, h1]
      · rw [h4, h1]
        exact h2

/-- `EditorSelectSyntaxHighlight` changes only the selected rule set and the
highlighting of the rows. -/
theorem EditorSelectSyntaxHighlight_frame (E : EditorConfig) :
    ∃ rows rules, EditorSelectSyntaxHighlight E = { E with row := rows, syntaxRules := rules }
      ∧ rows.map eRow.base = E.row.map eRow.base := by
  unfold EditorSelectSyntaxHighlight
  simp only
  split
  · exact ⟨E.row, none, rfl, rfl⟩
  · rename_i filename _
    have key : ∀ (db : List EditorSyntax) (E1 : EditorConfig),
        ∃ rows rules, db.foldl (fun E2 syn =>
            selectInEntry (strrchr filename 46) filename syn syn.filematch E2) E1
          = { E1 with row := rows, syntaxRules := rules }
          ∧ rows.map eRow.base = E1.row.map eRow.base := by
      intro db
      induction db with
      | nil => exact fun E1 => ⟨E1.row, E1.syntaxRules, rfl, rfl⟩
      | cons syn t ih =>
        intro E1
        obtain ⟨rows1, rules1, h1, h2⟩ :=
          selectInEntry_frame (strrchr filename 46) filename syn syn.filematch E1
        obtain ⟨rows2, rules2, h3, h4⟩ :=
          ih (selectInEntry (strrchr filename 46) filename syn syn.filematch E1)
        refine ⟨rows2, rules2, ?_, ?_⟩
        · rw [List.foldl_cons, h3, h1]
        · rw [h4, h1]
          exact h2
    obtain ⟨rows, rules, h1, h2⟩ := key HLDB { E with syntaxRules := none }
    exact ⟨rows, rules, h1, h2⟩

theorem getlines_line (c rest acc : List Nat) (hc : 10 ∉ c) :
    getlines (c ++ 10 :: rest) acc = (acc ++ c ++ [10]) :: getlines rest [] := by
  induction c generalizing acc with
  | nil => simp [getlines]
  | cons a t ih =>
    have ha : a ≠ 10 := fun h => hc (by simp [h])
    have ht : 10 ∉ t := fun h => hc (by simp [h])
    rw [List.cons_append, getlines, if_neg ha, ih _ ht]
    simp

theorem getlines_join (L : List (List Nat)) (hL : ∀ c ∈ L, 10 ∉ c) :
    getlines (L.map (fun c => c ++ [10])).flatten [] = L.map (fun c => c ++ [10]) := by
  induction L with
  | nil => simp [getlines]
  | cons c t ih =>
    simp only [List.map_cons, List.flatten_cons, List.append_assoc, List.singleton_append]
    rw [getlines_line c _ [] (hL c (by simp)), ih (fun d hd => hL d (by simp [hd]))]
    simp

theorem stripLineEnd_line (c : List Nat) (hc : 10 ∉ c ∧ 13 ∉ c) :
    stripLineEnd (c ++ [10]) = c := by
  unfold stripLineEnd
  simp only [List.reverse_append, List.reverse_cons, List.reverse_nil, List.nil_append,
    List.singleton_append]
  rw [List.dropWhile_cons_of_pos (by simp)]
  cases hr : c.reverse with
  | nil =>
    have : c = [] := by simpa using hr
    simp [this]
  | cons a t =>
    have hmem : a ∈ c := by
      have : a ∈ c.reverse := by rw [hr]; simp
      simpa using this
    have ha : ¬ ((a = 10 || a = 13) = true) := by
      intro h
      simp only [Bool.or_eq_true, decide_eq_true_eq] at h
      rcases h with h | h
      · exact hc.1 (h ▸ hmem)
      · exact hc.2 (h ▸ hmem)
    rw [List.dropWhile_cons_of_neg (by simpa using ha), ← hr, List.reverse_reverse]

theorem foldl_range_getD {α β : Type} (l : List α) (d : α) (f : β → α → β) (init : β) :
    (List.range l.length).foldl (fun acc j => f acc (l.getD j d)) init = l.foldl f init := by
  have h : (List.range l.length).map (fun j => l.getD j d) = l := by
    apply List.ext_getElem
    · simp
    · intro n h1 h2
      simp only [List.getElem_map, List.getElem_range, List.getD_eq_getElem?_getD]
      rw [List.getElem?_eq_getElem h2]
      rfl
  conv_rhs => rw [← h]
  rw [List.foldl_map]

theorem load_fold (L : List (List Nat)) (E : EditorConfig) (hnum : E.numRows = E.row.length) :
    (L.foldl (fun E3 line => EditorInsertRow E3 E3.numRows (stripLineEnd line)) E).numRows
        = E.numRows + L.length
      ∧ (L.foldl (fun E3 line => EditorInsertRow E3 E3.numRows (stripLineEnd line)) E).row.map
          eRow.chars = E.row.map eRow.chars ++ L.map stripLineEnd := by
  induction L generalizing E with
  | nil => simp
  | cons l t ih =>
    obtain ⟨h1, h2, h3⟩ := EditorInsertRow_append E (stripLineEnd l) hnum
    obtain ⟨h4, h5⟩ := ih (EditorInsertRow E E.numRows (stripLineEnd l)) h2
    rw [List.foldl_cons]
    refine ⟨?_, ?_⟩
    · rw [h4, h1, List.length_cons]
      push_cast
      omega
    · rw [h5, h3]
      simp

theorem EditorRowsToString_buf (E : EditorConfig) (hnum : E.numRows = E.row.length) :
    (EditorRowsToString E).1 = (E.row.map (fun r => r.chars ++ [10])).flatten := by
  unfold EditorRowsToString EditorConfig.rowAt
  have htoNat : E.numRows.toNat = E.row.length := by omega
  simp only [htoNat]
  rw [foldl_range_getD E.row default (fun acc r => acc ++ r.chars ++ [10]) []]
  have key : ∀ (rows : List eRow) (acc : List Nat),
      rows.foldl (fun acc r => acc ++ r.chars ++ [10]) acc
        = acc ++ (rows.map (fun r => r.chars ++ [10])).flatten := by
    intro rows
    induction rows with
    | nil => simp
    | cons r t ih =>
      intro acc
      rw [List.foldl_cons, ih]
      simp
  rw [key]
  simp

theorem EditorRowsToString_len (E : EditorConfig) (hnum : E.numRows = E.row.length) :
    (EditorRowsToString E).2 = (E.row.map (fun r => r.size + 1)).sum := by
  unfold EditorRowsToString EditorConfig.rowAt
  have htoNat : E.numRows.toNat = E.row.length := by omega
  simp only [htoNat]
  rw [foldl_range_getD E.row default (fun acc r => acc + (r.size + 1)) 0]
  have key : ∀ (rows : List eRow) (acc : Int),
      rows.foldl (fun acc r => acc + (r.size + 1)) acc
        = acc + (rows.map (fun r => r.size + 1)).sum := by
    intro rows
    induction rows with
    | nil => simp
    | cons r t ih =>
      intro acc
      rw [List.foldl_cons, ih]
      simp only [List.map_cons, List.sum_cons]
      omega
  rw [key]
  simp

theorem sum_size_eq_length (rows : List eRow) :
    (rows.map (fun r => r.size + 1)).sum
      = (((rows.map (fun r => r.chars ++ [10])).flatten.length : Nat) : Int) := by
  induction rows with
  | nil => simp
  | cons r t ih =>
    simp only [List.map_cons, List.sum_cons, List.flatten_cons, List.length_append,
      List.length_cons, List.length_nil]
    rw [ih]
    unfold eRow.size
    push_cast
    omega

/-- C4: for every buffer in which no row contains a line-terminator character
(`'\n'` or `'\r'`, the two that `EditorOpen` strips), `EditorOpen` applied
to an empty buffer and the bytes produced by `EditorRowsToString` succeeds and
gives the same row count and the same logical content for every row; the
bytes are each row's content followed by one `'\n'`, and the reported length
is the sum of `size + 1` over the rows, which is the number of bytes. -/
theorem C4_serialize_then_load_roundtrip (E E0 : EditorConfig) (file : List Nat)
    (hnum : E.numRows = E.row.length)
    (hterm : ∀ r ∈ E.row, 10 ∉ r.chars ∧ 13 ∉ r.chars)
    (hempty : E0.row = [] ∧ E0.numRows = 0) :
    (∃ E1, EditorOpen E0 file (some (EditorRowsToString E).1) = some E1
        ∧ E1.numRows = E.numRows
        ∧ E1.row.map eRow.chars = E.row.map eRow.chars)
      ∧ (EditorRowsToString E).1 = (E.row.map (fun r => r.chars ++ [10])).flatten
      ∧ (EditorRowsToString E).2 = (E.row.map (fun r => r.size + 1)).sum
      ∧ (EditorRowsToString E).2 = (((EditorRowsToString E).1.length : Nat) : Int) := by
  have hbuf := EditorRowsToString_buf E hnum
  have hlen := EditorRowsToString_len E hnum
  refine ⟨?_, hbuf, hlen, ?_⟩
  · obtain ⟨rows, rules, hs1, hs2⟩ :=
      EditorSelectSyntaxHighlight_frame { E0 with filename := some (cString file) }
    have hrows : rows = [] := by
      have := congrArg List.length hs2
      simp only [List.length_map, hempty.1, List.length_nil] at this
      exact List.length_eq_zero.mp this
    have hlines : getlines (EditorRowsToString E).1 []
        = (E.row.map eRow.chars).map (fun c => c ++ [10]) := by
      rw [hbuf]
      have := getlines_join (E.row.map eRow.chars) (by
        intro c hc
        obtain ⟨r, hr, rfl⟩ := List.mem_map.mp hc
        exact (hterm r hr).1)
      simpa [List.map_map, Function.comp_def] using this
    have hstrip : ((E.row.map eRow.chars).map (fun c => c ++ [10])).map stripLineEnd
        = E.row.map eRow.chars := by
      rw [List.map_map, List.map_map]
      apply List.map_congr_left
      intro r hr
      exact stripLineEnd_line r.chars (hterm r hr)
    obtain ⟨hf1, hf2⟩ := load_fold (getlines (EditorRowsToString E).1 [])
      (EditorSelectSyntaxHighlight { E0 with filename := some (cString file) })
      (by rw [hs1]; simp [hrows, hempty.2])
    refine ⟨_, rfl, ?_, ?_⟩
    · show EditorConfig.numRows (List.foldl _ _ _) = E.numRows
      rw [hf1, hlines, hs1]
      simp [hempty.2, hnum]
    · show List.map eRow.chars (EditorConfig.row (List.foldl _ _ _)) = _
      rw [hf2, hlines, hstrip, hs1]
      simp [hrows]
  · rw [hlen, hbuf]
    exact sum_size_eq_length E.row

/-! ## Theorems: joining a line with the one above -/

theorem EditorRowAppendString_frame (E : EditorConfig) (pos : Nat) (str : List Nat) :
    ∃ rows, EditorRowAppendString E pos str = { E with row := rows, dirty := E.dirty + 1 }
      ∧ rows.map eRow.chars
          = (E.row.set pos { E.rowAt pos with chars := (E.rowAt pos).chars ++ str }).map eRow.chars := by
  unfold EditorRowAppendString
  obtain ⟨rows, h1, h2, _⟩ := EditorUpdateRow_frame
    { E with row := E.row.set pos { E.rowAt pos with chars := (E.rowAt pos).chars ++ str } } pos
  exact ⟨rows, by simp only [h1], h2⟩

theorem EditorDelRow_chars (E : EditorConfig) (pos : Int) (h0 : 0 ≤ pos) (h1 : pos < E.numRows) :
    (EditorDelRow E pos).numRows = E.numRows - 1
      ∧ (EditorDelRow E pos).row.map eRow.chars
          = (E.row.map eRow.chars).take pos.toNat ++ (E.row.map eRow.chars).drop (pos.toNat + 1)
      ∧ (EditorDelRow E pos).curX = E.curX ∧ (EditorDelRow E pos).curY = E.curY := by
  unfold EditorDelRow
  rw [if_neg (by omega)]
  refine ⟨rfl, ?_, rfl, rfl⟩
  simp [List.map_take, List.map_drop, Function.comp_def]

theorem take_drop_set_merge {α : Type} (l : List α) (y : Nat) (a : α) (h1 : 1 ≤ y)
    (hy : y < l.length) :
    (l.set (y - 1) a).take y ++ (l.set (y - 1) a).drop (y + 1)
      = l.take (y - 1) ++ a :: l.drop (y + 1) := by
  obtain ⟨k, rfl⟩ : ∃ k, y = k + 1 := ⟨y - 1, by omega⟩
  simp only [Nat.add_sub_cancel]
  rw [take_succ_set _ _ _ (by omega), List.drop_set_of_lt _ _ (by omega)]
  simp

/-- C5: for every buffer and every cursor with `curX = 0` and
`1 ≤ curY < numRows`, `EditorDelChar` makes the logical content of row
`curY - 1` the old content of row `curY - 1` followed by the old content of
row `curY`, removes the old row `curY` (so `numRows` drops by exactly one and
the logical content of all other rows is kept in order), and leaves the
cursor at column "old size of row `curY - 1`" of row `curY - 1`. -/
theorem C5_delete_at_line_start_merges (E : EditorConfig)
    (hnum : E.numRows = E.row.length) (hx : E.curX = 0) (hy1 : 1 ≤ E.curY)
    (hy2 : E.curY < E.numRows) :
    ((EditorDelChar E).rowAt (E.curY.toNat - 1)).chars
        = (E.rowAt (E.curY.toNat - 1)).chars ++ (E.rowAt E.curY.toNat).chars
      ∧ (EditorDelChar E).numRows = E.numRows - 1
      ∧ (EditorDelChar E).row.map eRow.chars
          = (E.row.map eRow.chars).take (E.curY.toNat - 1)
              ++ ((E.rowAt (E.curY.toNat - 1)).chars ++ (E.rowAt E.curY.toNat).chars)
                :: (E.row.map eRow.chars).drop (E.curY.toNat + 1)
      ∧ (EditorDelChar E).curX = (E.rowAt (E.curY.toNat - 1)).size
      ∧ (EditorDelChar E).curY = E.curY - 1 := by
  obtain ⟨rows, hA1, hA2⟩ := EditorRowAppendString_frame
    { E with curX := (E.rowAt (E.curY - 1).toNat).size } (E.curY - 1).toNat
    (E.rowAt E.curY.toNat).chars
  have hD := EditorDelRow_chars
    { E with curX := (E.rowAt (E.curY - 1).toNat).size, row := rows, dirty := E.dirty + 1 }
    E.curY (by omega) hy2
  have hE : EditorDelChar E =
      { EditorDelRow
          { E with curX := (E.rowAt (E.curY - 1).toNat).size, row := rows, dirty := E.dirty + 1 }
          E.curY with curY := E.curY - 1 } := by
    unfold EditorDelChar
    rw [if_neg (by omega), if_neg (by omega), if_neg (by omega)]
    simp only [hA1]
    rw [hD.2.2.2]
  have hsub : (E.curY - 1).toNat = E.curY.toNat - 1 := by omega
  have hlen : E.curY.toNat < E.row.length := by omega
  have hrows : (EditorDelChar E).row.map eRow.chars
      = (E.row.map eRow.chars).take (E.curY.toNat - 1)
          ++ ((E.rowAt (E.curY.toNat - 1)).chars ++ (E.rowAt E.curY.toNat).chars)
            :: (E.row.map eRow.chars).drop (E.curY.toNat + 1) := by
    rw [hE]
    show List.map eRow.chars (EditorDelRow _ E.curY).row = _
    rw [hD.2.1]
    show List.take E.curY.toNat (List.map eRow.chars rows)
      ++ List.drop (E.curY.toNat + 1) (List.map eRow.chars rows) = _
    rw [hA2, List.map_set]
    show List.take E.curY.toNat ((List.map eRow.chars E.row).set (E.curY - 1).toNat
        ((E.rowAt (E.curY - 1).toNat).chars ++ (E.rowAt E.curY.toNat).chars))
      ++ List.drop (E.curY.toNat + 1) ((List.map eRow.chars E.row).set (E.curY - 1).toNat
        ((E.rowAt (E.curY - 1).toNat).chars ++ (E.rowAt E.curY.toNat).chars)) = _
    rw [hsub]
    exact take_drop_set_merge _ _ _ (by omega) (by simpa using hlen)
  refine ⟨?_, ?_, hrows, ?_, ?_⟩
  · have h := congrArg (fun l => l[E.curY.toNat - 1]?) hrows
    simp only [List.getElem?_map] at h
    rw [List.getElem?_append_right (by simp)] at h
    simp only [List.length_take, List.length_map] at h
    rw [Nat.min_eq_left (by omega), Nat.sub_self] at h
    simp only [List.getElem?_cons_zero] at h
    unfold EditorConfig.rowAt at h ⊢
    cases hrow : (EditorDelChar E).row[E.curY.toNat - 1]? with
    | none => rw [hrow] at h; simp at h
    | some r =>
      rw [hrow] at h
      simp only [Option.map_some', Option.some.injEq] at h
      rw [List.getD_eq_getElem?_getD, hrow]
      exact h
  · rw [hE]; exact hD.1
  · rw [hE]
    show (EditorDelRow _ E.curY).curX = _
    rw [hD.2.2.1, hsub]
  · rw [hE]

/-! ## Theorems: the scan of one row -/

theorem memset_length (hl : List Nat) (i v n : Nat) : (memset hl i v n).length = hl.length := by
  induction n generalizing hl i with
  | zero => rfl
  | succ n ih => simp [memset, ih]

theorem take_set_ge {α : Type} (l : List α) (i j : Nat) (a : α) (h : i ≤ j) :
    (l.set j a).take i = l.take i := by
  induction l generalizing i j with
  | nil => simp
  | cons b t ih =>
    cases i with
    | zero => simp
    | succ i =>
      cases j with
      | zero => omega
      | succ j =>
        simp only [List.set_cons_succ, List.take_succ_cons]
        rw [ih i j (by omega)]

theorem memset_take (hl : List Nat) (i j v n : Nat) (h : i ≤ j) :
    (memset hl j v n).take i = hl.take i := by
  induction n generalizing hl j with
  | zero => rfl
  | succ n ih =>
    simp only [memset]
    rw [ih _ _ (by omega), take_set_ge _ _ _ _ h]

theorem scanStep_spec (syn : EditorSyntax) (render : List Nat) (s : ScanState) :
    (scanStep syn render s).1.hl.length = s.hl.length
      ∧ s.i ≤ (scanStep syn render s).1.i
      ∧ (scanStep syn render s).1.hl.take s.i = s.hl.take s.i := by
  unfold scanStep
  simp only
  split_ifs
  all_goals first
    | (refine ⟨?_, ?_, ?_⟩ <;>
        simp [memset_length, memset_take, take_set_ge] <;> done)
    | (cases hk : matchKeyword render s.i syn.keywords with
       | none => simp
       | some p =>
         obtain ⟨k, b⟩ := p
         simp [memset_length, memset_take])

theorem scanLoop_spec (syn : EditorSyntax) (render : List Nat) (fuel : Nat) (s : ScanState) :
    (scanLoop syn render fuel s).hl.length = s.hl.length
      ∧ (scanLoop syn render fuel s).hl.take s.i = s.hl.take s.i := by
  induction fuel generalizing s with
  | zero => exact ⟨rfl, rfl⟩
  | succ n ih =>
    obtain ⟨h1, h2, h3⟩ := scanStep_spec syn render s
    unfold scanLoop
    split_ifs
    · obtain ⟨h4, h5⟩ := ih (scanStep syn render s).1
      refine ⟨by rw [h4, h1], ?_⟩
      have := congrArg (List.take s.i) h5
      rw [List.take_take, List.take_take, Nat.min_eq_left h2] at this
      rw [this, h3]
    · exact ⟨h1, h3⟩
    · exact ⟨rfl, rfl⟩

theorem getD_of_take_eq {α : Type} (l l1 : List α) (n c : Nat) (d : α)
    (h : l1.take n = l.take n) (hc : c < n) : l1.getD c d = l.getD c d := by
  have := congrArg (fun x => x[c]?) h
  simp only [List.getElem?_take_of_lt hc] at this
  rw [List.getD_eq_getElem?_getD, List.getD_eq_getElem?_getD, this]

/-- The scan never rewrites a tag to the left of the column it stands at. -/
theorem scanLoop_getD_before (syn : EditorSyntax) (render : List Nat) (fuel : Nat)
    (s : ScanState) (c : Nat) (hc : c < s.i) :
    (scanLoop syn render fuel s).hl.getD c HL_NORMAL = s.hl.getD c HL_NORMAL :=
  getD_of_take_eq _ _ s.i c _ (scanLoop_spec syn render fuel s).2 hc

theorem memset_getD (hl : List Nat) (i v n c d : Nat) (h1 : i ≤ c) (h2 : c < i + n)
    (h3 : c < hl.length) : (memset hl i v n).getD c d = v := by
  induction n generalizing hl i with
  | zero => omega
  | succ n ih =>
    simp only [memset]
    by_cases hci : c = i
    · subst hci
      have := getD_of_take_eq (hl.set c v) (memset (hl.set c v) (c + 1) v n) (c + 1) c d
        (memset_take _ _ _ _ _ (Nat.le_refl _)) (by omega)
      rw [this]
      exact getD_set_self _ _ _ _ h3
    · exact ih (hl.set i v) (i + 1) (by omega) (by omega) (by simpa using h3)

/-! ## Theorems: block comments across rows -/

theorem cSyntax_scs : cSyntax.singleLineCommentStart = some [47, 47] := by decide

theorem cSyntax_mcs : cSyntax.multilineCommentStart = some [47, 42] := by decide

theorem cSyntax_mce : cSyntax.multilineCommentEnd = some [42, 47] := by decide

theorem cSyntax_flags : cSyntax.flags = 3 := by decide

theorem cSyntax_keywords : cSyntax.keywords = C_HL_Keywords := by decide

theorem strncmpEq_close (render : List Nat) (i : Nat) :
    strncmpEq render i [42, 47] 2 = closeAt render i := by
  unfold closeAt
  simp only [strncmpEq, List.headD_cons, List.tail_cons]
  generalize render.getD i 0 = a
  generalize render.getD (i + 1) 0 = b
  by_cases h1 : a = 42
  · subst h1
    by_cases h2 : b = 47
    · subst h2
      rfl
    · simp [h2]
  · simp [h1]

theorem scanStep_inComment (render : List Nat) (s : ScanState)
    (hc : s.inComment = true) (hs : s.inString = 0) :
    scanStep cSyntax render s =
      if closeAt render s.i = true then
        ({ s with hl := memset (s.hl.set s.i HL_MCOMMENT) s.i HL_MCOMMENT 2,
                  i := s.i + 2, inComment := false, prevSep := true }, true)
      else ({ s with hl := s.hl.set s.i HL_MCOMMENT, i := s.i + 1 }, true) := by
  unfold scanStep
  simp only [cSyntax_scs, cSyntax_mcs, cSyntax_mce, Option.getD_some, List.length_cons,
    List.length_nil, hc, hs]
  simp [strncmpEq_close]

theorem hasClose_false (render : List Nat) (h : hasClose render = false) (q : Nat) :
    closeAt render q = false := by
  by_cases hq : q < render.length
  · unfold hasClose at h
    rw [List.any_eq_false] at h
    have := h q (by simpa using hq)
    simpa using this
  · unfold closeAt
    rw [List.getD_eq_default _ _ (by omega)]
    simp

/-- A scan that stands inside a block comment, over display content with no
`*/` from its column on, tags every remaining column `HL_MCOMMENT` and ends
inside the comment. -/
theorem scanLoop_inComment_noClose (render : List Nat) (fuel : Nat) (s : ScanState)
    (hc : s.inComment = true) (hs : s.inString = 0) (hlen : s.hl.length = render.length)
    (hf : render.length - s.i ≤ fuel) (hno : ∀ q, s.i ≤ q → closeAt render q = false) :
    (scanLoop cSyntax render fuel s).inComment = true
      ∧ (scanLoop cSyntax render fuel s).hl
          = s.hl.take s.i ++ List.replicate (render.length - s.i) HL_MCOMMENT := by
  induction fuel generalizing s with
  | zero =>
    have h0 : render.length - s.i = 0 := by omega
    simp only [scanLoop, h0, List.replicate_zero, List.append_nil]
    exact ⟨hc, (List.take_of_length_le (by omega)).symm⟩
  | succ n ih =>
    unfold scanLoop
    by_cases hi : s.i < render.length
    · rw [if_pos hi, scanStep_inComment render s hc hs, hno s.i (Nat.le_refl _)]
      simp only [Bool.false_eq_true, if_false, if_true]
      obtain ⟨h1, h2⟩ := ih { s with hl := s.hl.set s.i HL_MCOMMENT, i := s.i + 1 } hc hs
        (by simpa using hlen) (by simp only; omega) (fun q hq => hno q (by simp only at hq; omega))
      refine ⟨h1, ?_⟩
      rw [h2]
      simp only
      rw [take_succ_set _ _ _ (by omega)]
      have : render.length - s.i = (render.length - (s.i + 1)) + 1 := by omega
      rw [this, List.replicate_succ]
      simp
    · rw [if_neg hi]
      have h0 : render.length - s.i = 0 := by omega
      simp only [h0, List.replicate_zero, List.append_nil]
      exact ⟨hc, (List.take_of_length_le (by omega)).symm⟩

/-- A scan that stands inside a block comment tags every column from its own
up to and including the first `*/` as `HL_MCOMMENT`. -/
theorem scanLoop_inComment_close (render : List Nat) (fuel : Nat) (s : ScanState)
    (hc : s.inComment = true) (hs : s.inString = 0) (hlen : s.hl.length = render.length)
    (hf : render.length - s.i ≤ fuel) (p : Nat) (hp : s.i ≤ p)
    (hclose : closeAt render p = true)
    (hfirst : ∀ q, s.i ≤ q → q < p → closeAt render q = false)
    (c : Nat) (hc1 : s.i ≤ c) (hc2 : c ≤ p + 1) :
    (scanLoop cSyntax render fuel s).hl.getD c HL_NORMAL = HL_MCOMMENT := by
  have hp1 : p + 1 < render.length := by
    unfold closeAt at hclose
    by_contra hcon
    rw [List.getD_eq_default _ _ (by omega : render.length ≤ p + 1)] at hclose
    simp at hclose
  induction fuel generalizing s with
  | zero => omega
  | succ n ih =>
    unfold scanLoop
    rw [if_pos (by omega), scanStep_inComment render s hc hs]
    by_cases hip : s.i = p
    · rw [hip, hclose]
      simp only [if_true]
      rw [scanLoop_getD_before _ _ _ _ c (by simp only; omega)]
      simp only
      exact memset_getD _ _ _ _ _ _ (by omega) (by omega) (by simp; omega)
    · rw [hfirst s.i (Nat.le_refl _) (by omega)]
      simp only [Bool.false_eq_true, if_false, if_true]
      by_cases hci : c = s.i
      · rw [scanLoop_getD_before _ _ _ _ c (by simp only; omega)]
        simp only
        rw [hci]
        exact getD_set_self _ _ _ _ (by omega)
      · exact ih { s with hl := s.hl.set s.i HL_MCOMMENT, i := s.i + 1 } hc hs
          (by simpa using hlen) (by simp only; omega) (by simp only; omega)
          (fun q hq1 hq2 => hfirst q (by simp only at hq1; omega) hq2) (by simp only; omega)

theorem freshRow_congr (E E1 : EditorConfig) (pos : Nat)
    (hs : E.syntaxRules = E1.syntaxRules) (hr : E.rowAt pos = E1.rowAt pos)
    (hseed : seedOf E pos = seedOf E1 pos) : freshRow E pos = freshRow E1 pos := by
  unfold freshRow
  rw [← hs, ← hr, ← hseed]

theorem freshRow_idem (E E1 : EditorConfig) (pos : Nat)
    (hs : E.syntaxRules = E1.syntaxRules) (hr : E1.rowAt pos = freshRow E pos)
    (hseed : seedOf E pos = seedOf E1 pos) : freshRow E1 pos = E1.rowAt pos := by
  rw [hr]
  unfold freshRow
  rw [← hs, ← hseed]
  have h1 := congrArg eRow.render hr
  rw [freshRow_render] at h1
  rw [h1]
  cases hsyn : E.syntaxRules with
  | none =>
    simp only
    rw [hr]
    unfold freshRow
    simp only [hsyn]
  | some syn =>
    simp only
    rw [hr]
    unfold freshRow
    simp only [hsyn]

theorem getD_append_left {α : Type} (l l1 : List α) (k : Nat) (d : α) (h : k < l.length) :
    (l ++ l1).getD k d = l.getD k d := by
  rw [List.getD_eq_getElem?_getD, List.getD_eq_getElem?_getD, List.getElem?_append_left h]

theorem getD_append_right {α : Type} (l : List α) (a d : α) :
    (l ++ [a]).getD l.length d = a := by
  rw [List.getD_eq_getElem?_getD, List.getElem?_append_right (Nat.le_refl _)]
  simp

/-- Appending one row as `EditorOpen` does: the rows already there are kept
as they are and the new row comes last, highlighted. -/
theorem EditorInsertRow_append_rows (E : EditorConfig) (str : List Nat)
    (hnum : E.numRows = E.row.length) :
    EditorInsertRow E E.numRows str
      = { E with numRows := E.numRows + 1, dirty := E.dirty + 1,
                 row := E.row ++ [freshRow
                   { E with row := E.row ++ [⟨E.numRows, str, renderLoop str [], [], false⟩] }
                   E.row.length] } := by
  unfold EditorInsertRow
  have hguard : ¬ (E.numRows < 0 ∨ E.numRows > E.numRows) := by omega
  have htoNat : E.numRows.toNat = E.row.length := by omega
  rw [if_neg hguard]
  simp only [htoNat, List.take_length, List.drop_length, List.map_nil]
  rw [EditorUpdateRow_eq, updateSyntaxFuel_eq]
  have hrow : EditorConfig.rowAt
      { E with row := E.row ++ [(⟨E.numRows, str, [], [], false⟩ : eRow)] } E.row.length
      = ⟨E.numRows, str, [], [], false⟩ := getD_append_right _ _ _
  have hset : ∀ r r1 : eRow, (E.row ++ [r]).set E.row.length r1 = E.row ++ [r1] := by
    intro r r1
    rw [List.set_append_right _ _ (Nat.le_refl _)]
    simp
  simp only [hrow, hset]
  have hrow1 : EditorConfig.rowAt
      { E with row := E.row ++ [(⟨E.numRows, str, renderLoop str [], [], false⟩ : eRow)] }
      E.row.length = ⟨E.numRows, str, renderLoop str [], [], false⟩ := getD_append_right _ _ _
  rw [hrow1]
  simp only
  rw [if_neg (by omega)]

theorem seedOf_eq (E : EditorConfig) (k : Nat) (hidx : (E.rowAt k).idx = (k : Int)) :
    seedOf E k = (decide (0 < k) && (E.rowAt (k - 1)).hlOpenComment) := by
  unfold seedOf
  rw [hidx]
  cases k with
  | zero => simp
  | succ p =>
    have : (((p + 1 : Nat) : Int) - 1).toNat = p := by omega
    rw [this]
    simp

/-- Appending a row keeps the buffer well formed: `numRows` rows, numbered by
position, each holding the highlighting `EditorUpdateSyntax` gives it. -/
theorem EditorInsertRow_append_inv (E : EditorConfig) (str : List Nat)
    (hnum : E.numRows = E.row.length) (hidx : rowsNumbered E.row) (hfresh : rowsFresh E) :
    (EditorInsertRow E E.numRows str).numRows = ((EditorInsertRow E E.numRows str).row.length : Int)
      ∧ rowsNumbered (EditorInsertRow E E.numRows str).row
      ∧ rowsFresh (EditorInsertRow E E.numRows str)
      ∧ (EditorInsertRow E E.numRows str).syntaxRules = E.syntaxRules
      ∧ (EditorInsertRow E E.numRows str).row.length = E.row.length + 1 := by
  have hE := EditorInsertRow_append_rows E str hnum
  -- the buffer in which the new row is highlighted, and the highlighted row
  obtain ⟨X, hX⟩ : ∃ X : EditorConfig,
      X = { E with row := E.row ++ [⟨E.numRows, str, renderLoop str [], [], false⟩] } := ⟨_, rfl⟩
  obtain ⟨f, hf⟩ : ∃ f : eRow, f = freshRow X E.row.length := ⟨_, rfl⟩
  rw [← hX, ← hf] at hE
  have hXsyn : X.syntaxRules = E.syntaxRules := by rw [hX]
  have hXlast : X.rowAt E.row.length = ⟨E.numRows, str, renderLoop str [], [], false⟩ := by
    rw [hX]
    exact getD_append_right _ _ _
  have hXold : ∀ k, k < E.row.length → X.rowAt k = E.rowAt k := by
    intro k hk
    rw [hX]
    exact getD_append_left _ _ _ _ hk
  have hrows : (EditorInsertRow E E.numRows str).row = E.row ++ [f] := by rw [hE]
  have hsyn : (EditorInsertRow E E.numRows str).syntaxRules = E.syntaxRules := by rw [hE]
  have hnumR : (EditorInsertRow E E.numRows str).numRows = E.numRows + 1 := by rw [hE]
  generalize EditorInsertRow E E.numRows str = E2 at hrows hsyn hnumR ⊢
  have hold : ∀ k, k < E.row.length → E2.rowAt k = E.rowAt k := by
    intro k hk
    unfold EditorConfig.rowAt
    rw [hrows]
    exact getD_append_left _ _ _ _ hk
  have hlast : E2.rowAt E.row.length = f := by
    unfold EditorConfig.rowAt
    rw [hrows]
    exact getD_append_right _ _ _
  have hfidx : f.idx = (E.row.length : Int) := by
    rw [hf, freshRow_idx, hXlast]
    exact hnum
  have hlen : E2.row.length = E.row.length + 1 := by rw [hrows]; simp
  have hidx2 : ∀ k, k < E.row.length + 1 → (E2.rowAt k).idx = (k : Int) := by
    intro k hk
    by_cases hlt : k < E.row.length
    · rw [hold k hlt]
      exact hidx k hlt
    · have : k = E.row.length := by omega
      rw [this, hlast, hfidx]
  refine ⟨?_, ?_, ?_, hsyn, hlen⟩
  · rw [hnumR, hlen, hnum]
    push_cast
    rfl
  · intro k hk
    exact hidx2 k (by omega)
  · intro k hk
    by_cases hlt : k < E.row.length
    · rw [hold k hlt]
      conv_lhs => rw [hfresh k hlt]
      apply freshRow_congr
      · exact hsyn.symm
      · exact (hold k hlt).symm
      · rw [seedOf_eq E k (hidx k hlt), seedOf_eq E2 k (hidx2 k (by omega))]
        by_cases h0 : k = 0
        · simp [h0]
        · rw [hold (k - 1) (by omega)]
    · have hk2 : k = E.row.length := by omega
      subst hk2
      symm
      apply freshRow_idem X
      · rw [hXsyn, hsyn]
      · rw [hlast, hf]
      · rw [seedOf_eq X E.row.length (by rw [hXlast]; exact hnum),
          seedOf_eq E2 E.row.length (hidx2 E.row.length (by omega))]
        by_cases h0 : E.row.length = 0
        · simp [h0]
        · rw [hold (E.row.length - 1) (by omega), hXold (E.row.length - 1) (by omega)]

/-- A buffer built by appending rows to an empty buffer is well formed. -/
theorem appendRows_inv (lines : List (List Nat)) (E : EditorConfig)
    (hnum : E.numRows = E.row.length) (hidx : rowsNumbered E.row) (hfresh : rowsFresh E) :
    (appendRows E lines).numRows = ((appendRows E lines).row.length : Int)
      ∧ rowsNumbered (appendRows E lines).row
      ∧ rowsFresh (appendRows E lines)
      ∧ (appendRows E lines).syntaxRules = E.syntaxRules
      ∧ (appendRows E lines).row.length = E.row.length + lines.length := by
  induction lines generalizing E with
  | nil => exact ⟨hnum, hidx, hfresh, rfl, rfl⟩
  | cons l t ih =>
    obtain ⟨h1, h2, h3, h4, h5⟩ := EditorInsertRow_append_inv E l hnum hidx hfresh
    obtain ⟨g1, g2, g3, g4, g5⟩ := ih (EditorInsertRow E E.numRows l) h1 h2 h3
    refine ⟨g1, g2, g3, ?_, ?_⟩
    · exact g4.trans h4
    · show (appendRows (EditorInsertRow E E.numRows l) t).row.length = _
      rw [g5, h5, List.length_cons]
      omega

/-- In a well-formed buffer with the C rule set, a row below a row that ends
inside a block comment carries the scan started inside the comment. -/
theorem row_below_open_comment (E : EditorConfig) (hidx : rowsNumbered E.row)
    (hfresh : rowsFresh E) (hsyn : E.syntaxRules = some cSyntax) (k : Nat) (hk0 : 0 < k)
    (hk : k < E.row.length) (hopen : (E.rowAt (k - 1)).hlOpenComment = true) :
    (E.rowAt k).highlight = (scanRow cSyntax (E.rowAt k).render true).hl
      ∧ (E.rowAt k).hlOpenComment = (scanRow cSyntax (E.rowAt k).render true).inComment := by
  have h := hfresh k hk
  have hseed : seedOf E k = true := by
    rw [seedOf_eq E k (hidx k hk), hopen]
    simp [hk0]
  unfold freshRow at h
  rw [hsyn, hseed] at h
  simp only at h
  constructor
  · conv_lhs => rw [h]
  · conv_lhs => rw [h]

theorem appendRows_chars (lines : List (List Nat)) (E : EditorConfig)
    (hnum : E.numRows = E.row.length) :
    (appendRows E lines).row.map eRow.chars = E.row.map eRow.chars ++ lines := by
  induction lines generalizing E with
  | nil => simp [appendRows]
  | cons l t ih =>
    obtain ⟨_, h2, h3⟩ := EditorInsertRow_append E l hnum
    show (appendRows (EditorInsertRow E E.numRows l) t).row.map eRow.chars = _
    rw [ih _ h2, h3]
    simp

/-- C7: with the C rule set, in every buffer built by appending rows in order
to an empty buffer (as the file load does): if row `i` ends inside a block
comment (its open-comment flag is set) and none of the rows `i+1 .. j`
contains the close marker `*/`, then every display column of every row in
`i+1 .. j` is tagged `HL_MCOMMENT` and each of those rows has its
open-comment flag set; and if row `j+1` is the first later row containing
`*/`, with its first `*/` at display column `p`, its columns `0 .. p+1` (up to
and including the marker) are tagged `HL_MCOMMENT`. -/
theorem C7_open_block_comment_carries_down (E0 : EditorConfig) (lines : List (List Nat))
    (hempty : E0.row = [] ∧ E0.numRows = 0) (hsyn : E0.syntaxRules = some cSyntax)
    (i j : Nat) (hij : i ≤ j) (hj : j < lines.length)
    (hopen : ((appendRows E0 lines).rowAt i).hlOpenComment = true)
    (hno : ∀ k, i < k → k ≤ j → hasClose ((appendRows E0 lines).rowAt k).render = false) :
    (appendRows E0 lines).row.map eRow.chars = lines
      ∧ (∀ k, i < k → k ≤ j →
          ((appendRows E0 lines).rowAt k).highlight
              = List.replicate ((appendRows E0 lines).rowAt k).render.length HL_MCOMMENT
            ∧ ((appendRows E0 lines).rowAt k).hlOpenComment = true)
      ∧ (∀ p, j + 1 < lines.length →
          closeAt ((appendRows E0 lines).rowAt (j + 1)).render p = true →
          (∀ q, q < p → closeAt ((appendRows E0 lines).rowAt (j + 1)).render q = false) →
          ∀ c, c ≤ p + 1 →
            ((appendRows E0 lines).rowAt (j + 1)).highlight.getD c HL_NORMAL = HL_MCOMMENT) := by
  have hnum0 : E0.numRows = E0.row.length := by rw [hempty.1, hempty.2]; rfl
  have hidx0 : rowsNumbered E0.row := by
    intro k hk
    rw [hempty.1] at hk
    simp at hk
  have hfresh0 : rowsFresh E0 := by
    intro k hk
    rw [hempty.1] at hk
    simp at hk
  obtain ⟨_, hidx, hfresh, hsyn1, hlen⟩ := appendRows_inv lines E0 hnum0 hidx0 hfresh0
  rw [hsyn] at hsyn1
  rw [hempty.1] at hlen
  simp only [List.length_nil, Nat.zero_add] at hlen
  have hchars := appendRows_chars lines E0 hnum0
  rw [hempty.1] at hchars
  simp only [List.map_nil, List.nil_append] at hchars
  generalize appendRows E0 lines = E at hopen hno hidx hfresh hsyn1 hlen hchars ⊢
  -- every row from `i` to `j` ends inside the comment
  have hrun : ∀ n k, k = i + n → k ≤ j → (E.rowAt k).hlOpenComment = true
      ∧ (0 < n → (E.rowAt k).highlight
          = List.replicate (E.rowAt k).render.length HL_MCOMMENT) := by
    intro n
    induction n with
    | zero =>
      intro k hk _
      rw [hk]
      exact ⟨hopen, fun h => absurd h (Nat.lt_irrefl 0)⟩
    | succ n ih =>
      intro k hk hkj
      have hprev := (ih (k - 1) (by omega) (by omega)).1
      obtain ⟨h1, h2⟩ := row_below_open_comment E hidx hfresh hsyn1 k (by omega) (by omega) hprev
      obtain ⟨h3, h4⟩ := scanLoop_inComment_noClose (E.rowAt k).render (E.rowAt k).render.length
        ⟨0, true, 0, true, List.replicate (E.rowAt k).render.length HL_NORMAL⟩ rfl rfl
        (by simp) (by simp)
        (fun q _ => hasClose_false _ (hno k (by omega) hkj) q)
      unfold scanRow at h1 h2
      rw [h2, h1, h4]
      exact ⟨h3, fun _ => by simp⟩
  refine ⟨hchars, ?_, ?_⟩
  · intro k hk1 hk2
    obtain ⟨h1, h2⟩ := hrun (k - i) k (by omega) hk2
    exact ⟨h2 (by omega), h1⟩
  · intro p hj1 hclose hfirst c hc
    have hprev := (hrun (j - i) j (by omega) (Nat.le_refl _)).1
    obtain ⟨h1, _⟩ := row_below_open_comment E hidx hfresh hsyn1 (j + 1) (by omega) (by omega)
      (by simpa using hprev)
    rw [h1]
    unfold scanRow
    exact scanLoop_inComment_close (E.rowAt (j + 1)).render (E.rowAt (j + 1)).render.length
      ⟨0, true, 0, true, List.replicate (E.rowAt (j + 1)).render.length HL_NORMAL⟩ rfl rfl
      (by simp) (by simp) p (Nat.zero_le _) hclose (fun q _ hq => hfirst q hq) c
      (Nat.zero_le _) hc

set_option maxRecDepth 100000 in
theorem C7_open_block_comment_carries_down_witness :
    (appendRows { InitEditor 24 80 with syntaxRules := some cSyntax }
        [cstr "a /* b", cstr "int c;", cstr "d */ e"]).row.map eRow.chars
        = [cstr "a /* b", cstr "int c;", cstr "d */ e"]
      ∧ (∀ k, 0 < k → k ≤ 1 →
          ((appendRows { InitEditor 24 80 with syntaxRules := some cSyntax }
              [cstr "a /* b", cstr "int c;", cstr "d */ e"]).rowAt k).highlight
              = List.replicate ((appendRows { InitEditor 24 80 with syntaxRules := some cSyntax }
                  [cstr "a /* b", cstr "int c;", cstr "d */ e"]).rowAt k).render.length HL_MCOMMENT
            ∧ ((appendRows { InitEditor 24 80 with syntaxRules := some cSyntax }
                [cstr "a /* b", cstr "int c;", cstr "d */ e"]).rowAt k).hlOpenComment = true)
      ∧ (∀ p, 1 + 1 < [cstr "a /* b", cstr "int c;", cstr "d */ e"].length →
          closeAt ((appendRows { InitEditor 24 80 with syntaxRules := some cSyntax }
              [cstr "a /* b", cstr "int c;", cstr "d */ e"]).rowAt (1 + 1)).render p = true →
          (∀ q, q < p → closeAt ((appendRows { InitEditor 24 80 with syntaxRules := some cSyntax }
              [cstr "a /* b", cstr "int c;", cstr "d */ e"]).rowAt (1 + 1)).render q = false) →
          ∀ c, c ≤ p + 1 →
            ((appendRows { InitEditor 24 80 with syntaxRules := some cSyntax }
              [cstr "a /* b", cstr "int c;", cstr "d */ e"]).rowAt (1 + 1)).highlight.getD c HL_NORMAL
              = HL_MCOMMENT) :=
  C7_open_block_comment_carries_down { InitEditor 24 80 with syntaxRules := some cSyntax }
    [cstr "a /* b", cstr "int c;", cstr "d */ e"] (by decide) (by decide) 0 1 (by decide)
    (by decide) (by decide)
    (by
      intro k h1 h2
      have hk : k = 1 := by omega
      subst hk
      decide)

/-! ## Theorems: the two-row block comment example -/

set_option maxRecDepth 100000 in
/-- C6: with the C rule set selected (the file is named `x.c`) and a two-row
buffer holding `a /* b` on row 0 and `c */ d` on row 1: columns 2..5 of row 0
are tagged block comment and columns 0..1 normal, columns 0..3 of row 1 are
tagged block comment and columns 4..5 normal; after the two characters `/*`
are deleted from row 0 (with `EditorRowDelChar` in either order, or with two
`EditorDelChar` from the cursor behind them), row 0 holds `a  b` and every
column of row 1 is tagged normal. -/
theorem C6_two_row_block_comment_example :
    EditorOpen (InitEditor 24 80) (cstr "x.c") (some (cstr "a /* b\nc */ d\n"))
        = some blockCommentBuffer
      ∧ blockCommentBuffer.syntaxRules = some cSyntax
      ∧ blockCommentBuffer.row.map eRow.chars = [cstr "a /* b", cstr "c */ d"]
      ∧ (blockCommentBuffer.rowAt 0).highlight
          = [HL_NORMAL, HL_NORMAL, HL_MCOMMENT, HL_MCOMMENT, HL_MCOMMENT, HL_MCOMMENT]
      ∧ (blockCommentBuffer.rowAt 1).highlight
          = [HL_MCOMMENT, HL_MCOMMENT, HL_MCOMMENT, HL_MCOMMENT, HL_NORMAL, HL_NORMAL]
      ∧ (EditorRowDelChar (EditorRowDelChar blockCommentBuffer 0 2) 0 2).row.map eRow.chars
          = [cstr "a  b", cstr "c */ d"]
      ∧ ((EditorRowDelChar (EditorRowDelChar blockCommentBuffer 0 2) 0 2).rowAt 1).highlight
          = List.replicate 6 HL_NORMAL
      ∧ (EditorRowDelChar (EditorRowDelChar blockCommentBuffer 0 3) 0 2).row.map eRow.chars
          = [cstr "a  b", cstr "c */ d"]
      ∧ ((EditorRowDelChar (EditorRowDelChar blockCommentBuffer 0 3) 0 2).rowAt 1).highlight
          = List.replicate 6 HL_NORMAL
      ∧ (EditorDelChar (EditorDelChar { blockCommentBuffer with curX := 4 })).row.map eRow.chars
          = [cstr "a  b", cstr "c */ d"]
      ∧ ((EditorDelChar (EditorDelChar { blockCommentBuffer with curX := 4 })).rowAt 1).highlight
          = List.replicate 6 HL_NORMAL := by
  refine ⟨by decide, by decide, by decide, by decide, by decide, by decide, by decide,
    by decide, by decide, by decide, by decide⟩

/-! ## Theorems: highlighting after an edit -/

set_option maxHeartbeats 4000000 in
set_option maxRecDepth 100000 in
/-- C8 fails on the code.  (1) In the buffer `//`, `/*`, `x` (loaded from a file
named `x.c`, highlighting consistent) the keys Arrow-Down and Backspace join
row 1 to row 0 with `EditorDelChar`: the buffer is then `///*`, `x`, row 0 is
a line comment that ends outside any block comment, yet row `x` keeps the tag
`HL_MCOMMENT` and its open-comment flag, where a from-scratch highlighting
gives `HL_NORMAL` and a cleared flag.  (2) In the buffer `"/*"`, `x` the keys
Arrow-Right and Enter split row 0 into `"` and `/*"` with
`EditorInsertNewline`: the new row 1 ends inside a block comment, yet row `x`
keeps the tag `HL_NORMAL`, where a from-scratch highlighting gives
`HL_MCOMMENT`. -/
theorem C8_edit_leaves_stale_highlight :
    (EditorOpen (InitEditor 24 80) (cstr "x.c") (some (cstr "//\n/*\nx\n"))
        = some staleMergeBuffer
      ∧ highlightConsistent cSyntax staleMergeBuffer = true
      ∧ mainLoop true 2 (initGlobals staleMergeBuffer) [ARROW_DOWN, BACKSPACE]
          = KeyResult.returned (initGlobals staleMergeAfter) []
      ∧ EditorDelChar { staleMergeBuffer with curY := 1 } = staleMergeAfter
      ∧ scratchHighlight cSyntax false staleMergeAfter.row
          = [([HL_COMMENT, HL_COMMENT, HL_COMMENT, HL_COMMENT], false), ([HL_NORMAL], false)]
      ∧ highlightConsistent cSyntax staleMergeAfter = false)
    ∧ (EditorOpen (InitEditor 24 80) (cstr "x.c") (some (cstr "\"/*\"\nx\n"))
        = some staleSplitBuffer
      ∧ highlightConsistent cSyntax staleSplitBuffer = true
      ∧ mainLoop true 2 (initGlobals staleSplitBuffer) [ARROW_RIGHT, 13]
          = KeyResult.returned (initGlobals staleSplitAfter) []
      ∧ EditorInsertNewline { staleSplitBuffer with curX := 1 }
          = { staleSplitAfter with rndrX := 0 }
      ∧ scratchHighlight cSyntax false staleSplitAfter.row
          = [([HL_STRING], false), ([HL_MCOMMENT, HL_MCOMMENT, HL_MCOMMENT], true),
             ([HL_MCOMMENT], true)]
      ∧ highlightConsistent cSyntax staleSplitAfter = false) := by
  refine ⟨⟨?_, ?_, ?_, ?_, ?_, ?_⟩, ⟨?_, ?_, ?_, ?_, ?_, ?_⟩⟩ <;> decide

/-! ## Theorems: the quit counter -/

theorem EditorScroll_dirty (E : EditorConfig) : (EditorScroll E).dirty = E.dirty := by
  unfold EditorScroll
  simp only
  split_ifs <;> rfl

/-- One round of the main loop on Ctrl-Q while the buffer is dirty and the
counter is positive: the call returns with the counter lowered by one. -/
theorem mainLoop_ctrlQ_dirty (writeOk : Bool) (n : Nat) (G : EditorGlobals) (rest : List Int)
    (hd : G.E.dirty ≠ 0) (hq : G.quitTimes > 0) :
    mainLoop writeOk (n + 1) G (CTRL_KEY 113 :: rest)
      = mainLoop writeOk n
          { G with E := EditorScroll G.E, quitTimes := G.quitTimes - 1 } rest := by
  have hd1 : (EditorScroll G.E).dirty ≠ 0 := by rw [EditorScroll_dirty]; exact hd
  have hne : CTRL_KEY 113 ≠ 13 := by decide
  simp only [mainLoop, EditorProcessKeypress, if_neg hne, if_true, hd1, hq, ne_eq,
    not_false_eq_true, and_self]

/-- One round of the main loop on Ctrl-Q when the buffer is clean or the
counter has run out: the process exits with status 0. -/
theorem mainLoop_ctrlQ_exit (writeOk : Bool) (n : Nat) (G : EditorGlobals) (rest : List Int)
    (h : G.E.dirty = 0 ∨ G.quitTimes ≤ 0) :
    mainLoop writeOk (n + 1) G (CTRL_KEY 113 :: rest) = KeyResult.exited 0 := by
  have hne : CTRL_KEY 113 ≠ 13 := by decide
  have hcond : ¬ ((EditorScroll G.E).dirty ≠ 0 ∧ G.quitTimes > 0) := by
    rw [EditorScroll_dirty]
    intro hc
    rcases h with h | h
    · exact hc.1 h
    · omega
  simp only [mainLoop, EditorProcessKeypress, if_neg hne, if_true, if_neg hcond]

set_option maxRecDepth 100000 in
/-- C9 as stated fails: on a modified buffer (the character `a` has been
inserted into the empty buffer) with the counter at `JEDITOR_QUIT_TIMES = 3`,
the third consecutive Ctrl-Q does not exit: the third round of the main loop
returns, with the counter at zero. -/
theorem C9_third_ctrlQ_does_not_exit :
    (EditorInsertChar (InitEditor 24 80) 97).dirty ≠ 0
      ∧ (initGlobals (EditorInsertChar (InitEditor 24 80) 97)).quitTimes = JEDITOR_QUIT_TIMES
      ∧ ∃ G, mainLoop true 3 (initGlobals (EditorInsertChar (InitEditor 24 80) 97))
            [CTRL_KEY 113, CTRL_KEY 113, CTRL_KEY 113] = KeyResult.returned G []
          ∧ G.quitTimes = 0 := by
  have hd : (initGlobals (EditorInsertChar (InitEditor 24 80) 97)).E.dirty ≠ 0 := by decide
  refine ⟨by decide, rfl, ?_⟩
  rw [mainLoop_ctrlQ_dirty true 2 _ _ hd (by decide),
    mainLoop_ctrlQ_dirty true 1 _ _ (by simpa [EditorScroll_dirty] using hd) (by decide),
    mainLoop_ctrlQ_dirty true 0 _ _ (by simpa [EditorScroll_dirty] using hd) (by decide)]
  exact ⟨_, rfl, by decide⟩

/-- C9, amended: with a dirty buffer and the quit counter at its initial value
`N = JEDITOR_QUIT_TIMES = 3`, the editor exits on exactly the `(N+1)`-th
consecutive Ctrl-Q keypress: each of the first `N` presses returns without
exiting, leaving the counter one lower, and the `(N+1)`-th exits with
status 0. -/
theorem C9_quit_needs_one_more_press (writeOk : Bool) (G : EditorGlobals) (rest : List Int)
    (hd : G.E.dirty ≠ 0) (hq : G.quitTimes = JEDITOR_QUIT_TIMES) :
    (∃ G1, mainLoop writeOk 1 G (CTRL_KEY 113 :: rest) = KeyResult.returned G1 rest
        ∧ G1.quitTimes = JEDITOR_QUIT_TIMES - 1)
      ∧ (∃ G2, mainLoop writeOk 2 G (CTRL_KEY 113 :: CTRL_KEY 113 :: rest)
            = KeyResult.returned G2 rest
          ∧ G2.quitTimes = JEDITOR_QUIT_TIMES - 2)
      ∧ (∃ G3, mainLoop writeOk 3 G (CTRL_KEY 113 :: CTRL_KEY 113 :: CTRL_KEY 113 :: rest)
            = KeyResult.returned G3 rest
          ∧ G3.quitTimes = JEDITOR_QUIT_TIMES - 3)
      ∧ mainLoop writeOk 4 G
            (CTRL_KEY 113 :: CTRL_KEY 113 :: CTRL_KEY 113 :: CTRL_KEY 113 :: rest)
          = KeyResult.exited 0 := by
  have hq3 : G.quitTimes = 3 := hq
  refine ⟨?_, ?_, ?_, ?_⟩
  · rw [mainLoop_ctrlQ_dirty writeOk 0 G rest hd (by omega)]
    exact ⟨_, rfl, by simp only [hq3]; rfl⟩
  · rw [mainLoop_ctrlQ_dirty writeOk 1 G _ hd (by omega),
      mainLoop_ctrlQ_dirty writeOk 0 _ rest (by simpa [EditorScroll_dirty] using hd)
        (by simp only; omega)]
    exact ⟨_, rfl, by simp only [hq3]; rfl⟩
  · rw [mainLoop_ctrlQ_dirty writeOk 2 G _ hd (by omega),
      mainLoop_ctrlQ_dirty writeOk 1 _ _ (by simpa [EditorScroll_dirty] using hd)
        (by simp only; omega),
      mainLoop_ctrlQ_dirty writeOk 0 _ rest (by simpa [EditorScroll_dirty] using hd)
        (by simp only; omega)]
    exact ⟨_, rfl, by simp only [hq3]; rfl⟩
  · rw [mainLoop_ctrlQ_dirty writeOk 3 G _ hd (by omega),
      mainLoop_ctrlQ_dirty writeOk 2 _ _ (by simpa [EditorScroll_dirty] using hd)
        (by simp only; omega),
      mainLoop_ctrlQ_dirty writeOk 1 _ _ (by simpa [EditorScroll_dirty] using hd)
        (by simp only; omega)]
    exact mainLoop_ctrlQ_exit writeOk 0 _ rest (Or.inr (by simp only; omega))

set_option maxRecDepth 100000 in
theorem C9_quit_needs_one_more_press_witness :
    (∃ G1, mainLoop true 1 { initGlobals (InitEditor 24 80) with E := EditorInsertChar (InitEditor 24 80) 97 }
          (CTRL_KEY 113 :: []) = KeyResult.returned G1 []
        ∧ G1.quitTimes = JEDITOR_QUIT_TIMES - 1)
      ∧ (∃ G2, mainLoop true 2 { initGlobals (InitEditor 24 80) with E := EditorInsertChar (InitEditor 24 80) 97 }
            (CTRL_KEY 113 :: CTRL_KEY 113 :: []) = KeyResult.returned G2 []
          ∧ G2.quitTimes = JEDITOR_QUIT_TIMES - 2)
      ∧ (∃ G3, mainLoop true 3 { initGlobals (InitEditor 24 80) with E := EditorInsertChar (InitEditor 24 80) 97 }
            (CTRL_KEY 113 :: CTRL_KEY 113 :: CTRL_KEY 113 :: []) = KeyResult.returned G3 []
          ∧ G3.quitTimes = JEDITOR_QUIT_TIMES - 3)
      ∧ mainLoop true 4 { initGlobals (InitEditor 24 80) with E := EditorInsertChar (InitEditor 24 80) 97 }
            (CTRL_KEY 113 :: CTRL_KEY 113 :: CTRL_KEY 113 :: CTRL_KEY 113 :: [])
          = KeyResult.exited 0 :=
  C9_quit_needs_one_more_press true
    { initGlobals (InitEditor 24 80) with E := EditorInsertChar (InitEditor 24 80) 97 } []
    (by decide) (by decide)

theorem matchKeyword_pos (render : List Nat) (i : Nat) (kws : List (List Nat))
    (hk : ∀ kw ∈ kws,
      0 < (if kw.getD (kw.length - 1) 0 = 124 then kw.length - 1 else kw.length))
    (k : Nat) (b : Bool) (h : matchKeyword render i kws = some (k, b)) : 0 < k := by
  induction kws with
  | nil => simp [matchKeyword] at h
  | cons kw t ih =>
    unfold matchKeyword at h
    simp only at h
    have hkw := hk kw (by simp)
    split_ifs at h with h1 h2 h3
    all_goals first
      | exact ih (fun kw1 h1 => hk kw1 (by simp [h1])) h
      | (simp only [Option.some.injEq, Prod.mk.injEq, decide_eq_true_eq] at h h1
         simp only [h1, if_true, if_false] at hkw
         omega)

theorem C_HL_Keywords_nonempty : ∀ kw ∈ C_HL_Keywords,
    0 < (if kw.getD (kw.length - 1) 0 = 124 then kw.length - 1 else kw.length) := by
  decide

/-- Under the C rule set every pass of the scan loop that does not leave the
loop moves to a later column. -/
theorem scanStep_progress (render : List Nat) (s : ScanState) :
    s.i < (scanStep cSyntax render s).1.i ∨ (scanStep cSyntax render s).2 = false := by
  unfold scanStep
  simp only [cSyntax_scs, cSyntax_mcs, cSyntax_mce, cSyntax_keywords, Option.getD_some,
    List.length_cons, List.length_nil]
  split_ifs
  all_goals first
    | (right; rfl)
    | (left; simp; done)
    | (cases hk : matchKeyword render s.i C_HL_Keywords with
       | none => left; simp
       | some p =>
         obtain ⟨k, b⟩ := p
         left
         have := matchKeyword_pos render s.i C_HL_Keywords C_HL_Keywords_nonempty k b hk
         simpa using this)

/-- Under the C rule set the scan of a row needs no more passes than the row
has display columns left: any larger fuel gives the same result. -/
theorem scanLoop_fuel_irrelevant (render : List Nat) (n : Nat) (s : ScanState) (fuel : Nat)
    (hn : render.length - s.i ≤ n) (hfuel : n ≤ fuel) :
    scanLoop cSyntax render fuel s = scanLoop cSyntax render n s := by
  induction n generalizing s fuel with
  | zero =>
    have hi : ¬ s.i < render.length := by omega
    cases fuel with
    | zero => rfl
    | succ f => simp [scanLoop, hi]
  | succ m ih =>
    cases fuel with
    | zero => omega
    | succ f =>
      unfold scanLoop
      by_cases hi : s.i < render.length
      · rw [if_pos hi, if_pos hi]
        by_cases hc : (scanStep cSyntax render s).2 = true
        · rw [if_pos hc, if_pos hc]
          have hp := scanStep_progress render s
          have hlt : s.i < (scanStep cSyntax render s).1.i := by
            rcases hp with hp | hp
            · exact hp
            · rw [hp] at hc
              exact absurd hc (by simp)
          exact ih _ f (by omega) (by omega)
        · rw [if_neg hc, if_neg hc]
      · rw [if_neg hi, if_neg hi]

/-- In a buffer whose rows are numbered by position, the cascade of
`EditorUpdateSyntax` from row `pos` makes at most `numRows - (pos + 1)`
recursive calls: any larger fuel gives the same result.  `EditorUpdateSyntax`
passes the number of rows. -/
theorem updateSyntaxFuel_fuel_irrelevant (n : Nat) (E : EditorConfig) (pos fuel : Nat)
    (hidx : rowsNumbered E.row) (hpos : pos < E.row.length)
    (hnum : E.numRows ≤ (E.row.length : Int))
    (hn : E.numRows.toNat - (pos + 1) ≤ n) (hfuel : n ≤ fuel) :
    updateSyntaxFuel fuel E pos = updateSyntaxFuel n E pos := by
  induction n generalizing E pos fuel with
  | zero =>
    have hcond : ¬ (E.syntaxRules.isSome = true
        ∧ ((E.rowAt pos).hlOpenComment != (freshRow E pos).hlOpenComment) = true
        ∧ (E.rowAt pos).idx + 1 < E.numRows) := by
      rw [rowAt_idx E pos hidx hpos]
      omega
    rw [updateSyntaxFuel_eq, updateSyntaxFuel_eq 0, if_neg hcond, if_neg hcond]
  | succ m ih =>
    cases fuel with
    | zero => omega
    | succ f =>
      rw [updateSyntaxFuel_eq, updateSyntaxFuel_eq (m + 1)]
      by_cases hcond : E.syntaxRules.isSome = true
          ∧ ((E.rowAt pos).hlOpenComment != (freshRow E pos).hlOpenComment) = true
          ∧ (E.rowAt pos).idx + 1 < E.numRows
      · rw [if_pos hcond, if_pos hcond]
        have hlt := hcond.2.2
        rw [rowAt_idx E pos hidx hpos] at hlt ⊢
        have hnext : ((pos : Int) + 1).toNat = pos + 1 := by omega
        rw [hnext]
        exact ih { E with row := E.row.set pos (freshRow E pos) } (pos + 1) f
          (rowsNumbered_set _ _ _ hidx (freshRow_idx E pos))
          (by simp only [List.length_set]; omega)
          (by simp only [List.length_set]; exact hnum)
          (by simp only; omega) (by omega)
      · rw [if_neg hcond, if_neg hcond]

/-! ## Theorems: the general statements at a concrete buffer -/

set_option maxRecDepth 100000 in
theorem C3_insert_then_delete_restores_row_witness :
    ((EditorRowDelChar (EditorRowInsertChar blockCommentBuffer 0 2 120) 0 2).rowAt 0).chars
        = (blockCommentBuffer.rowAt 0).chars
      ∧ ((EditorRowDelChar (EditorRowInsertChar blockCommentBuffer 0 2 120) 0 2).rowAt 0).size
        = (blockCommentBuffer.rowAt 0).size
      ∧ ((EditorRowDelChar (EditorRowInsertChar blockCommentBuffer 0 2 120) 0 2).rowAt 0).render
        = (blockCommentBuffer.rowAt 0).render
      ∧ ((EditorRowDelChar (EditorRowInsertChar blockCommentBuffer 0 2 120) 0 2).rowAt 0).rndrSize
        = (blockCommentBuffer.rowAt 0).rndrSize
      ∧ ((EditorRowDelChar (EditorRowInsertChar blockCommentBuffer 0 2 120) 0 2).rowAt 0).highlight
        = (blockCommentBuffer.rowAt 0).highlight :=
  C3_insert_then_delete_restores_row blockCommentBuffer 0 2 120 (by decide) (by decide)
    (by decide) (by decide) (by decide) (by decide)

set_option maxRecDepth 100000 in
theorem C4_serialize_then_load_roundtrip_witness :
    (∃ E1, EditorOpen (InitEditor 24 80) (cstr "x.c")
          (some (EditorRowsToString blockCommentBuffer).1) = some E1
        ∧ E1.numRows = blockCommentBuffer.numRows
        ∧ E1.row.map eRow.chars = blockCommentBuffer.row.map eRow.chars)
      ∧ (EditorRowsToString blockCommentBuffer).1
          = (blockCommentBuffer.row.map (fun r => r.chars ++ [10])).flatten
      ∧ (EditorRowsToString blockCommentBuffer).2
          = (blockCommentBuffer.row.map (fun r => r.size + 1)).sum
      ∧ (EditorRowsToString blockCommentBuffer).2
          = (((EditorRowsToString blockCommentBuffer).1.length : Nat) : Int) :=
  C4_serialize_then_load_roundtrip blockCommentBuffer (InitEditor 24 80) (cstr "x.c")
    (by decide) (by decide) (by decide)

set_option maxRecDepth 100000 in
theorem C5_delete_at_line_start_merges_witness :
    ((EditorDelChar { blockCommentBuffer with curY := 1 }).rowAt 0).chars
        = cstr "a /* b" ++ cstr "c */ d"
      ∧ (EditorDelChar { blockCommentBuffer with curY := 1 }).numRows = 2 - 1
      ∧ (EditorDelChar { blockCommentBuffer with curY := 1 }).row.map eRow.chars
          = [cstr "a /* b" ++ cstr "c */ d"]
      ∧ (EditorDelChar { blockCommentBuffer with curY := 1 }).curX = 6
      ∧ (EditorDelChar { blockCommentBuffer with curY := 1 }).curY = 1 - 1 :=
  C5_delete_at_line_start_merges { blockCommentBuffer with curY := 1 }
    (by decide) (by decide) (by decide) (by decide)

/-! ## Theorems: from display column to logical column -/

theorem curXToRndrXLoop_succ (chars : List Nat) (k : Nat) :
    curXToRndrXLoop chars (k + 1) 0 0
      = advanceRx (chars.getD k 0) (curXToRndrXLoop chars k 0 0) := by
  rw [curXToRndrXLoop_add chars k 1 0 0]
  simp [curXToRndrXLoop]

theorem curXToRndrXLoop_mono (chars : List Nat) (a b : Nat) (h : a ≤ b) :
    curXToRndrXLoop chars a 0 0 ≤ curXToRndrXLoop chars b 0 0 := by
  have hsplit : b = a + (b - a) := by omega
  rw [hsplit, curXToRndrXLoop_add]
  have := curXToRndrXLoop_ge chars (b - a) (0 + a) (curXToRndrXLoop chars a 0 0)
  have h0 : (0 : Int) ≤ ((b - a : Nat) : Int) := Int.ofNat_nonneg _
  omega

theorem curXToRndrXLoop_strict (chars : List Nat) (a b : Nat) (h : a < b) :
    curXToRndrXLoop chars a 0 0 < curXToRndrXLoop chars b 0 0 := by
  have h1 := curXToRndrXLoop_mono chars (a + 1) b h
  rw [curXToRndrXLoop_succ] at h1
  have h2 := advanceRx_gt (chars.getD a 0) (curXToRndrXLoop chars a 0 0)
  omega

/-- The loop of `EditorRowRendrXToCurX` entered at column `cx` with `curRx` the
display column of `cx`: it returns the first column from `cx` on after whose
character the display column exceeds `rowX`, or the column where it runs out. -/
theorem rendrXToCurXLoop_least (chars : List Nat) (rowX : Int) (n cx : Nat) :
    ∃ r : Nat, rendrXToCurXLoop chars rowX n cx (curXToRndrXLoop chars cx 0 0) = (r : Int)
      ∧ cx ≤ r ∧ r ≤ cx + n
      ∧ (r < cx + n → rowX < curXToRndrXLoop chars (r + 1) 0 0)
      ∧ ∀ c, cx ≤ c → c < r → curXToRndrXLoop chars (c + 1) 0 0 ≤ rowX := by
  induction n generalizing cx with
  | zero =>
    exact ⟨cx, rfl, Nat.le_refl _, Nat.le_refl _, fun h => absurd h (by omega),
      fun c h1 h2 => absurd h2 (by omega)⟩
  | succ n ih =>
    simp only [rendrXToCurXLoop]
    rw [← curXToRndrXLoop_succ]
    by_cases hgt : curXToRndrXLoop chars (cx + 1) 0 0 > rowX
    · rw [if_pos hgt]
      exact ⟨cx, rfl, Nat.le_refl _, by omega, fun _ => hgt, fun c h1 h2 => absurd h2 (by omega)⟩
    · rw [if_neg hgt]
      obtain ⟨r, h1, h2, h3, h4, h5⟩ := ih (cx + 1)
      refine ⟨r, h1, by omega, by omega, fun h => h4 (by omega), ?_⟩
      intro c hc1 hc2
      by_cases hc : c = cx
      · rw [hc]
        omega
      · exact h5 c (by omega) hc2

/-- C18: for every row and every display column `d ≥ 0`,
`EditorRowRendrXToCurX(row, d)` is a column `r` with `0 ≤ r ≤ row.size`; when
`r < row.size` the display column reached after character `r` exceeds `d`, and
it does not for any column before `r` (so `r` is the least such column, and
`r = row.size` when there is none).  Hence for `d` below the display width
`EditorRowCurXToRndrX(row, row.size)` the result satisfies
`EditorRowCurXToRndrX(row, r) ≤ d < EditorRowCurXToRndrX(row, r + 1)`, and a
display column inside the span of character `j` (the padding, when `j` is a
tab) maps to `j`. -/
theorem C18_rendrX_to_curX_least (row : eRow) (d : Int) (hd : 0 ≤ d) :
    (0 ≤ EditorRowRendrXToCurX row d ∧ EditorRowRendrXToCurX row d ≤ row.size)
      ∧ (EditorRowRendrXToCurX row d < row.size →
          d < EditorRowCurXToRndrX row (EditorRowRendrXToCurX row d + 1))
      ∧ (∀ cx : Int, 0 ≤ cx → cx < EditorRowRendrXToCurX row d →
          EditorRowCurXToRndrX row (cx + 1) ≤ d)
      ∧ ((∀ cx : Int, 0 ≤ cx → cx < row.size → EditorRowCurXToRndrX row (cx + 1) ≤ d) →
          EditorRowRendrXToCurX row d = row.size)
      ∧ (d < EditorRowCurXToRndrX row row.size →
          EditorRowCurXToRndrX row (EditorRowRendrXToCurX row d) ≤ d
            ∧ d < EditorRowCurXToRndrX row (EditorRowRendrXToCurX row d + 1))
      ∧ (∀ j : Int, 0 ≤ j → j < row.size → EditorRowCurXToRndrX row j ≤ d →
          d < EditorRowCurXToRndrX row (j + 1) → EditorRowRendrXToCurX row d = j) := by
  obtain ⟨r, h1, _, h3, h4, h5⟩ := rendrXToCurXLoop_least row.chars d row.chars.length 0
  have hr : EditorRowRendrXToCurX row d = (r : Int) := h1
  have hrx : ∀ k : Nat, EditorRowCurXToRndrX row (k : Int) = curXToRndrXLoop row.chars k 0 0 := by
    intro k
    unfold EditorRowCurXToRndrX
    simp
  have hrx1 : ∀ k : Nat, EditorRowCurXToRndrX row ((k : Int) + 1)
      = curXToRndrXLoop row.chars (k + 1) 0 0 := by
    intro k
    have := hrx (k + 1)
    push_cast at this
    exact this
  have hsize : row.size = (row.chars.length : Int) := rfl
  have hlow : r < row.chars.length → d < curXToRndrXLoop row.chars (r + 1) 0 0 :=
    fun h => h4 (by omega)
  have hleast : ∀ c : Nat, c < r → curXToRndrXLoop row.chars (c + 1) 0 0 ≤ d :=
    fun c hc => h5 c (Nat.zero_le _) hc
  have hspan : ∀ j : Nat, j < row.chars.length → curXToRndrXLoop row.chars j 0 0 ≤ d →
      d < curXToRndrXLoop row.chars (j + 1) 0 0 → r = j := by
    intro j hj hj1 hj2
    by_contra hne
    rcases Nat.lt_or_gt_of_ne hne with hlt | hgt
    · have := hlow (by omega)
      have := curXToRndrXLoop_mono row.chars (r + 1) j (by omega)
      omega
    · have := hleast j hgt
      omega
  rw [hr, hsize]
  refine ⟨⟨by omega, by omega⟩, ?_, ?_, ?_, ?_, ?_⟩
  · intro h
    rw [hrx1]
    exact hlow (by omega)
  · intro cx hcx0 hcx
    obtain ⟨c, rfl⟩ := Int.eq_ofNat_of_zero_le hcx0
    rw [hrx1]
    exact hleast c (by omega)
  · intro hall
    by_contra hne
    have hlt : r < row.chars.length := by omega
    have := hall (r : Int) (by omega) (by omega)
    rw [hrx1] at this
    have := hlow hlt
    omega
  · intro hwidth
    rw [hrx] at hwidth
    have hlt : r < row.chars.length := by
      by_contra hge
      have : r = row.chars.length := by omega
      cases hlen : row.chars.length with
      | zero =>
        rw [hlen] at hwidth
        simp [curXToRndrXLoop] at hwidth
        omega
      | succ m =>
        have := hleast m (by omega)
        rw [hlen] at hwidth
        omega
    rw [hrx, hrx1]
    refine ⟨?_, hlow hlt⟩
    cases r with
    | zero => simpa [curXToRndrXLoop] using hd
    | succ m => exact hleast m (by omega)
  · intro j hj0 hj hj1 hj2
    obtain ⟨c, rfl⟩ := Int.eq_ofNat_of_zero_le hj0
    rw [hrx] at hj1
    rw [hrx1] at hj2
    rw [hspan c (by omega) hj1 hj2]

theorem C18_rendrX_to_curX_least_witness :
    EditorRowRendrXToCurX ⟨0, [97, 9, 98], [], [], false⟩ 5 = 1 :=
  (C18_rendrX_to_curX_least ⟨0, [97, 9, 98], [], [], false⟩ 5 (by decide)).2.2.2.2.2
    1 (by decide) (by decide) (by decide) (by decide)

/-! ## Theorems: the display content of a row -/

theorem tabPad_eq (n : Nat) (r : List Nat) (h : (8 - r.length % 8) % 8 ≤ n) :
    tabPad n r = r ++ List.replicate ((8 - r.length % 8) % 8) 32 := by
  induction n generalizing r with
  | zero =>
    have h0 : (8 - r.length % 8) % 8 = 0 := by omega
    simp [tabPad, h0]
  | succ n ih =>
    unfold tabPad JEDITOR_TAB_STOP
    by_cases hm : r.length % 8 ≠ 0
    · rw [if_pos hm, ih (r ++ [32]) (by simp only [List.length_append, List.length_singleton]; omega)]
      have hk : (8 - r.length % 8) % 8
          = (8 - (r ++ [32]).length % 8) % 8 + 1 := by
        simp only [List.length_append, List.length_singleton]
        omega
      rw [hk, List.replicate_succ]
      simp
    · rw [if_neg hm]
      have h0 : (8 - r.length % 8) % 8 = 0 := by omega
      simp [h0]

/-- What one pass of the second loop of `EditorUpdateRow` appends for the
character `c` when `render` has been written so far. -/
theorem renderLoop_cons (c : Nat) (cs render : List Nat) :
    renderLoop (c :: cs) render
      = renderLoop cs (render ++
          (if c = 9 then List.replicate (8 - render.length % 8) 32 else [c])) := by
  conv_lhs => rw [renderLoop]
  by_cases hc : c = 9
  · rw [if_pos hc, if_pos hc]
    unfold JEDITOR_TAB_STOP
    rw [tabPad_eq 8 _ (by omega)]
    congr 1
    have hk : 8 - render.length % 8 = (8 - (render ++ [32]).length % 8) % 8 + 1 := by
      simp only [List.length_append, List.length_singleton]
      omega
    rw [hk, List.replicate_succ]
    simp
  · rw [if_neg hc, if_neg hc]

theorem advanceRx_length (c : Nat) (render : List Nat) :
    advanceRx c (render.length : Int)
      = (((render ++ (if c = 9 then List.replicate (8 - render.length % 8) 32 else [c])).length
          : Nat) : Int) := by
  unfold advanceRx JEDITOR_TAB_STOP
  by_cases hc : c = 9
  · simp only [if_pos hc, List.length_append, List.length_replicate]
    push_cast
    omega
  · simp only [if_neg hc, List.length_append, List.length_singleton]
    push_cast
    rfl

theorem renderLoop_append (a b render : List Nat) :
    renderLoop (a ++ b) render = renderLoop b (renderLoop a render) := by
  induction a generalizing render with
  | nil => rfl
  | cons c t ih =>
    rw [List.cons_append, renderLoop_cons, renderLoop_cons, ih]

theorem renderLoop_prefix (cs render : List Nat) :
    ∃ suffix, renderLoop cs render = render ++ suffix := by
  induction cs generalizing render with
  | nil => exact ⟨[], by simp [renderLoop]⟩
  | cons c t ih =>
    rw [renderLoop_cons]
    obtain ⟨s, hs⟩ := ih (render ++ (if c = 9 then List.replicate (8 - render.length % 8) 32 else [c]))
    exact ⟨_, by rw [hs, List.append_assoc]⟩

/-- The display content of the first `k` characters is as long as the display
column of `k`. -/
theorem renderLoop_take_length (chars : List Nat) (k : Nat) (hk : k ≤ chars.length) :
    (((renderLoop (chars.take k) []).length : Nat) : Int) = curXToRndrXLoop chars k 0 0 := by
  induction k with
  | zero => simp [renderLoop, curXToRndrXLoop]
  | succ k ih =>
    have hlt : k < chars.length := by omega
    rw [List.take_succ, List.getElem?_eq_getElem hlt]
    simp only [Option.toList_some]
    rw [renderLoop_append, renderLoop_cons, curXToRndrXLoop_succ, ← ih (by omega)]
    simp only [renderLoop]
    rw [advanceRx_length]
    have : chars.getD k 0 = chars[k] := by
      rw [List.getD_eq_getElem?_getD, List.getElem?_eq_getElem hlt]
      rfl
    rw [this]

theorem renderLoop_split (chars : List Nat) (j : Nat) (hj : j < chars.length) :
    ∃ suffix, renderLoop chars []
      = renderLoop (chars.take j) []
          ++ (if chars.getD j 0 = 9
              then List.replicate (8 - (renderLoop (chars.take j) []).length % 8) 32
              else [chars.getD j 0])
          ++ suffix := by
  have hc : chars.getD j 0 = chars[j] := by
    rw [List.getD_eq_getElem?_getD, List.getElem?_eq_getElem hj]
    rfl
  have hsplit : chars = chars.take j ++ chars[j] :: chars.drop (j + 1) := by
    rw [← List.drop_eq_getElem_cons hj, List.take_append_drop]
  obtain ⟨s, hs⟩ := renderLoop_prefix (chars.drop (j + 1))
    (renderLoop (chars.take j) [] ++ (if chars[j] = 9
      then List.replicate (8 - (renderLoop (chars.take j) []).length % 8) 32 else [chars[j]]))
  refine ⟨s, ?_⟩
  conv_lhs => rw [hsplit, renderLoop_append, renderLoop_cons]
  rw [hc, hs]

/-- The display content agrees with the column mapping. -/
theorem renderLoop_columns (row : eRow) (hr : row.render = renderLoop row.chars []) :
    row.rndrSize = EditorRowCurXToRndrX row row.size
      ∧ (∀ j : Nat, j < row.chars.length → row.chars.getD j 0 ≠ 9 →
          row.render[(EditorRowCurXToRndrX row (j : Int)).toNat]? = some (row.chars.getD j 0))
      ∧ (∀ j : Nat, j < row.chars.length → row.chars.getD j 0 = 9 →
          EditorRowCurXToRndrX row ((j : Int) + 1)
              = (EditorRowCurXToRndrX row (j : Int) / 8 + 1) * 8
            ∧ ∀ k : Int, EditorRowCurXToRndrX row (j : Int) ≤ k →
                k < EditorRowCurXToRndrX row ((j : Int) + 1) → row.render[k.toNat]? = some 32) := by
  have hrx : ∀ k : Nat, EditorRowCurXToRndrX row (k : Int) = curXToRndrXLoop row.chars k 0 0 := by
    intro k
    unfold EditorRowCurXToRndrX
    simp
  have hrx1 : ∀ k : Nat, EditorRowCurXToRndrX row ((k : Int) + 1)
      = curXToRndrXLoop row.chars (k + 1) 0 0 := by
    intro k
    have := hrx (k + 1)
    push_cast at this
    exact this
  refine ⟨?_, ?_, ?_⟩
  · unfold eRow.rndrSize eRow.size
    rw [hr, hrx, ← renderLoop_take_length row.chars row.chars.length (Nat.le_refl _),
      List.take_length]
  · intro j hj hc
    obtain ⟨s, hs⟩ := renderLoop_split row.chars j hj
    rw [if_neg hc] at hs
    rw [hr, hs, hrx, ← renderLoop_take_length row.chars j (by omega), List.append_assoc]
    simp only [Int.toNat_ofNat]
    rw [List.getElem?_append_right (Nat.le_refl _)]
    simp
  · intro j hj hc
    obtain ⟨s, hs⟩ := renderLoop_split row.chars j hj
    rw [if_pos hc] at hs
    have hlen := renderLoop_take_length row.chars j (by omega)
    have hnext : curXToRndrXLoop row.chars (j + 1) 0 0
        = (((renderLoop (row.chars.take j) []).length
            + (8 - (renderLoop (row.chars.take j) []).length % 8) : Nat) : Int) := by
      rw [curXToRndrXLoop_succ, ← hlen, advanceRx_length, if_pos hc]
      simp
    rw [hrx, hrx1, hnext, ← hlen]
    constructor
    · push_cast
      omega
    · intro k hk1 hk2
      rw [hr, hs, List.append_assoc,
        List.getElem?_append_right (by omega)]
      rw [List.getElem?_append_left
        (by simp only [List.length_replicate]; omega)]
      rw [List.getElem?_replicate]
      rw [if_pos (by omega)]

theorem freshRow_highlight_length (E : EditorConfig) (pos : Nat) :
    (freshRow E pos).highlight.length = (freshRow E pos).render.length := by
  rw [freshRow_render]
  unfold freshRow
  cases E.syntaxRules with
  | none => simp
  | some syn =>
    simp only
    unfold scanRow
    rw [(scanLoop_spec syn _ _ _).1]
    simp

/-- Re-highlighting leaves every row it has written, and every row that had
one tag per display column before, with one tag per display column. -/
theorem updateSyntaxFuel_highlight_length (fuel : Nat) (E : EditorConfig) (pos j : Nat)
    (h : j = pos ∨ (E.rowAt j).highlight.length = (E.rowAt j).render.length) :
    ((updateSyntaxFuel fuel E pos).rowAt j).highlight.length
      = ((updateSyntaxFuel fuel E pos).rowAt j).render.length := by
  induction fuel generalizing E pos with
  | zero =>
    by_cases hpos : pos < E.row.length
    · rw [updateSyntaxFuel_eq]
      have key : (EditorConfig.rowAt { E with row := E.row.set pos (freshRow E pos) } j).highlight.length
          = (EditorConfig.rowAt { E with row := E.row.set pos (freshRow E pos) } j).render.length := by
        by_cases hj : pos = j
        · subst hj
          rw [rowAt_set_self E pos _ hpos]
          exact freshRow_highlight_length E pos
        · rw [rowAt_set_ne E pos j _ hj]
          rcases h with h | h
          · exact absurd h.symm hj
          · exact h
      split <;> exact key
    · rw [updateSyntaxFuel_out_of_range _ _ _ (by omega)]
      rcases h with h | h
      · have : E.rowAt j = default := by
          unfold EditorConfig.rowAt
          exact List.getD_eq_default _ _ (by omega)
        rw [this]
        rfl
      · exact h
  | succ n ih =>
    by_cases hpos : pos < E.row.length
    · rw [updateSyntaxFuel_eq]
      have key : (EditorConfig.rowAt { E with row := E.row.set pos (freshRow E pos) } j).highlight.length
          = (EditorConfig.rowAt { E with row := E.row.set pos (freshRow E pos) } j).render.length := by
        by_cases hj : pos = j
        · subst hj
          rw [rowAt_set_self E pos _ hpos]
          exact freshRow_highlight_length E pos
        · rw [rowAt_set_ne E pos j _ hj]
          rcases h with h | h
          · exact absurd h.symm hj
          · exact h
      split
      · exact ih { E with row := E.row.set pos (freshRow E pos) } _ (Or.inr key)
      · exact key
    · rw [updateSyntaxFuel_out_of_range _ _ _ (by omega)]
      rcases h with h | h
      · have : E.rowAt j = default := by
          unfold EditorConfig.rowAt
          exact List.getD_eq_default _ _ (by omega)
        rw [this]
        rfl
      · exact h

/-- The row at `pos` after `EditorUpdateRow(&E.row[pos])`: its logical content
is kept, its display content is the one the second loop builds, and it has one
highlight tag per display column. -/
theorem EditorUpdateRow_rowAt (E : EditorConfig) (pos : Nat) (hpos : pos < E.row.length) :
    ((EditorUpdateRow E pos).rowAt pos).chars = (E.rowAt pos).chars
      ∧ ((EditorUpdateRow E pos).rowAt pos).render = renderLoop (E.rowAt pos).chars []
      ∧ ((EditorUpdateRow E pos).rowAt pos).highlight.length
          = ((EditorUpdateRow E pos).rowAt pos).render.length := by
  rw [EditorUpdateRow_eq]
  obtain ⟨rows, h1, h2⟩ := updateSyntaxFuel_frame E.row.length
    { E with row := E.row.set pos ⟨(E.rowAt pos).idx, (E.rowAt pos).chars,
        renderLoop (E.rowAt pos).chars [], (E.rowAt pos).highlight,
        (E.rowAt pos).hlOpenComment⟩ } pos
  have hbase := rowAt_base_of_map
    { E with row := E.row.set pos ⟨(E.rowAt pos).idx, (E.rowAt pos).chars,
        renderLoop (E.rowAt pos).chars [], (E.rowAt pos).highlight,
        (E.rowAt pos).hlOpenComment⟩ }
    { E with row := rows } h2 pos
  rw [rowAt_set_self E pos _ hpos] at hbase
  simp only [eRow.base, Prod.mk.injEq] at hbase
  refine ⟨?_, ?_, updateSyntaxFuel_highlight_length _ _ pos pos (Or.inl rfl)⟩
  · rw [h1]
    exact hbase.2.1
  · rw [h1]
    exact hbase.2.2

/-- C19: for every row of the buffer, after `EditorUpdateRow` the row keeps its
logical content and its display content agrees with the column mapping:
`rndrSize = EditorRowCurXToRndrX(row, row.size)`; for every logical column `j`
holding a character other than a tab, `render[EditorRowCurXToRndrX(row, j)]`
is that character; for every tab at logical column `j`, the display column
after it is the next multiple of `JEDITOR_TAB_STOP = 8` and `render` holds
spaces from `EditorRowCurXToRndrX(row, j)` up to that multiple, exclusive; and
the highlight array has exactly `rndrSize` tags. -/
theorem C19_update_row_display_content (E : EditorConfig) (pos : Nat)
    (hpos : pos < E.row.length) :
    ((EditorUpdateRow E pos).rowAt pos).chars = (E.rowAt pos).chars
      ∧ ((EditorUpdateRow E pos).rowAt pos).rndrSize
          = EditorRowCurXToRndrX ((EditorUpdateRow E pos).rowAt pos)
              ((EditorUpdateRow E pos).rowAt pos).size
      ∧ (∀ j : Nat, j < ((EditorUpdateRow E pos).rowAt pos).chars.length →
          ((EditorUpdateRow E pos).rowAt pos).chars.getD j 0 ≠ 9 →
          ((EditorUpdateRow E pos).rowAt pos).render[
              (EditorRowCurXToRndrX ((EditorUpdateRow E pos).rowAt pos) (j : Int)).toNat]?
            = some (((EditorUpdateRow E pos).rowAt pos).chars.getD j 0))
      ∧ (∀ j : Nat, j < ((EditorUpdateRow E pos).rowAt pos).chars.length →
          ((EditorUpdateRow E pos).rowAt pos).chars.getD j 0 = 9 →
          EditorRowCurXToRndrX ((EditorUpdateRow E pos).rowAt pos) ((j : Int) + 1)
              = (EditorRowCurXToRndrX ((EditorUpdateRow E pos).rowAt pos) (j : Int)
                  / (JEDITOR_TAB_STOP : Int) + 1) * (JEDITOR_TAB_STOP : Int)
            ∧ ∀ k : Int, EditorRowCurXToRndrX ((EditorUpdateRow E pos).rowAt pos) (j : Int) ≤ k →
                k < EditorRowCurXToRndrX ((EditorUpdateRow E pos).rowAt pos) ((j : Int) + 1) →
                ((EditorUpdateRow E pos).rowAt pos).render[k.toNat]? = some 32)
      ∧ (((EditorUpdateRow E pos).rowAt pos).highlight.length : Int)
          = ((EditorUpdateRow E pos).rowAt pos).rndrSize := by
  obtain ⟨h1, h2, h3⟩ := EditorUpdateRow_rowAt E pos hpos
  have hr : ((EditorUpdateRow E pos).rowAt pos).render
      = renderLoop ((EditorUpdateRow E pos).rowAt pos).chars [] := by rw [h2, h1]
  obtain ⟨g1, g2, g3⟩ := renderLoop_columns _ hr
  refine ⟨h1, g1, g2, g3, ?_⟩
  unfold eRow.rndrSize
  rw [h3]

set_option maxRecDepth 100000 in
theorem C19_update_row_display_content_witness :
    ((EditorUpdateRow tabRowBuffer 0).rowAt 0).chars = (tabRowBuffer.rowAt 0).chars
      ∧ ((EditorUpdateRow tabRowBuffer 0).rowAt 0).rndrSize
          = EditorRowCurXToRndrX ((EditorUpdateRow tabRowBuffer 0).rowAt 0)
              ((EditorUpdateRow tabRowBuffer 0).rowAt 0).size
      ∧ (((EditorUpdateRow tabRowBuffer 0).rowAt 0).highlight.length : Int)
          = ((EditorUpdateRow tabRowBuffer 0).rowAt 0).rndrSize :=
  ⟨(C19_update_row_display_content tabRowBuffer 0 (by decide)).1,
   (C19_update_row_display_content tabRowBuffer 0 (by decide)).2.1,
   (C19_update_row_display_content tabRowBuffer 0 (by decide)).2.2.2.2⟩

/-! ## Theorems: scrolling -/

/-- `EditorScroll` written out: it sets `rndrX`, `rowOff` and `colOff` and
nothing else. -/
theorem EditorScroll_eq (E : EditorConfig) :
    EditorScroll E = { E with
      rndrX := cursorRndrX E,
      rowOff := (if E.curY < E.rowOff then
          (if E.curY ≥ E.curY + E.terminalRows then E.curY - E.terminalRows + 1 else E.curY)
        else if E.curY ≥ E.rowOff + E.terminalRows then E.curY - E.terminalRows + 1
        else E.rowOff),
      colOff := (if cursorRndrX E < E.colOff then
          (if cursorRndrX E ≥ cursorRndrX E + E.terminalCols
            then cursorRndrX E - E.terminalCols + 1 else cursorRndrX E)
        else if cursorRndrX E ≥ E.colOff + E.terminalCols
          then cursorRndrX E - E.terminalCols + 1
        else E.colOff) } := by
  obtain ⟨curX, curY, rndrX, tr, tc, rowOff, colOff, numRows, row, dirty, filename, rules⟩ := E
  simp only [EditorScroll, cursorRndrX, EditorConfig.rowAt]
  split_ifs <;> rfl

/-- C16: for every editor state with `terminalRows ≥ 1` and `terminalCols ≥ 1`,
after `EditorScroll`: `rndrX` is `EditorRowCurXToRndrX` of the cursor (0 on the
past-the-end line), `rowOff ≤ curY < rowOff + terminalRows` and
`colOff ≤ rndrX < colOff + terminalCols`; the cursor, the rows and the terminal
size are untouched; and if these bounds already held before the call for the
cursor's display column, `rowOff` and `colOff` are unchanged. -/
theorem C16_scroll_keeps_cursor_visible (E : EditorConfig)
    (hrows : 1 ≤ E.terminalRows) (hcols : 1 ≤ E.terminalCols) :
    (EditorScroll E).rndrX
        = (if E.curY < E.numRows then EditorRowCurXToRndrX (E.rowAt E.curY.toNat) E.curX else 0)
      ∧ ((EditorScroll E).curX = E.curX ∧ (EditorScroll E).curY = E.curY
          ∧ (EditorScroll E).row = E.row ∧ (EditorScroll E).numRows = E.numRows
          ∧ (EditorScroll E).terminalRows = E.terminalRows
          ∧ (EditorScroll E).terminalCols = E.terminalCols)
      ∧ ((EditorScroll E).rowOff ≤ (EditorScroll E).curY
          ∧ (EditorScroll E).curY < (EditorScroll E).rowOff + (EditorScroll E).terminalRows)
      ∧ ((EditorScroll E).colOff ≤ (EditorScroll E).rndrX
          ∧ (EditorScroll E).rndrX < (EditorScroll E).colOff + (EditorScroll E).terminalCols)
      ∧ (E.rowOff ≤ E.curY → E.curY < E.rowOff + E.terminalRows →
          (EditorScroll E).rowOff = E.rowOff)
      ∧ (E.colOff ≤ (if E.curY < E.numRows
              then EditorRowCurXToRndrX (E.rowAt E.curY.toNat) E.curX else 0) →
          (if E.curY < E.numRows then EditorRowCurXToRndrX (E.rowAt E.curY.toNat) E.curX else 0)
            < E.colOff + E.terminalCols →
          (EditorScroll E).colOff = E.colOff) := by
  change (EditorScroll E).rndrX = cursorRndrX E ∧ _ ∧ _ ∧ _ ∧ _
    ∧ (E.colOff ≤ cursorRndrX E → cursorRndrX E < E.colOff + E.terminalCols → _)
  rw [EditorScroll_eq]
  simp only
  refine ⟨trivial, ⟨trivial, trivial, trivial, trivial, trivial, trivial⟩, ?_, ?_, ?_, ?_⟩
  · split_ifs <;> constructor <;> omega
  · split_ifs <;> constructor <;> omega
  · intro h1 h2
    split_ifs <;> omega
  · intro h1 h2
    split_ifs <;> omega

set_option maxRecDepth 100000 in
theorem C16_scroll_keeps_cursor_visible_witness :
    (EditorScroll { blockCommentBuffer with curX := 3, curY := 1, rowOff := 5 }).rowOff
        ≤ (EditorScroll { blockCommentBuffer with curX := 3, curY := 1, rowOff := 5 }).curY
      ∧ (EditorScroll { blockCommentBuffer with curX := 3, curY := 1, rowOff := 5 }).curY
        < (EditorScroll { blockCommentBuffer with curX := 3, curY := 1, rowOff := 5 }).rowOff
          + (EditorScroll { blockCommentBuffer with curX := 3, curY := 1, rowOff := 5 }).terminalRows :=
  (C16_scroll_keeps_cursor_visible
    { blockCommentBuffer with curX := 3, curY := 1, rowOff := 5 } (by decide) (by decide)).2.2.1

/-! ## Theorems: splitting a line -/

theorem getD_map_chars (rows : List eRow) (k : Nat) :
    (rows.map eRow.chars).getD k [] = (rows.getD k default).chars := by
  rw [List.getD_eq_getElem?_getD, List.getD_eq_getElem?_getD, List.getElem?_map]
  cases rows[k]? <;> rfl

/-- `EditorInsertRow(at, str, len)` for `0 ≤ at ≤ numRows`: the new row stands at
`at`, the logical content of the other rows is kept in order. -/
theorem EditorInsertRow_chars (E : EditorConfig) (pos : Int) (str : List Nat)
    (h0 : 0 ≤ pos) (h1 : pos ≤ E.numRows) :
    ∃ rows, EditorInsertRow E pos str
        = { E with row := rows, numRows := E.numRows + 1, dirty := E.dirty + 1 }
      ∧ rows.map eRow.chars
          = (E.row.map eRow.chars).take pos.toNat ++ str :: (E.row.map eRow.chars).drop pos.toNat := by
  unfold EditorInsertRow
  rw [if_neg (by omega)]
  obtain ⟨rows, h2, h3, _⟩ := EditorUpdateRow_frame
    { E with row := E.row.take pos.toNat
        ++ (⟨pos, str, [], [], false⟩ : eRow)
          :: (E.row.drop pos.toNat).map (fun r => { r with idx := r.idx + 1 }) }
    pos.toNat
  refine ⟨rows, by simp only [h2], ?_⟩
  rw [h3]
  simp [List.map_take, List.map_drop, Function.comp_def]

theorem set_take_append_cons {α : Type} (l : List α) (y : Nat) (a b : α)
    (hy : y < l.length) :
    (l.take (y + 1) ++ b :: l.drop (y + 1)).set y a = l.take y ++ a :: b :: l.drop (y + 1) := by
  induction l generalizing y with
  | nil => simp at hy
  | cons d t ih =>
    cases y with
    | zero => simp
    | succ y =>
      simp only [List.take_succ_cons, List.drop_succ_cons, List.cons_append, List.set_cons_succ]
      rw [ih y (by simpa using hy)]

/-- `EditorUpdateRow`, field by field. -/
theorem EditorUpdateRow_fields (E : EditorConfig) (pos : Nat) :
    (EditorUpdateRow E pos).row.map eRow.chars = E.row.map eRow.chars
      ∧ (EditorUpdateRow E pos).row.map eRow.idx = E.row.map eRow.idx
      ∧ (EditorUpdateRow E pos).numRows = E.numRows
      ∧ (EditorUpdateRow E pos).curX = E.curX
      ∧ (EditorUpdateRow E pos).curY = E.curY
      ∧ (EditorUpdateRow E pos).rowOff = E.rowOff
      ∧ (EditorUpdateRow E pos).terminalRows = E.terminalRows
      ∧ (EditorUpdateRow E pos).dirty = E.dirty := by
  obtain ⟨rows, h1, h2, h3⟩ := EditorUpdateRow_frame E pos
  rw [h1]
  exact ⟨h2, h3, rfl, rfl, rfl, rfl, rfl, rfl⟩

/-- What `EditorInsertNewline` does to the logical content and the cursor, for
a cursor on an existing row. -/
theorem EditorInsertNewline_spec (E : EditorConfig) (hnum : E.numRows = E.row.length)
    (hy0 : 0 ≤ E.curY) (hy : E.curY < E.numRows) (hx0 : 0 ≤ E.curX) :
    (EditorInsertNewline E).row.map eRow.chars
        = (E.row.map eRow.chars).take E.curY.toNat
            ++ (E.rowAt E.curY.toNat).chars.take E.curX.toNat
              :: (E.rowAt E.curY.toNat).chars.drop E.curX.toNat
              :: (E.row.map eRow.chars).drop (E.curY.toNat + 1)
      ∧ (EditorInsertNewline E).numRows = E.numRows + 1
      ∧ (EditorInsertNewline E).curX = 0
      ∧ (EditorInsertNewline E).curY = E.curY + 1
      ∧ (EditorInsertNewline E).rowOff = E.rowOff
      ∧ (EditorInsertNewline E).terminalRows = E.terminalRows := by
  have hylen : E.curY.toNat < E.row.length := by omega
  have hdrop : (E.row.map eRow.chars).drop E.curY.toNat
      = (E.rowAt E.curY.toNat).chars :: (E.row.map eRow.chars).drop (E.curY.toNat + 1) := by
    rw [List.drop_eq_getElem_cons (by simpa using hylen)]
    congr 1
    unfold EditorConfig.rowAt
    rw [List.getD_eq_getElem?_getD, List.getElem?_eq_getElem hylen]
    simp
  unfold EditorInsertNewline
  by_cases hx : E.curX = 0
  · simp only [if_pos hx]
    obtain ⟨rows, h1, h2⟩ := EditorInsertRow_chars E E.curY [] hy0 (by omega)
    rw [h1]
    simp only [hx, Int.toNat_zero, List.take_zero, List.drop_zero]
    refine ⟨?_, trivial, trivial, trivial, trivial, trivial⟩
    rw [h2, hdrop]
  · simp only [if_neg hx]
    obtain ⟨rows, h1, h2⟩ := EditorInsertRow_chars E (E.curY + 1)
      ((E.rowAt E.curY.toNat).chars.drop E.curX.toNat) (by omega) (by omega)
    rw [h1]
    simp only
    have hy1 : (E.curY + 1).toNat = E.curY.toNat + 1 := by omega
    rw [hy1] at h2
    -- the row at `curY` still holds the whole old line
    have hrowy : (EditorConfig.rowAt
        { E with row := rows, numRows := E.numRows + 1, dirty := E.dirty + 1 } E.curY.toNat).chars
        = (E.rowAt E.curY.toNat).chars := by
      have := congrArg (fun l => l.getD E.curY.toNat []) h2
      simp only [getD_map_chars] at this
      unfold EditorConfig.rowAt
      rw [this, getD_append_left _ _ _ _ (by simp; omega)]
      rw [List.getD_eq_getElem?_getD, List.getElem?_take_of_lt (by omega), List.getElem?_map]
      rw [List.getD_eq_getElem?_getD, List.getElem?_eq_getElem hylen]
      simp
    refine ⟨?_, ?_, trivial, ?_, ?_, ?_⟩
    · rw [(EditorUpdateRow_fields _ _).1]
      simp only [List.map_set]
      rw [h2, hrowy]
      exact set_take_append_cons _ _ _ _ (by simpa using hylen)
    · rw [(EditorUpdateRow_fields _ _).2.2.1]
    · rw [(EditorUpdateRow_fields _ _).2.2.2.2.1]
    · rw [(EditorUpdateRow_fields _ _).2.2.2.2.2.1]
    · rw [(EditorUpdateRow_fields _ _).2.2.2.2.2.2.1]

theorem getD_take_cons_cons_drop {α : Type} (l : List α) (y : Nat) (a b d : α)
    (hy : y < l.length) :
    (l.take y ++ a :: b :: l.drop (y + 1)).getD y d = a
      ∧ (l.take y ++ a :: b :: l.drop (y + 1)).getD (y + 1) d = b
      ∧ (∀ j, j < y → (l.take y ++ a :: b :: l.drop (y + 1)).getD j d = l.getD j d)
      ∧ (∀ j, y < j → (l.take y ++ a :: b :: l.drop (y + 1)).getD (j + 1) d = l.getD j d) := by
  have hlen : (l.take y).length = y := by simp; omega
  refine ⟨?_, ?_, ?_, ?_⟩
  · rw [List.getD_eq_getElem?_getD, List.getElem?_append_right (by omega), hlen]
    simp
  · rw [List.getD_eq_getElem?_getD, List.getElem?_append_right (by omega), hlen]
    simp
  · intro j hj
    rw [List.getD_eq_getElem?_getD, List.getElem?_append_left (by omega),
      List.getElem?_take_of_lt hj, List.getD_eq_getElem?_getD]
  · intro j hj
    rw [List.getD_eq_getElem?_getD, List.getElem?_append_right (by omega), hlen]
    obtain ⟨k, rfl⟩ : ∃ k, j = y + 1 + k := ⟨j - (y + 1), by omega⟩
    have : y + 1 + k + 1 - y = k + 2 := by omega
    rw [this]
    simp only [List.getElem?_cons_succ, List.getElem?_drop, List.getD_eq_getElem?_getD]

/-- C20: for every buffer and every cursor `(x, y)` with `y < numRows` and
`0 ≤ x ≤ size of row y`, after `EditorInsertNewline` row `y` holds the first `x`
characters of the old row `y`, row `y + 1` holds the remaining characters, the
rows before `y` keep their logical content and the rows after `y` keep theirs
one position further down, `numRows` has increased by exactly one, and the
cursor is at `(0, y + 1)`; when `x = 0` an empty row has been inserted before
the old row `y`. -/
theorem C20_insert_newline_splits_row (E : EditorConfig) (hnum : E.numRows = E.row.length)
    (hy0 : 0 ≤ E.curY) (hy : E.curY < E.numRows) (hx0 : 0 ≤ E.curX)
    (_hx : E.curX ≤ (E.rowAt E.curY.toNat).size) :
    ((EditorInsertNewline E).rowAt E.curY.toNat).chars
        = (E.rowAt E.curY.toNat).chars.take E.curX.toNat
      ∧ ((EditorInsertNewline E).rowAt (E.curY.toNat + 1)).chars
        = (E.rowAt E.curY.toNat).chars.drop E.curX.toNat
      ∧ (∀ j, j < E.curY.toNat →
          ((EditorInsertNewline E).rowAt j).chars = (E.rowAt j).chars)
      ∧ (∀ j, E.curY.toNat < j →
          ((EditorInsertNewline E).rowAt (j + 1)).chars = (E.rowAt j).chars)
      ∧ (EditorInsertNewline E).row.map eRow.chars
          = (E.row.map eRow.chars).take E.curY.toNat
              ++ (E.rowAt E.curY.toNat).chars.take E.curX.toNat
                :: (E.rowAt E.curY.toNat).chars.drop E.curX.toNat
                :: (E.row.map eRow.chars).drop (E.curY.toNat + 1)
      ∧ (EditorInsertNewline E).numRows = E.numRows + 1
      ∧ (EditorInsertNewline E).curX = 0
      ∧ (EditorInsertNewline E).curY = E.curY + 1
      ∧ (E.curX = 0 →
          (EditorInsertNewline E).row.map eRow.chars
            = (E.row.map eRow.chars).take E.curY.toNat
                ++ [] :: (E.row.map eRow.chars).drop E.curY.toNat) := by
  obtain ⟨h1, h2, h3, h4, _, _⟩ := EditorInsertNewline_spec E hnum hy0 hy hx0
  have hylen : E.curY.toNat < (E.row.map eRow.chars).length := by
    rw [List.length_map]
    omega
  obtain ⟨g1, g2, g3, g4⟩ := getD_take_cons_cons_drop (E.row.map eRow.chars) E.curY.toNat
    ((E.rowAt E.curY.toNat).chars.take E.curX.toNat)
    ((E.rowAt E.curY.toNat).chars.drop E.curX.toNat) [] hylen
  rw [← h1] at g1 g2 g3 g4
  simp only [getD_map_chars] at g1 g2 g3 g4
  refine ⟨g1, g2, g3, g4, h1, h2, h3, h4, ?_⟩
  intro hx
  rw [h1, hx]
  simp only [Int.toNat_zero, List.take_zero, List.drop_zero]
  congr 2
  rw [List.drop_eq_getElem_cons hylen]
  congr 1
  unfold EditorConfig.rowAt
  rw [← getD_map_chars, List.getD_eq_getElem?_getD, List.getElem?_eq_getElem hylen]
  rfl

set_option maxRecDepth 100000 in
theorem C20_insert_newline_splits_row_witness :
    ((EditorInsertNewline { blockCommentBuffer with curX := 2 }).rowAt 0).chars = cstr "a "
      ∧ ((EditorInsertNewline { blockCommentBuffer with curX := 2 }).rowAt (0 + 1)).chars
        = cstr "/* b" :=
  ⟨(C20_insert_newline_splits_row { blockCommentBuffer with curX := 2 }
      (by decide) (by decide) (by decide) (by decide) (by decide)).1,
   (C20_insert_newline_splits_row { blockCommentBuffer with curX := 2 }
      (by decide) (by decide) (by decide) (by decide) (by decide)).2.1⟩

/-! ## Theorems: reading a key -/

theorem escBracketKey_mem (s1 : Nat) (k : Int) (h : escBracketKey s1 = some k) :
    ([91, s1], k) ∈ escapeTable := by
  unfold escBracketKey at h
  split_ifs at h <;> simp only [Option.some.injEq, reduceCtorEq] at h <;> subst_vars <;> decide

theorem escTildeKey_mem (s1 : Nat) (k : Int) (h : escTildeKey s1 = some k) :
    ([91, s1, 126], k) ∈ escapeTable := by
  unfold escTildeKey at h
  split_ifs at h <;> simp only [Option.some.injEq, reduceCtorEq] at h <;> subst_vars <;> decide

theorem escOKey_mem (s1 : Nat) (k : Int) (h : escOKey s1 = some k) :
    ([79, s1], k) ∈ escapeTable := by
  unfold escOKey at h
  split_ifs at h <;> simp only [Option.some.injEq, reduceCtorEq] at h <;> subst_vars <;> decide

theorem readEscape_table (e : List Nat × Int) (he : e ∈ escapeTable) (rest : List ReadResult) :
    readEscape (e.1.map ReadResult.byte ++ rest) = ReadKeyResult.key e.2 rest := by
  simp only [escapeTable, List.mem_cons, List.mem_singleton, List.not_mem_nil, or_false] at he
  rcases he with h | h | h | h | h | h | h | h | h | h | h | h | h | h | h <;> subst h <;> rfl

theorem readEscape_other (input : List ReadResult)
    (h : ∀ e ∈ escapeTable, ¬ (e.1.map ReadResult.byte <+: input)) :
    ∃ rest, readEscape input = ReadKeyResult.key 27 rest ∧ rest <:+ input := by
  unfold readEscape
  rcases input with _ | ⟨r0, r1⟩
  · exact ⟨[], rfl, List.suffix_refl _⟩
  cases r0 with
  | timeout => exact ⟨r1, rfl, List.suffix_cons _ _⟩
  | error b => exact ⟨r1, rfl, List.suffix_cons _ _⟩
  | byte s0 =>
    rcases r1 with _ | ⟨r1h, r2⟩
    · exact ⟨[], rfl, List.nil_suffix⟩
    have hs2 : r2 <:+ ReadResult.byte s0 :: r1h :: r2 :=
      (List.suffix_cons _ _).trans (List.suffix_cons _ _)
    cases r1h with
    | timeout => exact ⟨r2, rfl, hs2⟩
    | error b => exact ⟨r2, rfl, hs2⟩
    | byte s1 =>
      simp only [readOne]
      by_cases h0 : s0 = 91
      · rw [if_pos h0]
        subst h0
        by_cases hd : 48 ≤ s1 ∧ s1 ≤ 57
        · rw [if_pos hd]
          rcases r2 with _ | ⟨r2h, r3⟩
          · exact ⟨[], rfl, List.nil_suffix⟩
          have hs3 : r3 <:+ ReadResult.byte 91 :: ReadResult.byte s1 :: r2h :: r3 :=
            (List.suffix_cons _ _).trans ((List.suffix_cons _ _).trans (List.suffix_cons _ _))
          cases r2h with
          | timeout => exact ⟨r3, rfl, hs3⟩
          | error b => exact ⟨r3, rfl, hs3⟩
          | byte s2 =>
            simp only []
            by_cases h2 : s2 = 126
            · rw [if_pos h2]
              subst h2
              cases hk : escTildeKey s1 with
              | none => exact ⟨r3, rfl, hs3⟩
              | some k =>
                exfalso
                exact h _ (escTildeKey_mem s1 k hk) ⟨r3, rfl⟩
            · rw [if_neg h2]
              exact ⟨r3, rfl, hs3⟩
        · rw [if_neg hd]
          cases hk : escBracketKey s1 with
          | none => exact ⟨r2, rfl, hs2⟩
          | some k =>
            exfalso
            exact h _ (escBracketKey_mem s1 k hk) ⟨r2, rfl⟩
      · rw [if_neg h0]
        by_cases h1 : s0 = 79
        · rw [if_pos h1]
          subst h1
          cases hk : escOKey s1 with
          | none => exact ⟨r2, rfl, hs2⟩
          | some k =>
            exfalso
            exact h _ (escOKey_mem s1 k hk) ⟨r2, rfl⟩
        · rw [if_neg h1]
          exact ⟨r2, rfl, hs2⟩

theorem EditorReadKey_wait (sc : Bool) (n : Nat) (input : List ReadResult) :
    EditorReadKey sc (List.replicate n ReadResult.timeout ++ input) = EditorReadKey sc input := by
  induction n with
  | zero => rfl
  | succ n ih => rw [List.replicate_succ, List.cons_append, EditorReadKey, ih]

set_option maxRecDepth 100000 in
/-- C15, counterexample: where `char` is signed, the first byte 195 is not
returned unchanged: `EditorReadKey` returns `c`, a `char`, as an `int`, which
is -61.  So "every first byte other than ESC is returned unchanged" fails for
the bytes from 128 on. -/
theorem C15_high_byte_returned_negative :
    EditorReadKey true [ReadResult.byte 195] = ReadKeyResult.key (-61) []
      ∧ EditorReadKey true [ReadResult.byte 195] ≠ ReadKeyResult.key 195 []
      ∧ (∀ b : Nat, 128 ≤ b → b < 256 → ∀ rest : List ReadResult,
          EditorReadKey true (ReadResult.byte b :: rest) ≠ ReadKeyResult.key (b : Int) rest)
      ∧ ¬ (∀ (sc : Bool) (b : Nat) (rest : List ReadResult), b < 256 → b ≠ 27 →
            EditorReadKey sc (ReadResult.byte b :: rest) = ReadKeyResult.key (b : Int) rest) := by
  have h : ∀ b : Nat, 128 ≤ b → b < 256 → ∀ rest : List ReadResult,
      EditorReadKey true (ReadResult.byte b :: rest) ≠ ReadKeyResult.key (b : Int) rest := by
    intro b h1 h2 rest
    rw [EditorReadKey, if_neg (by omega)]
    unfold charToInt
    rw [if_pos ⟨rfl, h1⟩]
    intro he
    injection he with he1 _
    omega
  refine ⟨by decide, by decide, h, ?_⟩
  intro hall
  exact h 195 (by decide) (by decide) [] (hall true 195 [] (by decide) (by decide))

/-- C15 (amended): as a function of what the terminal delivers, `EditorReadKey`
decodes each escape sequence of the table (the arrows, Home and End in their
three spellings, Delete, PageUp and PageDown) to its key and leaves the input
after it; an input after the escape byte that begins with none of the table's
sequences, one cut short by a read timeout included, gives the key 27; and a
first byte other than 27 is returned as the value of the `char` holding it:
unchanged for every byte below 128 and, where `char` is unsigned, for every
byte, and as the byte minus 256, a negative number, for the bytes 128..255
where `char` is signed.  In both cases the value is the byte modulo 256. -/
theorem C15_read_key_decodes_escapes (sc : Bool) :
    escapeTable =
      [([91, 65], ARROW_UP), ([91, 66], ARROW_DOWN), ([91, 67], ARROW_RIGHT),
       ([91, 68], ARROW_LEFT), ([91, 72], HOME_KEY), ([79, 72], HOME_KEY),
       ([91, 70], END_KEY), ([79, 70], END_KEY), ([91, 49, 126], HOME_KEY),
       ([91, 55, 126], HOME_KEY), ([91, 52, 126], END_KEY), ([91, 56, 126], END_KEY),
       ([91, 51, 126], DEL_KEY), ([91, 53, 126], PAGE_UP), ([91, 54, 126], PAGE_DOWN)] ∧
    (∀ e ∈ escapeTable, ∀ rest : List ReadResult,
      EditorReadKey sc (ReadResult.byte 27 :: (e.1.map ReadResult.byte ++ rest))
        = ReadKeyResult.key e.2 rest) ∧
    (∀ input : List ReadResult,
      (∀ e ∈ escapeTable, ¬ (e.1.map ReadResult.byte <+: input)) →
      ∃ rest, EditorReadKey sc (ReadResult.byte 27 :: input) = ReadKeyResult.key 27 rest
        ∧ rest <:+ input) ∧
    (∀ rest : List ReadResult,
      EditorReadKey sc (ReadResult.byte 27 :: ReadResult.timeout :: rest)
        = ReadKeyResult.key 27 rest ∧
      (∀ s0, EditorReadKey sc (ReadResult.byte 27 :: ReadResult.byte s0 ::
          ReadResult.timeout :: rest) = ReadKeyResult.key 27 rest) ∧
      (∀ s1, 48 ≤ s1 → s1 ≤ 57 →
        EditorReadKey sc (ReadResult.byte 27 :: ReadResult.byte 91 :: ReadResult.byte s1 ::
          ReadResult.timeout :: rest) = ReadKeyResult.key 27 rest)) ∧
    (∀ (b : Nat) (rest : List ReadResult), b < 256 → b ≠ 27 →
      EditorReadKey sc (ReadResult.byte b :: rest) = ReadKeyResult.key (charToInt sc b) rest ∧
      (b < 128 ∨ sc = false →
        EditorReadKey sc (ReadResult.byte b :: rest) = ReadKeyResult.key (b : Int) rest) ∧
      (128 ≤ b → sc = true →
        EditorReadKey sc (ReadResult.byte b :: rest)
          = ReadKeyResult.key ((b : Int) - 256) rest) ∧
      (charToInt sc b % 256).toNat = b) ∧
    (∀ (n : Nat) (input : List ReadResult),
      EditorReadKey sc (List.replicate n ReadResult.timeout ++ input)
        = EditorReadKey sc input) := by
  refine ⟨rfl, ?_, ?_, ?_, ?_, EditorReadKey_wait sc⟩
  · intro e he rest
    rw [EditorReadKey, if_pos rfl]
    exact readEscape_table e he rest
  · intro input h
    rw [EditorReadKey, if_pos rfl]
    exact readEscape_other input h
  · intro rest
    refine ⟨rfl, fun s0 => rfl, ?_⟩
    intro s1 h1 h2
    rw [EditorReadKey, if_pos rfl]
    simp only [readEscape, readOne]
    rw [if_pos trivial, if_pos ⟨h1, h2⟩]
  · intro b rest hb hne
    refine ⟨?_, ?_, ?_, ?_⟩
    · rw [EditorReadKey, if_neg hne]
    · intro h
      rw [EditorReadKey, if_neg hne]
      unfold charToInt
      rw [if_neg]
      rintro ⟨h1, h2⟩
      rcases h with h | h
      · omega
      · rw [h] at h1
        exact Bool.noConfusion h1
    · intro h1 h2
      rw [EditorReadKey, if_neg hne]
      unfold charToInt
      rw [if_pos ⟨h2, h1⟩]
    · unfold charToInt
      split_ifs <;> omega

theorem C15_read_key_decodes_escapes_witness :
    EditorReadKey true [ReadResult.byte 27, ReadResult.byte 91, ReadResult.byte 53,
        ReadResult.byte 126, ReadResult.byte 113]
      = ReadKeyResult.key PAGE_UP [ReadResult.byte 113] ∧
    (∃ rest, EditorReadKey true [ReadResult.byte 27, ReadResult.byte 91, ReadResult.byte 50,
        ReadResult.byte 126, ReadResult.byte 113] = ReadKeyResult.key 27 rest
      ∧ rest <:+ [ReadResult.byte 91, ReadResult.byte 50, ReadResult.byte 126,
        ReadResult.byte 113]) ∧
    EditorReadKey true [ReadResult.byte 113, ReadResult.byte 27]
      = ReadKeyResult.key 113 [ReadResult.byte 27] ∧
    EditorReadKey true [ReadResult.byte 233, ReadResult.byte 27]
      = ReadKeyResult.key ((233 : Int) - 256) [ReadResult.byte 27] ∧
    EditorReadKey false [ReadResult.byte 233, ReadResult.byte 27]
      = ReadKeyResult.key 233 [ReadResult.byte 27] :=
  ⟨(C15_read_key_decodes_escapes true).2.1 ([91, 53, 126], PAGE_UP) (by decide)
      [ReadResult.byte 113],
    (C15_read_key_decodes_escapes true).2.2.1
      [ReadResult.byte 91, ReadResult.byte 50, ReadResult.byte 126, ReadResult.byte 113]
      (by decide),
    ((C15_read_key_decodes_escapes true).2.2.2.2.1 113 [ReadResult.byte 27]
      (by decide) (by decide)).2.1 (Or.inl (by decide)),
    ((C15_read_key_decodes_escapes true).2.2.2.2.1 233 [ReadResult.byte 27]
      (by decide) (by decide)).2.2.1 (by decide) rfl,
    ((C15_read_key_decodes_escapes false).2.2.2.2.1 233 [ReadResult.byte 27]
      (by decide) (by decide)).2.1 (Or.inr rfl)⟩

/-! ## Theorems: searching -/

theorem strstrFrom_none (needle : List Nat) :
    ∀ (hay : List Nat) (k : Nat), strstrFrom needle hay k = none ↔ ¬ needle <:+: hay := by
  intro hay
  induction hay with
  | nil =>
    intro k
    rw [strstrFrom, List.infix_nil]
    by_cases h : needle = [] <;> simp [h]
  | cons a t ih =>
    intro k
    rw [strstrFrom, List.infix_cons_iff]
    by_cases h : needle.isPrefixOf (a :: t) = true
    · rw [if_pos h]
      have := List.isPrefixOf_iff_prefix.1 h
      simp [this]
    · rw [if_neg h, ih]
      have h1 : ¬ needle <+: a :: t := fun hp => h (List.isPrefixOf_iff_prefix.2 hp)
      simp [h1]

theorem strstrFrom_some (needle : List Nat) :
    ∀ (hay : List Nat) (k p : Nat), strstrFrom needle hay k = some p ↔
      ∃ d, p = k + d ∧ firstOccurrenceAt hay needle d := by
  intro hay
  induction hay with
  | nil =>
    intro k p
    rw [strstrFrom]
    by_cases h : needle = []
    · rw [if_pos h]
      subst h
      constructor
      · intro hp
        refine ⟨0, ?_, ⟨Nat.le_refl _, List.nil_prefix⟩, fun d1 hd => absurd hd (Nat.not_lt_zero _)⟩
        simpa using hp.symm
      · rintro ⟨d, hp, ⟨hd, _⟩, _⟩
        simp only [List.length_nil, Nat.le_zero] at hd
        subst hd
        simp [hp]
    · rw [if_neg h]
      constructor
      · intro hp
        exact absurd hp (by simp)
      · rintro ⟨d, _, ⟨_, hpre⟩, _⟩
        simp only [List.drop_nil] at hpre
        exact absurd (List.prefix_nil.1 hpre) h
  | cons a t ih =>
    intro k p
    rw [strstrFrom]
    by_cases h : needle.isPrefixOf (a :: t) = true
    · rw [if_pos h]
      have hp := List.isPrefixOf_iff_prefix.1 h
      constructor
      · intro e
        refine ⟨0, ?_, ⟨Nat.zero_le _, hp⟩, fun d1 hd => absurd hd (Nat.not_lt_zero _)⟩
        simpa using e.symm
      · rintro ⟨d, e, _, hmin⟩
        rcases Nat.eq_zero_or_pos d with h0 | h0
        · subst h0
          simp [e]
        · exact absurd ⟨Nat.zero_le _, hp⟩ (hmin 0 h0)
    · rw [if_neg h, ih]
      have h1 : ¬ needle <+: a :: t := fun hp => h (List.isPrefixOf_iff_prefix.2 hp)
      constructor
      · rintro ⟨d, e, ⟨hd, hpre⟩, hmin⟩
        refine ⟨d + 1, by omega, ⟨by simpa using hd, by simpa using hpre⟩, ?_⟩
        intro d1 hd1 ⟨hle, hp1⟩
        rcases Nat.eq_zero_or_pos d1 with h0 | h0
        · subst h0
          exact h1 hp1
        · obtain ⟨d2, rfl⟩ : ∃ d2, d1 = d2 + 1 := ⟨d1 - 1, by omega⟩
          exact hmin d2 (by omega) ⟨by simpa using hle, by simpa using hp1⟩
      · rintro ⟨d, e, ⟨hd, hpre⟩, hmin⟩
        rcases Nat.eq_zero_or_pos d with h0 | h0
        · subst h0
          exact absurd hpre h1
        · obtain ⟨d2, rfl⟩ : ∃ d2, d = d2 + 1 := ⟨d - 1, by omega⟩
          refine ⟨d2, by omega, ⟨by simpa using hd, by simpa using hpre⟩, ?_⟩
          intro d1 hd1 ⟨hle, hp1⟩
          exact hmin (d1 + 1) (by omega) ⟨by simpa using hle, by simpa using hp1⟩

theorem strstr_none (hay needle : List Nat) :
    strstr hay needle = none ↔ ¬ containsText (cString hay) (cString needle) :=
  strstrFrom_none _ _ _

theorem strstr_some (hay needle : List Nat) (m : Nat) :
    strstr hay needle = some m ↔ firstOccurrenceAt (cString hay) (cString needle) m := by
  unfold strstr
  rw [strstrFrom_some]
  constructor
  · rintro ⟨d, e, h⟩
    rw [Nat.zero_add] at e
    subst e
    exact h
  · intro h
    exact ⟨m, (Nat.zero_add _).symm, h⟩

theorem strstr_isSome (hay needle : List Nat) :
    (strstr hay needle).isSome = decide (containsText (cString hay) (cString needle)) := by
  cases h : strstr hay needle with
  | none => simp [(strstr_none hay needle).1 h]
  | some m =>
    have : ¬ strstr hay needle = none := by simp [h]
    rw [strstr_none, not_not] at this
    simp [this]

theorem cString_length_le (a : List Nat) : (cString a).length ≤ a.length :=
  (List.takeWhile_prefix _).length_le

theorem occursAt_bound (text q : List Nat) (d : Nat) (h : occursAt text q d) :
    d + q.length ≤ text.length := by
  have := h.2.length_le
  rw [List.length_drop] at this
  have := h.1
  omega

theorem strstr_bound (hay needle : List Nat) (m : Nat) (h : strstr hay needle = some m) :
    m + (cString needle).length ≤ hay.length := by
  have h1 := occursAt_bound _ _ _ ((strstr_some hay needle m).1 h).1
  have h2 := cString_length_le hay
  omega

theorem findLoop_step_none (query : List Nat) (n : Nat) (G : EditorGlobals) (current : Int)
    (h : strstr (G.E.rowAt (nextRow G.E.numRows G.direction current).toNat).render query = none) :
    findLoop query (n + 1) G current
      = findLoop query n G (nextRow G.E.numRows G.direction current) := by
  rw [findLoop]
  simp only [nextRow] at h ⊢
  rw [h]

theorem findLoop_step_some (query : List Nat) (n : Nat) (G : EditorGlobals) (current : Int)
    (m : Nat)
    (h : strstr (G.E.rowAt (nextRow G.E.numRows G.direction current).toNat).render query
      = some m) :
    findLoop query (n + 1) G current
      = matchState G query (nextRow G.E.numRows G.direction current) m := by
  rw [findLoop]
  simp only [nextRow, matchState] at h ⊢
  rw [h]

/-- The loop of `EditorFindCallback` along the rows `order` it looks at: it
stops at the first row whose display string holds the query. -/
theorem findLoop_order (query : List Nat) (G : EditorGlobals) :
    ∀ (order : List Nat) (n : Nat) (current : Int),
      scanRows G.E.numRows G.direction n current = order.map (fun i : Nat => (i : Int)) →
      (order.find? (fun i => decide (containsText (cString (G.E.rowAt i).render)
          (cString query))) = none → findLoop query n G current = G) ∧
      (∀ r, order.find? (fun i => decide (containsText (cString (G.E.rowAt i).render)
          (cString query))) = some r →
        ∃ m, strstr (G.E.rowAt r).render query = some m ∧
          findLoop query n G current = matchState G query (r : Int) m) := by
  intro order
  induction order with
  | nil =>
    intro n current h
    cases n with
    | zero => exact ⟨fun _ => rfl, fun r hr => by simp at hr⟩
    | succ n => simp [scanRows] at h
  | cons i rest ih =>
    intro n current h
    cases n with
    | zero => simp [scanRows] at h
    | succ n =>
      rw [scanRows, List.map_cons, List.cons.injEq] at h
      obtain ⟨h1, h2⟩ := h
      have hi : (nextRow G.E.numRows G.direction current).toNat = i := by rw [h1]; rfl
      rw [h1] at h2
      rw [List.find?_cons]
      by_cases hc : containsText (cString (G.E.rowAt i).render) (cString query)
      · have hs : ¬ strstr (G.E.rowAt i).render query = none := by
          rw [strstr_none]; exact not_not.2 hc
        obtain ⟨m, hm⟩ := Option.ne_none_iff_exists'.1 hs
        simp only [hc, decide_True]
        refine ⟨fun hn => by simp at hn, ?_⟩
        intro r hr
        simp only [Option.some.injEq] at hr
        subst hr
        refine ⟨m, hm, ?_⟩
        rw [findLoop_step_some query n G current m (by rw [hi]; exact hm), h1]
      · have hs : strstr (G.E.rowAt i).render query = none := (strstr_none _ _).2 hc
        simp only [hc, decide_False]
        rw [findLoop_step_none query n G current (by rw [hi]; exact hs), h1]
        exact ih n (i : Int) h2

theorem scanRows_up (N : Int) : ∀ (b c : Nat), (c : Int) + b < N →
    scanRows N 1 b (c : Int) = (List.range' (c + 1) b).map (fun i : Nat => (i : Int)) := by
  intro b
  induction b with
  | zero => intro c _; rfl
  | succ b ih =>
    intro c h
    have hn : nextRow N 1 (c : Int) = ((c + 1 : Nat) : Int) := by
      unfold nextRow
      rw [if_neg (by omega), if_neg (by omega)]
      push_cast
      rfl
    rw [scanRows, hn, ih (c + 1) (by push_cast; omega), List.range'_succ, List.map_cons]

theorem scanRows_fresh (N : Int) (b : Nat) (h : (b : Int) ≤ N) :
    scanRows N 1 b (-1) = (List.range b).map (fun i : Nat => (i : Int)) := by
  cases b with
  | zero => rfl
  | succ b =>
    have hn : nextRow N 1 (-1) = ((0 : Nat) : Int) := by
      unfold nextRow
      rw [if_neg (by omega)]
      split_ifs <;> simp
    rw [scanRows, hn, scanRows_up N b 0 (by push_cast at h ⊢; omega), List.range_eq_range',
      List.range'_succ, List.map_cons]

theorem scanRows_up_wrap (N : Nat) (b : Nat) : ∀ (a c : Nat), c + a + 1 = N →
    scanRows N 1 (a + b) (c : Int)
      = (List.range' (c + 1) a).map (fun i : Nat => (i : Int)) ++ scanRows N 1 b ((N : Int) - 1) := by
  intro a
  induction a with
  | zero =>
    intro c h
    have : (c : Int) = (N : Int) - 1 := by omega
    rw [Nat.zero_add, this]
    rfl
  | succ a ih =>
    intro c h
    have hn : nextRow N 1 (c : Int) = ((c + 1 : Nat) : Int) := by
      unfold nextRow
      rw [if_neg (by omega), if_neg (by omega)]
      push_cast
      rfl
    rw [show a + 1 + b = (a + b) + 1 by omega, scanRows, hn, ih (c + 1) (by omega),
      List.range'_succ, List.map_cons, List.cons_append]

/-- Where the loop of `EditorFindCallback` looks going forward from row `m`:
the rows `m+1, ..., N-1, 0, ..., m`. -/
theorem scanRows_forward (N m : Nat) (hm : m < N) :
    scanRows N 1 N (m : Int)
      = (List.range' (m + 1) (N - 1 - m) ++ List.range (m + 1)).map
          (fun i : Nat => (i : Int)) := by
  have h1 := scanRows_up_wrap N (m + 1) (N - 1 - m) m (by omega)
  rw [show N - 1 - m + (m + 1) = N by omega] at h1
  rw [h1, List.map_append]
  congr 1
  have hn : nextRow N 1 ((N : Int) - 1) = ((0 : Nat) : Int) := by
    unfold nextRow
    rw [if_neg (by omega), if_pos (by omega)]
    rfl
  rw [scanRows, hn, scanRows_up N m 0 (by push_cast; omega), List.range_eq_range',
    List.range'_succ, List.map_cons]

theorem scanRows_down (N : Int) : ∀ (b c : Nat), (c : Int) + b ≤ N →
    scanRows N (-1) b ((c + b : Nat) : Int)
      = (List.range' c b).reverse.map (fun i : Nat => (i : Int)) := by
  intro b
  induction b with
  | zero => intro c _; rfl
  | succ b ih =>
    intro c h
    have hn : nextRow N (-1) ((c + (b + 1) : Nat) : Int) = ((c + b : Nat) : Int) := by
      unfold nextRow
      push_cast
      rw [if_neg (by omega), if_neg (by omega)]
      omega
    rw [scanRows, hn, ih c (by push_cast at h ⊢; omega), List.range'_1_concat,
      List.reverse_append, List.reverse_singleton, List.singleton_append, List.map_cons]

theorem scanRows_down_wrap (N : Int) (b : Nat) : ∀ (c : Nat), (c : Int) ≤ N →
    scanRows N (-1) (c + b) (c : Int)
      = (List.range c).reverse.map (fun i : Nat => (i : Int)) ++ scanRows N (-1) b 0 := by
  intro c
  induction c with
  | zero =>
    intro _
    rw [Nat.zero_add]
    rfl
  | succ c ih =>
    intro h
    have hn : nextRow N (-1) ((c + 1 : Nat) : Int) = (c : Int) := by
      unfold nextRow
      push_cast
      rw [if_neg (by omega), if_neg (by omega)]
      omega
    rw [show c + 1 + b = (c + b) + 1 by omega, scanRows, hn, ih (by push_cast at h; omega),
      List.range_succ, List.reverse_append, List.reverse_singleton, List.singleton_append,
      List.map_cons, List.cons_append]

/-- Where the loop of `EditorFindCallback` looks going backward from row `m`:
the rows `m-1, ..., 0, N-1, ..., m`. -/
theorem scanRows_backward (N m : Nat) (hm : m < N) :
    scanRows N (-1) N (m : Int)
      = ((List.range m).reverse ++ (List.range' m (N - m)).reverse).map
          (fun i : Nat => (i : Int)) := by
  have h1 := scanRows_down_wrap N (N - m) m (by omega)
  rw [show m + (N - m) = N by omega] at h1
  rw [h1, List.map_append]
  congr 1
  have hn : nextRow N (-1) 0 = (((m + (N - 1 - m) : Nat)) : Int) := by
    unfold nextRow
    rw [if_pos (by omega)]
    omega
  rw [show N - m = (N - 1 - m) + 1 by omega, scanRows, hn,
    scanRows_down N (N - 1 - m) m (by omega), List.range'_1_concat, List.reverse_append,
    List.reverse_singleton, List.singleton_append, List.map_cons]

theorem memset_drop (hl : List Nat) (i v n k : Nat) (h : i + n ≤ k) :
    (memset hl i v n).drop k = hl.drop k := by
  induction n generalizing hl i with
  | zero => rfl
  | succ n ih =>
    simp only [memset]
    rw [ih _ _ (by omega), List.drop_set_of_lt _ _ (by omega)]

theorem memset_getD_out (hl : List Nat) (i v n c d : Nat) (h : c < i ∨ i + n ≤ c) :
    (memset hl i v n).getD c d = hl.getD c d := by
  induction n generalizing hl i with
  | zero => rfl
  | succ n ih =>
    simp only [memset]
    rw [ih _ _ (by omega), getD_set_ne _ _ _ _ _ (by omega)]

theorem restoreSavedHL_none (G : EditorGlobals) (h : G.savedHL = none) : restoreSavedHL G = G := by
  unfold restoreSavedHL
  rw [h]

theorem restoreSavedHL_fields (G : EditorGlobals) :
    (restoreSavedHL G).savedHL = none ∧ (restoreSavedHL G).lastMatch = G.lastMatch ∧
    (restoreSavedHL G).direction = G.direction ∧
    (restoreSavedHL G).E.numRows = G.E.numRows ∧
    (restoreSavedHL G).E.row.length = G.E.row.length ∧
    (restoreSavedHL G).E.curX = G.E.curX ∧ (restoreSavedHL G).E.curY = G.E.curY ∧
    (restoreSavedHL G).E.rowOff = G.E.rowOff ∧ (restoreSavedHL G).E.colOff = G.E.colOff ∧
    (restoreSavedHL G).quitTimes = G.quitTimes := by
  unfold restoreSavedHL
  cases h : G.savedHL with
  | none => simp [h]
  | some saved => simp

theorem restoreSavedHL_render (G : EditorGlobals) (i : Nat) :
    ((restoreSavedHL G).E.rowAt i).render = (G.E.rowAt i).render := by
  unfold restoreSavedHL
  cases h : G.savedHL with
  | none => rfl
  | some saved =>
    simp only []
    by_cases hi : G.savedHLLine.toNat = i
    · subst hi
      by_cases hlt : G.savedHLLine.toNat < G.E.row.length
      · rw [rowAt_set_self _ _ _ hlt]
      · unfold EditorConfig.rowAt
        simp only []
        rw [List.set_eq_of_length_le (by omega)]
    · rw [rowAt_set_ne _ _ _ _ hi]

theorem restoreSavedHL_row_congr (G H : EditorGlobals) (h1 : G.E.row = H.E.row)
    (h2 : G.savedHL = H.savedHL) (h3 : G.savedHLLine = H.savedHLLine) :
    (restoreSavedHL G).E.row = (restoreSavedHL H).E.row := by
  unfold restoreSavedHL EditorConfig.rowAt
  rw [← h2, ← h3, ← h1]
  cases G.savedHL <;> simp [h1]

theorem EditorFindCallback_done (G : EditorGlobals) (query : List Nat) (key : Int)
    (h : key = 13 ∨ key = 27) :
    EditorFindCallback G query key = { restoreSavedHL G with lastMatch := -1, direction := 1 } := by
  unfold EditorFindCallback
  rw [if_pos h]
  rfl

theorem EditorFindCallback_ordinary (G : EditorGlobals) (query : List Nat) (key : Int)
    (h13 : key ≠ 13) (h27 : key ≠ 27) (hL : key ≠ ARROW_LEFT) (hR : key ≠ ARROW_RIGHT)
    (hU : key ≠ ARROW_UP) (hD : key ≠ ARROW_DOWN) :
    EditorFindCallback G query key
      = findLoop query G.E.numRows.toNat
          { restoreSavedHL G with lastMatch := -1, direction := 1 } (-1) := by
  rw [← (restoreSavedHL_fields G).2.2.2.1]
  unfold EditorFindCallback
  simp only [h13, h27, hL, hR, hU, hD, or_self, ↓reduceIte]
  rfl

theorem EditorFindCallback_forward (G : EditorGlobals) (query : List Nat) (key : Int)
    (h : key = ARROW_RIGHT ∨ key = ARROW_DOWN) (hm : G.lastMatch ≠ -1) :
    EditorFindCallback G query key
      = findLoop query G.E.numRows.toNat { restoreSavedHL G with direction := 1 }
          G.lastMatch := by
  have h1 : ¬ (key = 13 ∨ key = 27) := by
    rcases h with h | h <;> rw [h] <;> decide
  have hm1 : (restoreSavedHL G).lastMatch ≠ -1 := by
    rw [(restoreSavedHL_fields G).2.1]; exact hm
  rw [← (restoreSavedHL_fields G).2.2.2.1, ← (restoreSavedHL_fields G).2.1]
  have e : EditorFindCallback G query key =
      (if key = 13 ∨ key = 27 then { restoreSavedHL G with lastMatch := -1, direction := 1 }
       else
        let G2 : EditorGlobals :=
          if key = ARROW_RIGHT ∨ key = ARROW_DOWN then { restoreSavedHL G with direction := 1 }
          else if key = ARROW_LEFT ∨ key = ARROW_UP then
            { restoreSavedHL G with direction := -1 }
          else { restoreSavedHL G with lastMatch := -1, direction := 1 }
        let G3 : EditorGlobals := if G2.lastMatch = -1 then { G2 with direction := 1 } else G2
        findLoop query G3.E.numRows.toNat G3 G3.lastMatch) := rfl
  rw [e, if_neg h1]
  simp only [if_pos h, if_neg hm1]

theorem EditorFindCallback_backward (G : EditorGlobals) (query : List Nat) (key : Int)
    (h : key = ARROW_LEFT ∨ key = ARROW_UP) (hm : G.lastMatch ≠ -1) :
    EditorFindCallback G query key
      = findLoop query G.E.numRows.toNat { restoreSavedHL G with direction := -1 }
          G.lastMatch := by
  have h1 : ¬ (key = 13 ∨ key = 27) := by
    rcases h with h | h <;> rw [h] <;> decide
  have h2 : ¬ (key = ARROW_RIGHT ∨ key = ARROW_DOWN) := by
    rcases h with h | h <;> rw [h] <;> decide
  have hm1 : (restoreSavedHL G).lastMatch ≠ -1 := by
    rw [(restoreSavedHL_fields G).2.1]; exact hm
  rw [← (restoreSavedHL_fields G).2.2.2.1, ← (restoreSavedHL_fields G).2.1]
  have e : EditorFindCallback G query key =
      (if key = 13 ∨ key = 27 then { restoreSavedHL G with lastMatch := -1, direction := 1 }
       else
        let G2 : EditorGlobals :=
          if key = ARROW_RIGHT ∨ key = ARROW_DOWN then { restoreSavedHL G with direction := 1 }
          else if key = ARROW_LEFT ∨ key = ARROW_UP then
            { restoreSavedHL G with direction := -1 }
          else { restoreSavedHL G with lastMatch := -1, direction := 1 }
        let G3 : EditorGlobals := if G2.lastMatch = -1 then { G2 with direction := 1 } else G2
        findLoop query G3.E.numRows.toNat G3 G3.lastMatch) := rfl
  rw [e, if_neg h1]
  simp only [if_neg h2, if_pos h, if_neg hm1]

theorem range_split (N r : Nat) (h : r < N) :
    List.range N = List.range r ++ r :: List.range' (r + 1) (N - 1 - r) := by
  rw [List.range_eq_range', List.range_eq_range', ← List.range'_succ]
  have := List.range'_append_1 0 r (N - 1 - r + 1)
  rw [Nat.zero_add] at this
  rw [this]
  congr 1
  omega

theorem find_range_first (p : Nat → Bool) (N r : Nat) (h : r < N) (hr : p r = true)
    (hb : ∀ i, i < r → p i = false) : (List.range N).find? p = some r := by
  rw [List.find?_eq_some]
  refine ⟨hr, List.range r, List.range' (r + 1) (N - 1 - r), range_split N r h, ?_⟩
  intro a ha
  rw [hb a (List.mem_range.1 ha)]
  rfl

theorem set_getD_self {α : Type} (l : List α) (i : Nat) (d : α) : l.set i (l.getD i d) = l := by
  induction l generalizing i with
  | nil => rfl
  | cons a t ih =>
    cases i with
    | zero => rfl
    | succ i =>
      rw [List.set_cons_succ, List.getD_cons_succ, ih]

theorem memcpy_restore (hl : List Nat) (m v len rl : Nat) (h : m + len ≤ rl) :
    memcpy (memset hl m v len) (memcpy [] hl rl) rl = hl := by
  unfold memcpy
  rw [List.drop_nil, List.append_nil, List.take_take, Nat.min_self, memset_drop _ _ _ _ _ h,
    List.take_append_drop]

theorem restoreSavedHL_matchState (G : EditorGlobals) (query : List Nat) (cur : Int) (m : Nat)
    (hb : m + (cString query).length ≤ (G.E.rowAt cur.toNat).render.length) :
    (restoreSavedHL (matchState G query cur m)).E.row = G.E.row := by
  unfold restoreSavedHL matchState
  unfold EditorConfig.rowAt at hb ⊢
  simp only []
  by_cases hc : cur.toNat < G.E.row.length
  · rw [List.set_set, getD_set_self _ _ _ _ hc]
    simp only []
    rw [memcpy_restore _ _ _ _ _ hb]
    exact set_getD_self _ _ _
  · rw [List.set_eq_of_length_le (by rw [List.length_set]; omega),
      List.set_eq_of_length_le (by omega)]

/-- Restoring the saved highlight after the loop of `EditorFindCallback` gives
back the rows the loop started from. -/
theorem findLoop_restore (query : List Nat) : ∀ (n : Nat) (G : EditorGlobals) (current : Int),
    G.savedHL = none → (restoreSavedHL (findLoop query n G current)).E.row = G.E.row := by
  intro n
  induction n with
  | zero =>
    intro G current h
    rw [findLoop, restoreSavedHL_none G h]
  | succ n ih =>
    intro G current h
    cases hs : strstr (G.E.rowAt (nextRow G.E.numRows G.direction current).toNat).render query with
    | none =>
      rw [findLoop_step_none query n G current hs]
      exact ih G _ h
    | some m =>
      rw [findLoop_step_some query n G current m hs]
      exact restoreSavedHL_matchState G query _ m (strstr_bound _ _ _ hs)

/-- One call of `EditorFindCallback` keeps what the rows are once the saved
highlight is copied back. -/
theorem EditorFindCallback_restore (G : EditorGlobals) (query : List Nat) (key : Int) :
    (restoreSavedHL (EditorFindCallback G query key)).E.row = (restoreSavedHL G).E.row := by
  have hn := (restoreSavedHL_fields G).1
  have e : EditorFindCallback G query key =
      (if key = 13 ∨ key = 27 then { restoreSavedHL G with lastMatch := -1, direction := 1 }
       else
        let G2 : EditorGlobals :=
          if key = ARROW_RIGHT ∨ key = ARROW_DOWN then { restoreSavedHL G with direction := 1 }
          else if key = ARROW_LEFT ∨ key = ARROW_UP then
            { restoreSavedHL G with direction := -1 }
          else { restoreSavedHL G with lastMatch := -1, direction := 1 }
        let G3 : EditorGlobals := if G2.lastMatch = -1 then { G2 with direction := 1 } else G2
        findLoop query G3.E.numRows.toNat G3 G3.lastMatch) := rfl
  rw [e]
  by_cases h1 : key = 13 ∨ key = 27
  · rw [if_pos h1]
    have hn2 : ({ restoreSavedHL G with lastMatch := -1, direction := 1 } :
        EditorGlobals).savedHL = none := hn
    rw [restoreSavedHL_none _ hn2]
  · rw [if_neg h1]
    simp only []
    split_ifs <;> exact findLoop_restore query _ _ _ hn

theorem occursAt_contains (text q : List Nat) (d : Nat) (h : occursAt text q d) :
    containsText text q :=
  h.2.isInfix.trans (List.drop_suffix d text).isInfix

theorem firstOccurrenceAt_unique (text q : List Nat) (d1 d2 : Nat)
    (h1 : firstOccurrenceAt text q d1) (h2 : firstOccurrenceAt text q d2) : d1 = d2 := by
  rcases Nat.lt_trichotomy d1 d2 with h | h | h
  · exact absurd h1.1 (h2.2 d1 h)
  · exact h
  · exact absurd h2.1 (h1.2 d2 h)

theorem matchState_fields (G : EditorGlobals) (query : List Nat) (cur : Int) (m : Nat) :
    (matchState G query cur m).E.curY = cur ∧
    (matchState G query cur m).E.curX = EditorRowRendrXToCurX (G.E.rowAt cur.toNat) (m : Int) ∧
    (matchState G query cur m).lastMatch = cur ∧
    (matchState G query cur m).E.numRows = G.E.numRows ∧
    (matchState G query cur m).E.rowOff = G.E.numRows ∧
    (matchState G query cur m).direction = G.direction :=
  ⟨rfl, rfl, rfl, rfl, rfl, rfl⟩

theorem matchState_rowAt_self (G : EditorGlobals) (query : List Nat) (r m : Nat)
    (hr : r < G.E.row.length) :
    ((matchState G query (r : Int) m).E.rowAt r).highlight
      = memset (G.E.rowAt r).highlight m HL_MATCH (cString query).length := by
  unfold matchState EditorConfig.rowAt
  simp only [Int.toNat_ofNat]
  rw [getD_set_self _ _ _ _ hr]

theorem matchState_rowAt_ne (G : EditorGlobals) (query : List Nat) (r m i : Nat) (hi : i ≠ r) :
    (matchState G query (r : Int) m).E.rowAt i = G.E.rowAt i := by
  unfold matchState EditorConfig.rowAt
  simp only [Int.toNat_ofNat]
  rw [getD_set_ne _ _ _ _ _ (Ne.symm hi)]

/-- The loop of `EditorFindCallback`, run after the saved highlight is copied
back, along the rows `order`: the rows are told apart by their display strings
before the call. -/
theorem findLoop_restored_order (G G3 : EditorGlobals) (query : List Nat) (n : Nat)
    (current : Int) (order : List Nat) (hE : G3.E = (restoreSavedHL G).E)
    (hscan : scanRows G.E.numRows G3.direction n current
      = order.map (fun i : Nat => (i : Int))) :
    (order.find? (rowHasQuery G.E query) = none → findLoop query n G3 current = G3) ∧
    (∀ r, order.find? (rowHasQuery G.E query) = some r →
      ∃ m, firstOccurrenceAt (cString (G.E.rowAt r).render) (cString query) m ∧
        findLoop query n G3 current = matchState G3 query (r : Int) m) := by
  have hrender : ∀ i, (G3.E.rowAt i).render = (G.E.rowAt i).render := by
    intro i
    rw [hE]
    exact restoreSavedHL_render G i
  have hp : (fun i => decide (containsText (cString (G3.E.rowAt i).render) (cString query)))
      = rowHasQuery G.E query := by
    funext i
    unfold rowHasQuery
    rw [hrender]
  have hnum : G3.E.numRows = G.E.numRows := by
    rw [hE]
    exact (restoreSavedHL_fields G).2.2.2.1
  have h := findLoop_order query G3 order n current (by rw [hnum]; exact hscan)
  rw [hp] at h
  refine ⟨h.1, ?_⟩
  intro r hr
  obtain ⟨m, hm, hfl⟩ := h.2 r hr
  refine ⟨m, ?_, hfl⟩
  rw [← hrender]
  exact (strstr_some _ _ _).1 hm

theorem toNat_numRows (E : EditorConfig) (hnum : E.numRows = E.row.length) :
    E.numRows.toNat = E.row.length := by
  rw [hnum]
  exact Int.toNat_ofNat _

/-- An ordinary key in `EditorFindCallback`: the scan goes over the rows
`0, 1, ..., numRows-1` in this order. -/
theorem ordinary_key_scan (G : EditorGlobals) (query : List Nat) (key : Int)
    (hnum : G.E.numRows = G.E.row.length)
    (hkey : key ≠ 13 ∧ key ≠ 27 ∧ key ≠ ARROW_LEFT ∧ key ≠ ARROW_RIGHT ∧ key ≠ ARROW_UP
      ∧ key ≠ ARROW_DOWN) :
    ((List.range G.E.row.length).find? (rowHasQuery G.E query) = none →
      EditorFindCallback G query key
        = { restoreSavedHL G with lastMatch := -1, direction := 1 }) ∧
    (∀ r, (List.range G.E.row.length).find? (rowHasQuery G.E query) = some r →
      ∃ m, firstOccurrenceAt (cString (G.E.rowAt r).render) (cString query) m ∧
        EditorFindCallback G query key
          = matchState { restoreSavedHL G with lastMatch := -1, direction := 1 } query
              (r : Int) m) := by
  obtain ⟨h13, h27, hL, hR, hU, hD⟩ := hkey
  rw [EditorFindCallback_ordinary G query key h13 h27 hL hR hU hD, toNat_numRows _ hnum]
  exact findLoop_restored_order G _ query _ _ _ rfl
    (scanRows_fresh G.E.numRows G.E.row.length (by rw [hnum]))

/-- C11 (the claim as stated fails): in the buffer whose row 0 is a NUL byte
followed by `x` and whose row 1 is `a`, the text `x` occurs in the display
content of row 0 only, first at display column 1; with the cursor on row 1, a
fresh search state and the key `x`, `EditorFindCallback` changes nothing: the
cursor stays on row 1 and no tag of row 0 becomes `HL_MATCH`, because `strstr`
reads the display content as a C string, which ends at the NUL byte. -/
theorem C11_nul_byte_hides_match :
    firstOccurrenceAt (nulRowBuffer.rowAt 0).render (cstr "x") 1 ∧
    ¬ containsText (nulRowBuffer.rowAt 1).render (cstr "x") ∧
    nulRowBuffer.curY = 1 ∧ rowsFresh nulRowBuffer ∧
    EditorFindCallback (initGlobals nulRowBuffer) (cstr "x") 120 = initGlobals nulRowBuffer := by
  decide

/-- C11 (amended): for every buffer and every query whose text occurs, in the
display content read as a C string (up to its first NUL byte), in exactly one
row `r`, first at display column `d`: `EditorFindCallback` with no saved
highlight and an ordinary key sets `curY = r` and
`curX = EditorRowRendrXToCurX(row r, d)`, makes the tags of the
columns `d .. d+len(query)-1` of row `r` `HL_MATCH` (these columns exist),
keeps every other tag of row `r`, and leaves every other row as it is. -/
theorem C11_find_unique_match (G : EditorGlobals) (query : List Nat) (key : Int) (r d : Nat)
    (hnum : G.E.numRows = G.E.row.length) (hfresh : G.savedHL = none)
    (hkey : key ≠ 13 ∧ key ≠ 27 ∧ key ≠ ARROW_LEFT ∧ key ≠ ARROW_RIGHT ∧ key ≠ ARROW_UP
      ∧ key ≠ ARROW_DOWN)
    (hr : r < G.E.row.length)
    (hocc : firstOccurrenceAt (cString (G.E.rowAt r).render) (cString query) d)
    (huniq : ∀ i, i < G.E.row.length → i ≠ r →
      ¬ containsText (cString (G.E.rowAt i).render) (cString query))
    (hlen : (G.E.rowAt r).highlight.length = (G.E.rowAt r).render.length) :
    (EditorFindCallback G query key).E.curY = r ∧
    (EditorFindCallback G query key).E.curX = EditorRowRendrXToCurX (G.E.rowAt r) d ∧
    d + (cString query).length ≤ (G.E.rowAt r).highlight.length ∧
    ((EditorFindCallback G query key).E.rowAt r).highlight.length
      = (G.E.rowAt r).highlight.length ∧
    (∀ j, ((EditorFindCallback G query key).E.rowAt r).highlight.getD j 0
      = if d ≤ j ∧ j < d + (cString query).length then HL_MATCH
        else (G.E.rowAt r).highlight.getD j 0) ∧
    (∀ i, i ≠ r → (EditorFindCallback G query key).E.rowAt i = G.E.rowAt i) ∧
    (EditorFindCallback G query key).E.numRows = G.E.numRows := by
  have hfind : (List.range G.E.row.length).find? (rowHasQuery G.E query) = some r := by
    apply find_range_first _ _ _ hr
    · exact decide_eq_true (occursAt_contains _ _ _ hocc.1)
    · intro i hi
      exact decide_eq_false (huniq i (by omega) (by omega))
  obtain ⟨m, hm, hcb⟩ := (ordinary_key_scan G query key hnum hkey).2 r hfind
  have hmd : m = d := firstOccurrenceAt_unique _ _ _ _ hm hocc
  subst hmd
  rw [hcb, restoreSavedHL_none G hfresh]
  have hb : m + (cString query).length ≤ (G.E.rowAt r).highlight.length := by
    have h1 := occursAt_bound _ _ _ hocc.1
    have h2 := cString_length_le (G.E.rowAt r).render
    omega
  have hrow := matchState_rowAt_self { G with lastMatch := -1, direction := 1 } query r m hr
  refine ⟨rfl, rfl, hb, ?_, ?_, ?_, rfl⟩
  · rw [hrow]
    exact memset_length _ _ _ _
  · intro j
    rw [hrow]
    by_cases hj : m ≤ j ∧ j < m + (cString query).length
    · rw [if_pos hj]
      exact memset_getD _ _ _ _ _ _ hj.1 hj.2 (Nat.lt_of_lt_of_le hj.2 hb)
    · rw [if_neg hj]
      exact memset_getD_out _ _ _ _ _ _ (by omega)
  · intro i hi
    exact matchState_rowAt_ne _ query r m i hi

set_option maxRecDepth 100000 in
theorem C11_find_unique_match_witness :
    (EditorFindCallback (initGlobals blockCommentBuffer) (cstr "*/") 47).E.curY = (1 : Nat) ∧
    (EditorFindCallback (initGlobals blockCommentBuffer) (cstr "*/") 47).E.curX
      = EditorRowRendrXToCurX ((initGlobals blockCommentBuffer).E.rowAt 1) (2 : Nat) ∧
    (∀ j, ((EditorFindCallback (initGlobals blockCommentBuffer) (cstr "*/") 47).E.rowAt 1
        ).highlight.getD j 0
      = if 2 ≤ j ∧ j < 2 + (cString (cstr "*/")).length then HL_MATCH
        else ((initGlobals blockCommentBuffer).E.rowAt 1).highlight.getD j 0) :=
  ⟨(C11_find_unique_match (initGlobals blockCommentBuffer) (cstr "*/") 47 1 2 (by decide)
      (by decide) (by decide) (by decide) (by decide) (by decide) (by decide)).1,
    (C11_find_unique_match (initGlobals blockCommentBuffer) (cstr "*/") 47 1 2 (by decide)
      (by decide) (by decide) (by decide) (by decide) (by decide) (by decide)).2.1,
    (C11_find_unique_match (initGlobals blockCommentBuffer) (cstr "*/") 47 1 2 (by decide)
      (by decide) (by decide) (by decide) (by decide) (by decide) (by decide)).2.2.2.2.1⟩

/-- C13 (the claim as stated fails): in the buffer `x`, `a`, `x` with the
cursor on row 1, the rows at or after the cursor row that hold `x` begin with
row 2, yet `EditorFindCallback` with a fresh search state and the key `x`
selects row 0: the key resets `lastMatch` to -1, so the scan begins at the top
of the buffer and not at the cursor row. -/
theorem C13_fresh_search_ignores_cursor_row :
    xaxBuffer.curY = 1 ∧
    ¬ containsText (xaxBuffer.rowAt 1).render (cstr "x") ∧
    containsText (xaxBuffer.rowAt 2).render (cstr "x") ∧
    (EditorFindCallback (initGlobals xaxBuffer) (cstr "x") 120).E.curY = 0 ∧
    (EditorFindCallback (initGlobals xaxBuffer) (cstr "x") 120).lastMatch = 0 := by
  decide

/-- C13 (amended): in `EditorFindCallback` a keystroke other than Enter,
Escape or an arrow key starts a fresh forward search at the top of the buffer,
wherever the cursor is: the row selected is the first row, counted from row 0,
whose display content (read as a C string) holds the query; the search state
then has `lastMatch` on that row and the forward direction. -/
theorem C13_fresh_search_from_top (G : EditorGlobals) (query : List Nat) (key : Int) (r : Nat)
    (hnum : G.E.numRows = G.E.row.length)
    (hkey : key ≠ 13 ∧ key ≠ 27 ∧ key ≠ ARROW_LEFT ∧ key ≠ ARROW_RIGHT ∧ key ≠ ARROW_UP
      ∧ key ≠ ARROW_DOWN)
    (hr : r < G.E.row.length)
    (hhas : containsText (cString (G.E.rowAt r).render) (cString query))
    (hfirst : ∀ i, i < r → ¬ containsText (cString (G.E.rowAt i).render) (cString query)) :
    (EditorFindCallback G query key).E.curY = r ∧
    (EditorFindCallback G query key).lastMatch = r ∧
    (EditorFindCallback G query key).direction = 1 := by
  have hfind : (List.range G.E.row.length).find? (rowHasQuery G.E query) = some r := by
    apply find_range_first _ _ _ hr
    · exact decide_eq_true hhas
    · intro i hi
      exact decide_eq_false (hfirst i hi)
  obtain ⟨m, _, hcb⟩ := (ordinary_key_scan G query key hnum hkey).2 r hfind
  rw [hcb]
  exact ⟨rfl, rfl, rfl⟩

set_option maxRecDepth 100000 in
theorem C13_fresh_search_from_top_witness :
    (EditorFindCallback (initGlobals blockCommentBuffer) (cstr " ") 32).E.curY = (0 : Nat) ∧
    (EditorFindCallback (initGlobals blockCommentBuffer) (cstr "d") 100).E.curY = (1 : Nat) :=
  ⟨(C13_fresh_search_from_top (initGlobals blockCommentBuffer) (cstr " ") 32 0 (by decide)
      (by decide) (by decide) (by decide) (by decide)).1,
    (C13_fresh_search_from_top (initGlobals blockCommentBuffer) (cstr "d") 100 1 (by decide)
      (by decide) (by decide) (by decide) (by decide)).1⟩

theorem mem_cyclicForward (n m i : Nat) (hm : m < n) (hi : i ∈ cyclicForward n m) : i < n := by
  unfold cyclicForward at hi
  rcases List.mem_append.1 hi with h | h
  · have := List.mem_range'_1.1 h
    omega
  · have := List.mem_range.1 h
    omega

theorem mem_cyclicBackward (n m i : Nat) (hm : m < n) (hi : i ∈ cyclicBackward n m) : i < n := by
  unfold cyclicBackward at hi
  rcases List.mem_append.1 hi with h | h
  · have := List.mem_range.1 (List.mem_reverse.1 h)
    omega
  · have := List.mem_range'_1.1 (List.mem_reverse.1 h)
    omega

theorem find_cyclicForward_only (p : Nat → Bool) (n m : Nat) (hm : m < n) (hp : p m = true)
    (ho : ∀ i, i < n → i ≠ m → p i = false) : (cyclicForward n m).find? p = some m := by
  rw [List.find?_eq_some]
  refine ⟨hp, List.range' (m + 1) (n - 1 - m) ++ List.range m, [], ?_, ?_⟩
  · unfold cyclicForward
    rw [List.range_succ, List.append_assoc]
  · intro a ha
    have : a < n ∧ a ≠ m := by
      rcases List.mem_append.1 ha with h | h
      · have := List.mem_range'_1.1 h
        omega
      · have := List.mem_range.1 h
        omega
    rw [ho a this.1 this.2]
    rfl

theorem find_cyclicBackward_only (p : Nat → Bool) (n m : Nat) (hm : m < n) (hp : p m = true)
    (ho : ∀ i, i < n → i ≠ m → p i = false) : (cyclicBackward n m).find? p = some m := by
  rw [List.find?_eq_some]
  refine ⟨hp, (List.range m).reverse ++ (List.range' (m + 1) (n - 1 - m)).reverse, [], ?_, ?_⟩
  · unfold cyclicBackward
    rw [show n - m = (n - 1 - m) + 1 by omega, List.range'_succ, List.reverse_cons,
      List.append_assoc]
  · intro a ha
    have : a < n ∧ a ≠ m := by
      rcases List.mem_append.1 ha with h | h
      · have := List.mem_range.1 (List.mem_reverse.1 h)
        omega
      · have := List.mem_range'_1.1 (List.mem_reverse.1 h)
        omega
    rw [ho a this.1 this.2]
    rfl

/-- An arrow key in `EditorFindCallback` after a match on row `m`: the scan
goes over the rows in the cyclic order that starts one step from `m` in the
direction of the key. -/
theorem arrow_key_scan (G : EditorGlobals) (query : List Nat) (key : Int) (m : Nat)
    (order : List Nat) (hnum : G.E.numRows = G.E.row.length) (hlast : G.lastMatch = m)
    (hm : m < G.E.row.length)
    (hkey : ((key = ARROW_DOWN ∨ key = ARROW_RIGHT) ∧ order = cyclicForward G.E.row.length m) ∨
      ((key = ARROW_UP ∨ key = ARROW_LEFT) ∧ order = cyclicBackward G.E.row.length m)) :
    (order.find? (rowHasQuery G.E query) = none →
      (EditorFindCallback G query key).E.curX = G.E.curX ∧
      (EditorFindCallback G query key).E.curY = G.E.curY ∧
      (EditorFindCallback G query key).E.rowOff = G.E.rowOff ∧
      (EditorFindCallback G query key).E.colOff = G.E.colOff ∧
      (EditorFindCallback G query key).lastMatch = G.lastMatch) ∧
    (∀ r, order.find? (rowHasQuery G.E query) = some r →
      (EditorFindCallback G query key).E.curY = r ∧
      (EditorFindCallback G query key).lastMatch = r) := by
  have hne : G.lastMatch ≠ -1 := by rw [hlast]; omega
  have hf := restoreSavedHL_fields G
  rcases hkey with ⟨hk, ho⟩ | ⟨hk, ho⟩
  · rw [EditorFindCallback_forward G query key hk.symm hne, toNat_numRows _ hnum, hlast, ho]
    have h := findLoop_restored_order G { restoreSavedHL G with direction := 1 } query
      G.E.row.length (m : Int) (cyclicForward G.E.row.length m) rfl
      (by rw [hnum]; exact scanRows_forward _ _ hm)
    refine ⟨fun hn => ?_, fun r hr => ?_⟩
    · rw [h.1 hn]
      exact ⟨hf.2.2.2.2.2.1, hf.2.2.2.2.2.2.1, hf.2.2.2.2.2.2.2.1, hf.2.2.2.2.2.2.2.2.1, hf.2.1.trans hlast⟩
    · obtain ⟨d, _, hfl⟩ := h.2 r hr
      rw [hfl]
      exact ⟨rfl, rfl⟩
  · rw [EditorFindCallback_backward G query key hk.symm hne, toNat_numRows _ hnum, hlast, ho]
    have h := findLoop_restored_order G { restoreSavedHL G with direction := -1 } query
      G.E.row.length (m : Int) (cyclicBackward G.E.row.length m) rfl
      (by rw [hnum]; exact scanRows_backward _ _ hm)
    refine ⟨fun hn => ?_, fun r hr => ?_⟩
    · rw [h.1 hn]
      exact ⟨hf.2.2.2.2.2.1, hf.2.2.2.2.2.2.1, hf.2.2.2.2.2.2.2.1, hf.2.2.2.2.2.2.2.2.1, hf.2.1.trans hlast⟩
    · obtain ⟨d, _, hfl⟩ := h.2 r hr
      rw [hfl]
      exact ⟨rfl, rfl⟩

/-- C14 (the claim as stated fails): in the buffer whose row 0 is `x` and
whose row 1 is a NUL byte followed by `x`, after the fresh search for `x` has
matched on row 0, the first row in the cyclic order `1, 0` whose display
content holds `x` is row 1, yet `EditorFindCallback` with Arrow-Down selects
row 0 again: `strstr` reads the display content of row 1 as a C string, which
ends at the NUL byte. -/
theorem C14_arrow_skips_row_after_nul :
    (EditorFindCallback (initGlobals nulSecondBuffer) (cstr "x") 120).lastMatch = 0 ∧
    cyclicForward 2 0 = [1, 0] ∧
    containsText (nulSecondBuffer.rowAt 1).render (cstr "x") ∧
    (EditorFindCallback (EditorFindCallback (initGlobals nulSecondBuffer) (cstr "x") 120)
      (cstr "x") ARROW_DOWN).E.curY = 0 ∧
    (EditorFindCallback (EditorFindCallback (initGlobals nulSecondBuffer) (cstr "x") 120)
      (cstr "x") ARROW_DOWN).lastMatch = 0 := by
  decide

/-- C14 (amended): after a match on row `m`, `EditorFindCallback` with
Arrow-Down or Arrow-Right selects (sets `curY` and `lastMatch` to) the first
row, in the cyclic order `m+1, ..., numRows-1, 0, ..., m`, whose display
content read as a C string (up to its first NUL byte) holds the query, and
with Arrow-Up or Arrow-Left the first such row in the cyclic order
`m-1, ..., 0, numRows-1, ..., m`; when `m` is the only such row it is selected
again; when no row is such a row the cursor, the viewport offsets and
`lastMatch` are unchanged. -/
theorem C14_arrow_selects_cyclic_next (G : EditorGlobals) (query : List Nat) (key : Int)
    (m : Nat) (hnum : G.E.numRows = G.E.row.length) (hlast : G.lastMatch = m)
    (hm : m < G.E.row.length) :
    (key = ARROW_DOWN ∨ key = ARROW_RIGHT →
      ∀ r, (cyclicForward G.E.row.length m).find? (rowHasQuery G.E query) = some r →
        (EditorFindCallback G query key).E.curY = r ∧
        (EditorFindCallback G query key).lastMatch = r) ∧
    (key = ARROW_UP ∨ key = ARROW_LEFT →
      ∀ r, (cyclicBackward G.E.row.length m).find? (rowHasQuery G.E query) = some r →
        (EditorFindCallback G query key).E.curY = r ∧
        (EditorFindCallback G query key).lastMatch = r) ∧
    (key = ARROW_DOWN ∨ key = ARROW_RIGHT ∨ key = ARROW_UP ∨ key = ARROW_LEFT →
      rowHasQuery G.E query m = true →
      (∀ i, i < G.E.row.length → i ≠ m → rowHasQuery G.E query i = false) →
      (EditorFindCallback G query key).E.curY = m ∧
      (EditorFindCallback G query key).lastMatch = m) ∧
    (key = ARROW_DOWN ∨ key = ARROW_RIGHT ∨ key = ARROW_UP ∨ key = ARROW_LEFT →
      (∀ i, i < G.E.row.length → rowHasQuery G.E query i = false) →
      (EditorFindCallback G query key).E.curX = G.E.curX ∧
      (EditorFindCallback G query key).E.curY = G.E.curY ∧
      (EditorFindCallback G query key).E.rowOff = G.E.rowOff ∧
      (EditorFindCallback G query key).E.colOff = G.E.colOff ∧
      (EditorFindCallback G query key).lastMatch = G.lastMatch) := by
  refine ⟨?_, ?_, ?_, ?_⟩
  · intro hk r hr
    exact (arrow_key_scan G query key m _ hnum hlast hm (Or.inl ⟨hk, rfl⟩)).2 r hr
  · intro hk r hr
    exact (arrow_key_scan G query key m _ hnum hlast hm (Or.inr ⟨hk, rfl⟩)).2 r hr
  · intro hk hp ho
    rcases hk with hk | hk | hk | hk
    · exact (arrow_key_scan G query key m _ hnum hlast hm (Or.inl ⟨Or.inl hk, rfl⟩)).2 m
        (find_cyclicForward_only _ _ _ hm hp ho)
    · exact (arrow_key_scan G query key m _ hnum hlast hm (Or.inl ⟨Or.inr hk, rfl⟩)).2 m
        (find_cyclicForward_only _ _ _ hm hp ho)
    · exact (arrow_key_scan G query key m _ hnum hlast hm (Or.inr ⟨Or.inl hk, rfl⟩)).2 m
        (find_cyclicBackward_only _ _ _ hm hp ho)
    · exact (arrow_key_scan G query key m _ hnum hlast hm (Or.inr ⟨Or.inr hk, rfl⟩)).2 m
        (find_cyclicBackward_only _ _ _ hm hp ho)
  · intro hk ho
    have hf : (cyclicForward G.E.row.length m).find? (rowHasQuery G.E query) = none := by
      rw [List.find?_eq_none]
      intro x hx
      rw [ho x (mem_cyclicForward _ _ _ hm hx)]
      exact Bool.false_ne_true
    have hb : (cyclicBackward G.E.row.length m).find? (rowHasQuery G.E query) = none := by
      rw [List.find?_eq_none]
      intro x hx
      rw [ho x (mem_cyclicBackward _ _ _ hm hx)]
      exact Bool.false_ne_true
    rcases hk with hk | hk | hk | hk
    · exact (arrow_key_scan G query key m _ hnum hlast hm (Or.inl ⟨Or.inl hk, rfl⟩)).1 hf
    · exact (arrow_key_scan G query key m _ hnum hlast hm (Or.inl ⟨Or.inr hk, rfl⟩)).1 hf
    · exact (arrow_key_scan G query key m _ hnum hlast hm (Or.inr ⟨Or.inl hk, rfl⟩)).1 hb
    · exact (arrow_key_scan G query key m _ hnum hlast hm (Or.inr ⟨Or.inr hk, rfl⟩)).1 hb

set_option maxRecDepth 100000 in
theorem C14_arrow_selects_cyclic_next_witness :
    (EditorFindCallback (initGlobals xaxBuffer) (cstr "x") 120).lastMatch = (0 : Nat) ∧
    cyclicForward 3 0 = [1, 2, 0] ∧ cyclicBackward 3 0 = [2, 1, 0] ∧
    (EditorFindCallback (EditorFindCallback (initGlobals xaxBuffer) (cstr "x") 120)
      (cstr "x") ARROW_DOWN).E.curY = (2 : Nat) ∧
    (EditorFindCallback (EditorFindCallback (initGlobals xaxBuffer) (cstr "x") 120)
      (cstr "x") ARROW_UP).lastMatch = (2 : Nat) :=
  ⟨by decide, by decide, by decide,
    ((C14_arrow_selects_cyclic_next
      (EditorFindCallback (initGlobals xaxBuffer) (cstr "x") 120) (cstr "x") ARROW_DOWN 0
      (by decide) (by decide) (by decide)).1 (by decide) 2 (by decide)).1,
    ((C14_arrow_selects_cyclic_next
      (EditorFindCallback (initGlobals xaxBuffer) (cstr "x") 120) (cstr "x") ARROW_UP 0
      (by decide) (by decide) (by decide)).2.1 (by decide) 2 (by decide)).2⟩

/-! ## Theorems: cancelling a search -/

theorem EditorScroll_row (E : EditorConfig) : (EditorScroll E).row = E.row := by
  rw [EditorScroll_eq]

theorem restoreSavedHL_scroll (G : EditorGlobals) :
    (restoreSavedHL { G with E := EditorScroll G.E }).E.row = (restoreSavedHL G).E.row :=
  restoreSavedHL_row_congr _ _ (EditorScroll_row G.E) rfl rfl

/-- One round of the search prompt keeps what the rows are once the saved
highlight is copied back. -/
theorem prompt_round_restore (G : EditorGlobals) (buf : List Nat) (c : Int) :
    (restoreSavedHL (runCallback (some EditorFindCallback) { G with E := EditorScroll G.E }
      buf c)).E.row = (restoreSavedHL G).E.row := by
  show (restoreSavedHL (EditorFindCallback { G with E := EditorScroll G.E } buf c)).E.row = _
  rw [EditorFindCallback_restore, restoreSavedHL_scroll]

/-- The search prompt that has read the keys `ks` and is still open returns
`NULL` on the key Escape, with the rows as they are once the saved highlight is
copied back. -/
theorem EditorPrompt_escape (rest : List Int) (rows0 : List eRow) :
    ∀ (ks : List Int) (G : EditorGlobals) (buf : List Nat),
      EditorPrompt (some EditorFindCallback) ks G buf = none →
      (restoreSavedHL G).E.row = rows0 →
      ∃ G1, EditorPrompt (some EditorFindCallback) (ks ++ 27 :: rest) G buf
          = some (none, G1, rest) ∧ G1.E.row = rows0 ∧ G1.savedHL = none := by
  intro ks
  induction ks with
  | nil =>
    intro G buf _ hinv
    rw [List.nil_append, EditorPrompt]
    simp only []
    rw [if_neg (by decide), if_pos trivial]
    refine ⟨_, rfl, ?_, ?_⟩
    · show (EditorFindCallback { G with E := EditorScroll G.E } buf 27).E.row = rows0
      rw [EditorFindCallback_done _ _ _ (Or.inr rfl)]
      show (restoreSavedHL { G with E := EditorScroll G.E }).E.row = rows0
      rw [restoreSavedHL_scroll, hinv]
    · show (EditorFindCallback { G with E := EditorScroll G.E } buf 27).savedHL = none
      rw [EditorFindCallback_done _ _ _ (Or.inr rfl)]
      exact (restoreSavedHL_fields _).1
  | cons c ks ih =>
    intro G buf hnone hinv
    rw [List.cons_append, EditorPrompt]
    rw [EditorPrompt] at hnone
    simp only [] at hnone ⊢
    by_cases h1 : c = DEL_KEY ∨ c = CTRL_KEY 104 ∨ c = BACKSPACE
    · rw [if_pos h1] at hnone ⊢
      exact ih _ _ hnone ((prompt_round_restore G _ c).trans hinv)
    · rw [if_neg h1] at hnone ⊢
      by_cases h2 : c = 27
      · rw [if_pos h2] at hnone
        exact absurd hnone (by simp)
      · rw [if_neg h2] at hnone ⊢
        by_cases h3 : c = 13
        · rw [if_pos h3] at hnone ⊢
          by_cases h4 : buf.length ≠ 0
          · rw [if_pos h4] at hnone
            exact absurd hnone (by simp)
          · rw [if_neg h4] at hnone ⊢
            exact ih _ _ hnone ((prompt_round_restore G _ c).trans hinv)
        · rw [if_neg h3] at hnone ⊢
          by_cases h5 : iscntrl c = false ∧ c < 128
          · rw [if_pos h5] at hnone ⊢
            exact ih _ _ hnone ((prompt_round_restore G _ c).trans hinv)
          · rw [if_neg h5] at hnone ⊢
            exact ih _ _ hnone ((prompt_round_restore G _ c).trans hinv)

/-- C12: for every editor state with no saved highlight (as it is whenever
`EditorFind` is called) and every sequence of keys `ks` that the search prompt
reads without returning, followed by Escape: `EditorFind` returns, having read
just these keys, with `curX`, `curY`, `rowOff` and `colOff` as they were before
the call, with every row (its highlight tags included) as it was before the
call, and with no saved highlight left. -/
theorem C12_escape_restores_cursor_and_tags (G : EditorGlobals) (ks rest : List Int)
    (hfresh : G.savedHL = none)
    (hopen : EditorPrompt (some EditorFindCallback) ks G [] = none) :
    ∃ G1, EditorFind G (ks ++ 27 :: rest) = some (G1, rest) ∧
      G1.E.curX = G.E.curX ∧ G1.E.curY = G.E.curY ∧
      G1.E.rowOff = G.E.rowOff ∧ G1.E.colOff = G.E.colOff ∧
      G1.E.row = G.E.row ∧
      (∀ i, (G1.E.rowAt i).highlight = (G.E.rowAt i).highlight) ∧
      G1.savedHL = none := by
  obtain ⟨G2, h2, hrow, hsaved⟩ := EditorPrompt_escape rest G.E.row ks G [] hopen
    (by rw [restoreSavedHL_none G hfresh])
  unfold EditorFind
  simp only [h2]
  exact ⟨_, rfl, rfl, rfl, rfl, rfl, hrow, fun i => by unfold EditorConfig.rowAt; rw [hrow],
    hsaved⟩

set_option maxRecDepth 100000 in
theorem C12_escape_restores_cursor_and_tags_witness :
    (initGlobals xaxBuffer).E.curY = 1 ∧
    (EditorFindCallback (initGlobals (EditorScroll xaxBuffer)) (cstr "x") 120).E.curY = 0 ∧
    ((EditorFindCallback (initGlobals (EditorScroll xaxBuffer)) (cstr "x") 120).E.rowAt
      0).highlight = [HL_MATCH] ∧
    ∃ G1, EditorFind (initGlobals xaxBuffer) ([120] ++ 27 :: [13]) = some (G1, [13]) ∧
      G1.E.curX = (initGlobals xaxBuffer).E.curX ∧
      G1.E.curY = (initGlobals xaxBuffer).E.curY ∧
      G1.E.rowOff = (initGlobals xaxBuffer).E.rowOff ∧
      G1.E.colOff = (initGlobals xaxBuffer).E.colOff ∧
      G1.E.row = (initGlobals xaxBuffer).E.row ∧
      (∀ i, (G1.E.rowAt i).highlight = ((initGlobals xaxBuffer).E.rowAt i).highlight) ∧
      G1.savedHL = none :=
  ⟨by decide, by decide, by decide,
    C12_escape_restores_cursor_and_tags (initGlobals xaxBuffer) [120] [13] (by decide)
      (by decide)⟩

/-! ## Theorems: cursor validity -/

theorem rowAt_size (E : EditorConfig) (i : Nat) :
    (E.rowAt i).size = (((E.row.map eRow.chars).getD i []).length : Int) := by
  rw [getD_map_chars]
  rfl

theorem rowAt_size_out (E : EditorConfig) (i : Nat) (h : E.row.length ≤ i) :
    (E.rowAt i).size = 0 := by
  unfold EditorConfig.rowAt
  rw [List.getD_eq_default _ _ h]
  rfl

theorem size_nonneg (r : eRow) : 0 ≤ r.size := Int.ofNat_nonneg _

theorem EditorMoveCursor_eq (E : EditorConfig) (key : Int) :
    EditorMoveCursor E key = clampCurX (moveCore E key) := rfl

theorem moveCore_valid (E : EditorConfig) (key : Int)
    (hy0 : 0 ≤ E.curY) (hy : E.curY ≤ E.numRows) (hx0 : 0 ≤ E.curX) :
    ∃ x y, moveCore E key = { E with curX := x, curY := y } ∧
      0 ≤ y ∧ y ≤ E.numRows ∧ 0 ≤ x ∧ (key = ARROW_RIGHT → E.curY ≤ y) := by
  have hsame : ∃ x y, E = { E with curX := x, curY := y } ∧
      0 ≤ y ∧ y ≤ E.numRows ∧ 0 ≤ x ∧ (key = ARROW_RIGHT → E.curY ≤ y) :=
    ⟨E.curX, E.curY, rfl, hy0, hy, hx0, fun _ => Int.le_refl _⟩
  unfold moveCore
  simp only []
  by_cases hL : key = ARROW_LEFT
  · have hR : key ≠ ARROW_RIGHT := by rw [hL]; decide
    rw [if_pos hL]
    by_cases h1 : E.curX ≠ 0
    · rw [if_pos h1]
      exact ⟨E.curX - 1, E.curY, rfl, hy0, hy, by omega, fun h => absurd h hR⟩
    · rw [if_neg h1]
      by_cases h2 : E.curY > 0
      · rw [if_pos h2]
        exact ⟨_, E.curY - 1, rfl, by omega, by omega, size_nonneg _, fun h => absurd h hR⟩
      · rw [if_neg h2]
        exact hsame
  · rw [if_neg hL]
    by_cases hR : key = ARROW_RIGHT
    · rw [if_pos hR]
      by_cases hrow : E.curY ≥ E.numRows
      · rw [if_pos hrow]
        exact hsame
      · rw [if_neg hrow]
        simp only []
        by_cases h1 : E.curX < (E.rowAt E.curY.toNat).size
        · rw [if_pos h1]
          exact ⟨E.curX + 1, E.curY, rfl, hy0, hy, by omega, fun _ => Int.le_refl _⟩
        · rw [if_neg h1]
          by_cases h2 : E.curX = (E.rowAt E.curY.toNat).size
          · rw [if_pos h2]
            exact ⟨0, E.curY + 1, rfl, by omega, by omega, Int.le_refl _, fun _ => by omega⟩
          · rw [if_neg h2]
            exact hsame
    · rw [if_neg hR]
      by_cases hU : key = ARROW_UP
      · rw [if_pos hU]
        by_cases h1 : E.curY ≠ 0
        · rw [if_pos h1]
          exact ⟨E.curX, E.curY - 1, rfl, by omega, by omega, hx0, fun h => absurd h hR⟩
        · rw [if_neg h1]
          exact hsame
      · rw [if_neg hU]
        by_cases hD : key = ARROW_DOWN
        · rw [if_pos hD]
          by_cases h1 : E.curY < E.numRows
          · rw [if_pos h1]
            exact ⟨E.curX, E.curY + 1, rfl, by omega, by omega, hx0, fun h => absurd h hR⟩
          · rw [if_neg h1]
            exact hsame
        · rw [if_neg hD]
          exact hsame

theorem clampCurX_valid (E : EditorConfig) (hnum : E.numRows = E.row.length)
    (hy0 : 0 ≤ E.curY) (hx0 : 0 ≤ E.curX) :
    ∃ x, clampCurX E = { E with curX := x } ∧ 0 ≤ x ∧ x ≤ (E.rowAt E.curY.toNat).size := by
  have hs := size_nonneg (E.rowAt E.curY.toNat)
  unfold clampCurX
  simp only []
  by_cases hrow : E.curY ≥ E.numRows
  · have h0 : (E.rowAt E.curY.toNat).size = 0 := rowAt_size_out E _ (by omega)
    rw [if_pos hrow]
    by_cases h1 : E.curX > 0
    · rw [if_pos h1]
      exact ⟨0, rfl, Int.le_refl _, hs⟩
    · rw [if_neg h1]
      exact ⟨E.curX, rfl, hx0, by omega⟩
  · rw [if_neg hrow]
    by_cases h1 : E.curX > (E.rowAt E.curY.toNat).size
    · rw [if_pos h1]
      exact ⟨_, rfl, hs, Int.le_refl _⟩
    · rw [if_neg h1]
      exact ⟨E.curX, rfl, hx0, by omega⟩

/-- `EditorMoveCursor` from a state whose `curY` is valid and whose `curX` is
not negative: only the cursor changes, and it is valid afterwards. -/
theorem EditorMoveCursor_valid (E : EditorConfig) (key : Int)
    (hnum : E.numRows = E.row.length) (hy0 : 0 ≤ E.curY) (hy : E.curY ≤ E.numRows)
    (hx0 : 0 ≤ E.curX) :
    ∃ x y, EditorMoveCursor E key = { E with curX := x, curY := y } ∧
      0 ≤ y ∧ y ≤ E.numRows ∧ 0 ≤ x ∧ x ≤ (E.rowAt y.toNat).size ∧
      (key = ARROW_RIGHT → E.curY ≤ y) := by
  obtain ⟨x, y, h1, hy1, hy2, hx1, hr⟩ := moveCore_valid E key hy0 hy hx0
  obtain ⟨x2, h2, hx2, hx3⟩ := clampCurX_valid { E with curX := x, curY := y } hnum hy1 hx1
  rw [EditorMoveCursor_eq, h1, h2]
  exact ⟨x2, y, rfl, hy1, hy2, hx2, hx3, hr⟩

theorem moveCursorTimes_valid (key : Int) : ∀ (n : Nat) (E : EditorConfig),
    0 < n → E.numRows = E.row.length → 0 ≤ E.curY → E.curY ≤ E.numRows → 0 ≤ E.curX →
    ∃ x y, moveCursorTimes key n E = { E with curX := x, curY := y } ∧
      0 ≤ y ∧ y ≤ E.numRows ∧ 0 ≤ x ∧ x ≤ (E.rowAt y.toNat).size := by
  intro n
  induction n with
  | zero => intro E h; exact absurd h (Nat.lt_irrefl 0)
  | succ n ih =>
    intro E _ hnum hy0 hy hx0
    obtain ⟨x, y, h1, hy1, hy2, hx1, hx2, _⟩ := EditorMoveCursor_valid E key hnum hy0 hy hx0
    rw [moveCursorTimes, h1]
    cases n with
    | zero => exact ⟨x, y, rfl, hy1, hy2, hx1, hx2⟩
    | succ n =>
      obtain ⟨x2, y2, h2, hy3, hy4, hx3, hx4⟩ :=
        ih { E with curX := x, curY := y } (Nat.succ_pos n) hnum hy1 hy2 hx1
      rw [h2]
      exact ⟨x2, y2, rfl, hy3, hy4, hx3, hx4⟩

theorem cursorValid_of (E1 : EditorConfig) (cs : List (List Nat))
    (hcs : E1.row.map eRow.chars = cs) (hn : E1.numRows = cs.length) (hy0 : 0 ≤ E1.curY)
    (hy : E1.curY ≤ E1.numRows) (hx0 : 0 ≤ E1.curX)
    (hx : E1.curX ≤ ((cs.getD E1.curY.toNat []).length : Int)) : cursorValid E1 := by
  refine ⟨?_, hy0, hy, hx0, ?_⟩
  · rw [hn, ← hcs, List.length_map]
  · rw [rowAt_size, hcs]
    exact hx

theorem cursorValid_chars (E : EditorConfig) (h : cursorValid E) :
    E.numRows = ((E.row.map eRow.chars).length : Int) ∧
    E.curX ≤ (((E.row.map eRow.chars).getD E.curY.toNat []).length : Int) := by
  refine ⟨by rw [List.length_map]; exact h.1, ?_⟩
  rw [← rowAt_size]
  exact h.2.2.2.2

theorem EditorRowDelChar_chars (E : EditorConfig) (pos : Nat) (col : Int) (h0 : 0 ≤ col)
    (h1 : col < (E.rowAt pos).size) :
    ∃ rows, EditorRowDelChar E pos col = { E with row := rows, dirty := E.dirty + 1 } ∧
      rows.map eRow.chars
        = (E.row.map eRow.chars).set pos ((E.rowAt pos).chars.eraseIdx col.toNat) := by
  unfold EditorRowDelChar
  simp only []
  rw [if_neg (by omega)]
  have hr : ∃ row1 : eRow,
      row1 = { E.rowAt pos with chars := (E.rowAt pos).chars.eraseIdx col.toNat } := ⟨_, rfl⟩
  obtain ⟨row1, hrow1⟩ := hr
  rw [← hrow1]
  obtain ⟨rows, h2, h3, _⟩ := EditorUpdateRow_frame { E with row := E.row.set pos row1 } pos
  rw [h2]
  refine ⟨rows, rfl, ?_⟩
  rw [h3, List.map_set, hrow1]

theorem EditorRowInsertChar_chars (E : EditorConfig) (pos : Nat) (col c : Int) (h0 : 0 ≤ col)
    (h1 : col ≤ (E.rowAt pos).size) :
    ∃ rows, EditorRowInsertChar E pos col c = { E with row := rows, dirty := E.dirty + 1 } ∧
      rows.map eRow.chars
        = (E.row.map eRow.chars).set pos ((E.rowAt pos).chars.take col.toNat
            ++ (c % 256).toNat :: (E.rowAt pos).chars.drop col.toNat) := by
  unfold EditorRowInsertChar
  simp only []
  rw [if_neg (by omega)]
  have hr : ∃ row1 : eRow,
      row1 = { E.rowAt pos with chars := (E.rowAt pos).chars.take col.toNat
        ++ (c % 256).toNat :: (E.rowAt pos).chars.drop col.toNat } := ⟨_, rfl⟩
  obtain ⟨row1, hrow1⟩ := hr
  rw [← hrow1]
  obtain ⟨rows, h2, h3, _⟩ := EditorUpdateRow_frame { E with row := E.row.set pos row1 } pos
  rw [h2]
  refine ⟨rows, rfl, ?_⟩
  rw [h3, List.map_set, hrow1]

theorem EditorDelRow_frame (E : EditorConfig) (pos : Int) :
    (EditorDelRow E pos).rowOff = E.rowOff ∧
    (EditorDelRow E pos).terminalRows = E.terminalRows := by
  unfold EditorDelRow
  split_ifs <;> exact ⟨rfl, rfl⟩

theorem getD_set_self_length (cs : List (List Nat)) (y : Nat) (a : List Nat)
    (h : y < cs.length) : ((cs.set y a).getD y []).length = a.length := by
  rw [getD_set_self _ _ _ _ h]

/-- `EditorDelChar` at a valid cursor at or below `rowOff`: the cursor is valid
afterwards, and `rowOff` is still at most the number of rows. -/
theorem EditorDelChar_valid (E : EditorConfig) (hv : cursorValid E) (hoff : E.rowOff ≤ E.curY) :
    cursorValid (EditorDelChar E) ∧ (EditorDelChar E).rowOff = E.rowOff ∧
    (EditorDelChar E).terminalRows = E.terminalRows ∧
    E.rowOff ≤ (EditorDelChar E).numRows := by
  obtain ⟨hnum, hy0, hy, hx0, hx⟩ := hv
  have hv : cursorValid E := ⟨hnum, hy0, hy, hx0, hx⟩
  unfold EditorDelChar
  by_cases h1 : E.curY = E.numRows
  · rw [if_pos h1]
    exact ⟨hv, rfl, rfl, by omega⟩
  rw [if_neg h1]
  by_cases h2 : E.curX = 0 ∧ E.curY = 0
  · rw [if_pos h2]
    exact ⟨hv, rfl, rfl, by omega⟩
  rw [if_neg h2]
  have hylt : E.curY.toNat < E.row.length := by omega
  have hycs : E.curY.toNat < (E.row.map eRow.chars).length := by rw [List.length_map]; exact hylt
  by_cases h3 : E.curX > 0
  · rw [if_pos h3]
    simp only []
    obtain ⟨rows, h4, h5⟩ := EditorRowDelChar_chars E E.curY.toNat (E.curX - 1) (by omega)
      (by omega)
    rw [h4]
    refine ⟨?_, rfl, rfl, by show E.rowOff ≤ E.numRows; omega⟩
    apply cursorValid_of
    · exact h5
    · show E.numRows = _
      rw [List.length_set, List.length_map]
      exact hnum
    · exact hy0
    · exact hy
    · show 0 ≤ E.curX - 1
      omega
    · show E.curX - 1 ≤ _
      rw [getD_set_self_length _ _ _ hycs, List.length_eraseIdx]
      have hsz : (E.rowAt E.curY.toNat).size = ((E.rowAt E.curY.toNat).chars.length : Int) := rfl
      rw [if_pos (by omega)]
      omega
  · rw [if_neg h3]
    simp only []
    have hx00 : E.curX = 0 := by omega
    have hy1 : 0 < E.curY := by omega
    obtain ⟨rows2, h4, h5⟩ := EditorRowAppendString_frame
      { E with curX := (E.rowAt (E.curY - 1).toNat).size } (E.curY - 1).toNat
      (E.rowAt E.curY.toNat).chars
    rw [h4]
    simp only []
    have h6 := EditorDelRow_chars
      { E with curX := (E.rowAt (E.curY - 1).toNat).size, row := rows2, dirty := E.dirty + 1 }
      E.curY hy0 (by show E.curY < E.numRows; omega)
    have h7 := EditorDelRow_frame
      { E with curX := (E.rowAt (E.curY - 1).toNat).size, row := rows2, dirty := E.dirty + 1 }
      E.curY
    obtain ⟨h6a, h6b, h6c, h6d⟩ := h6
    simp only [] at h6a h6b h6c h6d h7
    rw [h5, List.map_set] at h6b
    simp only [] at h6b
    change (rows2.map eRow.chars) = _ at h5
    refine ⟨?_, h7.1, h7.2, by rw [h6a]; omega⟩
    have hym : (E.curY - 1).toNat < (E.row.map eRow.chars).length := by
      rw [List.length_map]; omega
    apply cursorValid_of
    · exact h6b
    · show (EditorDelRow _ _).numRows = _
      rw [h6a, List.length_append, List.length_take, List.length_drop, List.length_set,
        List.length_map]
      omega
    · show 0 ≤ (EditorDelRow _ _).curY - 1
      rw [h6d]
      show 0 ≤ E.curY - 1
      omega
    · show (EditorDelRow _ _).curY - 1 ≤ (EditorDelRow _ _).numRows
      rw [h6d, h6a]
      show E.curY - 1 ≤ E.numRows - 1
      omega
    · show 0 ≤ (EditorDelRow _ _).curX
      rw [h6c]
      exact size_nonneg _
    · show (EditorDelRow _ _).curX ≤ _
      rw [h6c]
      show (E.rowAt (E.curY - 1).toNat).size ≤ _
      have e1 : ((EditorDelRow
          { E with curX := (E.rowAt (E.curY - 1).toNat).size, row := rows2,
                   dirty := E.dirty + 1 } E.curY).curY - 1).toNat = (E.curY - 1).toNat := by
        rw [h6d]
      simp only [] at e1
      rw [e1, getD_append_left _ _ _ _ (by
        rw [List.length_take, List.length_set]; omega)]
      rw [List.getD_eq_getElem?_getD, List.getElem?_take_of_lt (by omega),
        ← List.getD_eq_getElem?_getD, getD_set_self _ _ _ _ hym]
      show ((E.rowAt (E.curY - 1).toNat).chars.length : Int)
        ≤ (((E.rowAt (E.curY - 1).toNat).chars ++ (E.rowAt E.curY.toNat).chars).length : Int)
      rw [List.length_append]
      push_cast
      omega

theorem insertChar_at (E1 : EditorConfig) (c : Int) (hv : cursorValid E1)
    (hlt : E1.curY < E1.numRows) :
    cursorValid { EditorRowInsertChar E1 E1.curY.toNat E1.curX c with
      curX := (EditorRowInsertChar E1 E1.curY.toNat E1.curX c).curX + 1 } ∧
    (EditorRowInsertChar E1 E1.curY.toNat E1.curX c).rowOff = E1.rowOff ∧
    (EditorRowInsertChar E1 E1.curY.toNat E1.curX c).terminalRows = E1.terminalRows ∧
    (EditorRowInsertChar E1 E1.curY.toNat E1.curX c).numRows = E1.numRows := by
  obtain ⟨hnum, hy0, hy, hx0, hx⟩ := hv
  obtain ⟨rows, h, hc⟩ := EditorRowInsertChar_chars E1 E1.curY.toNat E1.curX c hx0 hx
  rw [h]
  refine ⟨?_, rfl, rfl, rfl⟩
  have hycs : E1.curY.toNat < (E1.row.map eRow.chars).length := by
    rw [List.length_map]; omega
  apply cursorValid_of
  · exact hc
  · show E1.numRows = _
    rw [List.length_set, List.length_map]
    exact hnum
  · exact hy0
  · exact hy
  · show 0 ≤ E1.curX + 1
    omega
  · show E1.curX + 1 ≤ _
    rw [getD_set_self_length _ _ _ hycs, List.length_append, List.length_cons, List.length_take,
      List.length_drop]
    have hsz : (E1.rowAt E1.curY.toNat).size = ((E1.rowAt E1.curY.toNat).chars.length : Int) :=
      rfl
    rw [hsz] at hx
    have e : E1.curX.toNat ⊓ (E1.rowAt E1.curY.toNat).chars.length = E1.curX.toNat :=
      Nat.min_eq_left (by omega)
    rw [e]
    push_cast
    omega

theorem insertRow_at_end_valid (E : EditorConfig) (hv : cursorValid E)
    (hend : E.curY = E.numRows) :
    cursorValid (EditorInsertRow E E.curY []) ∧
    (EditorInsertRow E E.curY []).curY < (EditorInsertRow E E.curY []).numRows ∧
    (EditorInsertRow E E.curY []).curY = E.curY ∧
    (EditorInsertRow E E.curY []).curX = 0 ∧
    (EditorInsertRow E E.curY []).rowOff = E.rowOff ∧
    (EditorInsertRow E E.curY []).terminalRows = E.terminalRows ∧
    (EditorInsertRow E E.curY []).numRows = E.numRows + 1 := by
  obtain ⟨hnum, hy0, hy, hx0, hx⟩ := hv
  have hx00 : E.curX = 0 := by
    have := rowAt_size_out E E.curY.toNat (by omega)
    omega
  obtain ⟨rows, h, hc⟩ := EditorInsertRow_chars E E.curY [] hy0 hy
  rw [h]
  refine ⟨?_, by show E.curY < E.numRows + 1; omega, rfl, hx00, rfl, rfl, rfl⟩
  apply cursorValid_of
  · exact hc
  · show E.numRows + 1 = _
    rw [List.length_append, List.length_cons, List.length_take, List.length_drop,
      List.length_map]
    have e : E.curY.toNat ⊓ E.row.length = E.curY.toNat := Nat.min_eq_left (by omega)
    rw [e]
    push_cast
    omega
  · exact hy0
  · show E.curY ≤ E.numRows + 1
    omega
  · exact hx0
  · show E.curX ≤ _
    rw [hx00]
    exact Int.ofNat_nonneg _

/-- `EditorInsertChar` at a valid cursor: the cursor is valid afterwards. -/
theorem EditorInsertChar_valid (E : EditorConfig) (c : Int) (hv : cursorValid E) :
    cursorValid (EditorInsertChar E c) ∧ (EditorInsertChar E c).rowOff = E.rowOff ∧
    (EditorInsertChar E c).terminalRows = E.terminalRows ∧
    E.numRows ≤ (EditorInsertChar E c).numRows := by
  by_cases hend : E.curY = E.numRows
  · obtain ⟨h1, h2, _, _, h5, h6, h7⟩ := insertRow_at_end_valid E hv hend
    have h := insertChar_at (EditorInsertRow E E.curY []) c h1 h2
    have e : EditorInsertChar E c = { EditorRowInsertChar (EditorInsertRow E E.curY [])
        (EditorInsertRow E E.curY []).curY.toNat (EditorInsertRow E E.curY []).curX c with
        curX := (EditorRowInsertChar (EditorInsertRow E E.curY [])
          (EditorInsertRow E E.curY []).curY.toNat (EditorInsertRow E E.curY []).curX c).curX
            + 1 } := by
      unfold EditorInsertChar
      simp only []
      rw [if_pos hend, ← hend]
    rw [e]
    refine ⟨h.1, h.2.1.trans h5, h.2.2.1.trans h6, ?_⟩
    show E.numRows ≤ (EditorRowInsertChar _ _ _ c).numRows
    rw [h.2.2.2, h7]
    omega
  · have h := insertChar_at E c hv (by have := hv.2.2.1; omega)
    have e : EditorInsertChar E c = { EditorRowInsertChar E E.curY.toNat E.curX c with
        curX := (EditorRowInsertChar E E.curY.toNat E.curX c).curX + 1 } := by
      unfold EditorInsertChar
      simp only []
      rw [if_neg hend]
    rw [e]
    refine ⟨h.1, h.2.1, h.2.2.1, ?_⟩
    show E.numRows ≤ (EditorRowInsertChar _ _ _ c).numRows
    rw [h.2.2.2]

/-- `EditorInsertNewline` at a valid cursor: the cursor is valid afterwards. -/
theorem EditorInsertNewline_valid (E : EditorConfig) (hv : cursorValid E) :
    cursorValid (EditorInsertNewline E) ∧ (EditorInsertNewline E).rowOff = E.rowOff ∧
    (EditorInsertNewline E).terminalRows = E.terminalRows ∧
    E.numRows ≤ (EditorInsertNewline E).numRows := by
  by_cases hend : E.curY = E.numRows
  · obtain ⟨h1, _, h3, h4, h5, h6, h7⟩ := insertRow_at_end_valid E hv hend
    have hx00 : E.curX = 0 := by
      have := rowAt_size_out E E.curY.toNat (by have := hv.1; have := hv.2.1; omega)
      have := hv.2.2.2
      omega
    have e : EditorInsertNewline E = { EditorInsertRow E E.curY [] with
        curY := (EditorInsertRow E E.curY []).curY + 1, curX := 0 } := by
      unfold EditorInsertNewline
      simp only []
      rw [if_pos hx00]
    rw [e]
    refine ⟨⟨h1.1, ?_, ?_, Int.le_refl _, size_nonneg _⟩, h5, h6, ?_⟩
    · show 0 ≤ (EditorInsertRow E E.curY []).curY + 1
      have := h1.2.1
      omega
    · show (EditorInsertRow E E.curY []).curY + 1 ≤ (EditorInsertRow E E.curY []).numRows
      rw [h3, h7]
      omega
    · show E.numRows ≤ (EditorInsertRow E E.curY []).numRows
      rw [h7]
      omega
  · obtain ⟨hnum, hy0, hy, hx0, hx⟩ := hv
    obtain ⟨hc, hn, hcx, hcy, hro, htr⟩ :=
      EditorInsertNewline_spec E hnum hy0 (by omega) hx0
    refine ⟨?_, hro, htr, by rw [hn]; omega⟩
    apply cursorValid_of
    · exact hc
    · rw [hn, List.length_append, List.length_cons, List.length_cons, List.length_take,
        List.length_drop, List.length_map]
      have e : E.curY.toNat ⊓ E.row.length = E.curY.toNat := Nat.min_eq_left (by omega)
      rw [e]
      push_cast
      omega
    · rw [hcy]
      omega
    · rw [hcy, hn]
      omega
    · rw [hcx]
    · rw [hcx]
      exact Int.ofNat_nonneg _

theorem EditorScroll_valid (E : EditorConfig) (hv : cursorValid E) (h0 : 0 ≤ E.rowOff)
    (htr : 1 ≤ E.terminalRows) :
    cursorValid (EditorScroll E) ∧ 0 ≤ (EditorScroll E).rowOff ∧
    (EditorScroll E).rowOff ≤ (EditorScroll E).curY ∧
    (EditorScroll E).terminalRows = E.terminalRows := by
  have hy0 := hv.2.1
  rw [EditorScroll_eq]
  refine ⟨hv, ?_, ?_, rfl⟩
  · simp only []
    split_ifs <;> omega
  · simp only []
    split_ifs <;> omega

theorem cursorValid_end (E : EditorConfig) (hv : cursorValid E) (h : E.curY = E.numRows) :
    E.curX = 0 := by
  have := rowAt_size_out E E.curY.toNat (by have := hv.1; have := hv.2.1; omega)
  have := hv.2.2.2
  omega

theorem returned_valid (G : EditorGlobals) (E1 : EditorConfig) (rest : List Int)
    (hv : cursorValid E1) (h0 : 0 ≤ E1.rowOff) (h1 : E1.rowOff ≤ E1.numRows)
    (htr : 1 ≤ E1.terminalRows) :
    ∃ G1, KeyResult.returned { G with E := E1, quitTimes := JEDITOR_QUIT_TIMES } rest
        = KeyResult.returned G1 rest ∧
      cursorValid G1.E ∧ 0 ≤ G1.E.rowOff ∧ G1.E.rowOff ≤ G1.E.numRows ∧
      1 ≤ G1.E.terminalRows :=
  ⟨_, rfl, hv, h0, h1, htr⟩

/-- `EditorProcessKeypress` on a key that neither exits nor opens a prompt, from
a valid cursor at or below a `rowOff` that is not negative: the call returns,
and the cursor is valid afterwards. -/
theorem keypress_valid (G : EditorGlobals) (c : Int) (rest : List Int) (writeOk : Bool)
    (hv : cursorValid G.E) (h0 : 0 ≤ G.E.rowOff) (h1 : G.E.rowOff ≤ G.E.curY)
    (htr : 1 ≤ G.E.terminalRows)
    (hq : c ≠ CTRL_KEY 113) (hs : c ≠ CTRL_KEY 115) (hf : c ≠ CTRL_KEY 102) :
    ∃ G1, EditorProcessKeypress G (c :: rest) writeOk = KeyResult.returned G1 rest ∧
      cursorValid G1.E ∧ 0 ≤ G1.E.rowOff ∧ G1.E.rowOff ≤ G1.E.numRows ∧
      1 ≤ G1.E.terminalRows := by
  obtain ⟨hnum, hy0, hy, hx0, hx⟩ := hv
  have hv : cursorValid G.E := ⟨hnum, hy0, hy, hx0, hx⟩
  have hoff : G.E.rowOff ≤ G.E.numRows := by omega
  unfold EditorProcessKeypress
  simp only [if_neg hq, if_neg hs, if_neg hf]
  by_cases k1 : c = 13
  · rw [if_pos k1]
    obtain ⟨a1, a2, a3, a4⟩ := EditorInsertNewline_valid G.E hv
    exact returned_valid G _ rest a1 (by rw [a2]; exact h0) (by rw [a2]; omega)
      (by rw [a3]; exact htr)
  rw [if_neg k1]
  by_cases k3 : c = HOME_KEY
  · rw [if_pos k3]
    exact returned_valid G _ rest ⟨hnum, hy0, hy, Int.le_refl _, size_nonneg _⟩ h0 hoff htr
  rw [if_neg k3]
  by_cases k4 : c = END_KEY
  · rw [if_pos k4]
    by_cases hlt : G.E.curY < G.E.numRows
    · rw [if_pos hlt]
      exact returned_valid G _ rest ⟨hnum, hy0, hy, size_nonneg _, Int.le_refl _⟩ h0 hoff htr
    · rw [if_neg hlt]
      exact returned_valid G _ rest hv h0 hoff htr
  rw [if_neg k4]
  by_cases k6 : c = BACKSPACE ∨ c = CTRL_KEY 104 ∨ c = DEL_KEY
  · rw [if_pos k6]
    by_cases kd : c = DEL_KEY
    · rw [if_pos kd]
      obtain ⟨x, y, e, b1, b2, b3, b4, b5⟩ :=
        EditorMoveCursor_valid G.E ARROW_RIGHT hnum hy0 hy hx0
      rw [e]
      have hxy : cursorValid { G.E with curX := x, curY := y } := ⟨hnum, b1, b2, b3, b4⟩
      have hoy : G.E.rowOff ≤ y := by have := b5 rfl; omega
      obtain ⟨a1, a2, a3, a4⟩ := EditorDelChar_valid { G.E with curX := x, curY := y } hxy hoy
      exact returned_valid G _ rest a1 (by rw [a2]; exact h0) (by rw [a2]; exact a4)
        (by rw [a3]; exact htr)
    · rw [if_neg kd]
      obtain ⟨a1, a2, a3, a4⟩ := EditorDelChar_valid G.E hv h1
      exact returned_valid G _ rest a1 (by rw [a2]; exact h0) (by rw [a2]; exact a4)
        (by rw [a3]; exact htr)
  rw [if_neg k6]
  by_cases k7 : c = PAGE_UP ∨ c = PAGE_DOWN
  · rw [if_pos k7]
    have hn : 0 < G.E.terminalRows.toNat := by omega
    by_cases ku : c = PAGE_UP
    · simp only [if_pos ku]
      obtain ⟨x, y, e, b1, b2, b3, b4⟩ := moveCursorTimes_valid ARROW_UP G.E.terminalRows.toNat
        { G.E with curY := G.E.rowOff } hn hnum h0 hoff hx0
      rw [e]
      exact returned_valid G _ rest ⟨hnum, b1, b2, b3, b4⟩ h0 hoff htr
    · simp only [if_neg ku]
      by_cases hgt : G.E.rowOff + G.E.terminalRows - 1 > G.E.numRows
      · simp only [if_pos hgt]
        have hN : 0 ≤ G.E.numRows := by omega
        obtain ⟨x, y, e, b1, b2, b3, b4⟩ := moveCursorTimes_valid ARROW_DOWN
          G.E.terminalRows.toNat { G.E with curY := G.E.numRows } hn hnum hN (Int.le_refl _) hx0
        rw [e]
        exact returned_valid G _ rest ⟨hnum, b1, b2, b3, b4⟩ h0 hoff htr
      · simp only [if_neg hgt]
        have hp0 : 0 ≤ G.E.rowOff + G.E.terminalRows - 1 := by omega
        have hp1 : G.E.rowOff + G.E.terminalRows - 1 ≤ G.E.numRows := by omega
        obtain ⟨x, y, e, b1, b2, b3, b4⟩ := moveCursorTimes_valid ARROW_DOWN
          G.E.terminalRows.toNat { G.E with curY := G.E.rowOff + G.E.terminalRows - 1 }
          hn hnum hp0 hp1 hx0
        rw [e]
        exact returned_valid G _ rest ⟨hnum, b1, b2, b3, b4⟩ h0 hoff htr
  rw [if_neg k7]
  by_cases k8 : c = ARROW_UP ∨ c = ARROW_DOWN ∨ c = ARROW_LEFT ∨ c = ARROW_RIGHT
  · rw [if_pos k8]
    obtain ⟨x, y, e, b1, b2, b3, b4, _⟩ := EditorMoveCursor_valid G.E c hnum hy0 hy hx0
    rw [e]
    exact returned_valid G _ rest ⟨hnum, b1, b2, b3, b4⟩ h0 hoff htr
  rw [if_neg k8]
  by_cases k9 : c = CTRL_KEY 108 ∨ c = 27
  · rw [if_pos k9]
    exact returned_valid G _ rest hv h0 hoff htr
  rw [if_neg k9]
  obtain ⟨a1, a2, a3, a4⟩ := EditorInsertChar_valid G.E c hv
  exact returned_valid G _ rest a1 (by rw [a2]; exact h0) (by rw [a2]; omega)
    (by rw [a3]; exact htr)

/-- C17: cursor validity is an invariant of the key-handling step.  From every
state with `numRows` rows in the array, `0 ≤ curY ≤ numRows`,
`0 ≤ curX ≤ size` of row `curY` (the row past the end has size 0, so `curX = 0`
there), `0 ≤ rowOff` and `terminalRows ≥ 1`, `EditorScroll` followed by
`EditorProcessKeypress` on any decoded key other than Ctrl-Q, Ctrl-S and
Ctrl-F (the arrows, Home, End, PageUp, PageDown, Enter, Backspace, Ctrl-H,
Delete, ESC, Ctrl-L and every inserted character) returns, having read that
key, in a state where again `0 ≤ curY ≤ numRows` and `0 ≤ curX ≤ size` of row
`curY`, with `curX = 0` on the line past the end, and where the other
conditions hold again too (`numRows` rows in the array,
`0 ≤ rowOff ≤ numRows`, `terminalRows ≥ 1`).  The initial editor state is such
a state on every terminal of at least three lines. -/
theorem C17_key_step_keeps_cursor_valid (G : EditorGlobals) (c : Int) (rest : List Int)
    (writeOk : Bool)
    (hnum : G.E.numRows = G.E.row.length)
    (hy0 : 0 ≤ G.E.curY) (hy : G.E.curY ≤ G.E.numRows)
    (hx0 : 0 ≤ G.E.curX) (hx : G.E.curX ≤ (G.E.rowAt G.E.curY.toNat).size)
    (hoff : 0 ≤ G.E.rowOff) (htr : 1 ≤ G.E.terminalRows)
    (hq : c ≠ CTRL_KEY 113) (hs : c ≠ CTRL_KEY 115) (hf : c ≠ CTRL_KEY 102) :
    (∃ G1, EditorProcessKeypress { G with E := EditorScroll G.E } (c :: rest) writeOk
        = KeyResult.returned G1 rest ∧
      0 ≤ G1.E.curY ∧ G1.E.curY ≤ G1.E.numRows ∧
      0 ≤ G1.E.curX ∧ G1.E.curX ≤ (G1.E.rowAt G1.E.curY.toNat).size ∧
      (G1.E.curY = G1.E.numRows → G1.E.curX = 0) ∧
      G1.E.numRows = G1.E.row.length ∧
      0 ≤ G1.E.rowOff ∧ G1.E.rowOff ≤ G1.E.numRows ∧ 1 ≤ G1.E.terminalRows) ∧
    (∀ rows cols : Int, 3 ≤ rows →
      (InitEditor rows cols).numRows = (InitEditor rows cols).row.length ∧
      (InitEditor rows cols).curY = 0 ∧ (InitEditor rows cols).numRows = 0 ∧
      (InitEditor rows cols).curX = 0 ∧ (InitEditor rows cols).rowOff = 0 ∧
      1 ≤ (InitEditor rows cols).terminalRows) := by
  constructor
  · obtain ⟨s1, s2, s3, s4⟩ := EditorScroll_valid G.E ⟨hnum, hy0, hy, hx0, hx⟩ hoff htr
    obtain ⟨G1, e, v, r0, r1, r2⟩ := keypress_valid { G with E := EditorScroll G.E } c rest
      writeOk s1 s2 s3 (by show 1 ≤ (EditorScroll G.E).terminalRows; rw [s4]; exact htr) hq hs hf
    exact ⟨G1, e, v.2.1, v.2.2.1, v.2.2.2.1, v.2.2.2.2, cursorValid_end G1.E v, v.1, r0, r1, r2⟩
  · intro rows cols h
    refine ⟨rfl, rfl, rfl, rfl, rfl, ?_⟩
    show 1 ≤ rows - 2
    omega

set_option maxRecDepth 100000 in
theorem C17_key_step_keeps_cursor_valid_witness :
    (∃ G1, EditorProcessKeypress
        { initGlobals (InitEditor 24 80) with E := EditorScroll (InitEditor 24 80) }
        (97 :: []) true = KeyResult.returned G1 [] ∧
      0 ≤ G1.E.curY ∧ G1.E.curY ≤ G1.E.numRows ∧
      0 ≤ G1.E.curX ∧ G1.E.curX ≤ (G1.E.rowAt G1.E.curY.toNat).size ∧
      (G1.E.curY = G1.E.numRows → G1.E.curX = 0) ∧
      G1.E.numRows = G1.E.row.length ∧
      0 ≤ G1.E.rowOff ∧ G1.E.rowOff ≤ G1.E.numRows ∧ 1 ≤ G1.E.terminalRows) ∧
    (∃ G1, EditorProcessKeypress
        { initGlobals { blockCommentBuffer with curX := 6 } with
          E := EditorScroll { blockCommentBuffer with curX := 6 } }
        (DEL_KEY :: [13]) true = KeyResult.returned G1 [13] ∧
      0 ≤ G1.E.curY ∧ G1.E.curY ≤ G1.E.numRows ∧
      0 ≤ G1.E.curX ∧ G1.E.curX ≤ (G1.E.rowAt G1.E.curY.toNat).size ∧
      (G1.E.curY = G1.E.numRows → G1.E.curX = 0) ∧
      G1.E.numRows = G1.E.row.length ∧
      0 ≤ G1.E.rowOff ∧ G1.E.rowOff ≤ G1.E.numRows ∧ 1 ≤ G1.E.terminalRows) :=
  ⟨(C17_key_step_keeps_cursor_valid (initGlobals (InitEditor 24 80)) 97 [] true (by decide)
      (by decide) (by decide) (by decide) (by decide) (by decide) (by decide) (by decide)
      (by decide) (by decide)).1,
    (C17_key_step_keeps_cursor_valid (initGlobals { blockCommentBuffer with curX := 6 })
      DEL_KEY [13] true (by decide) (by decide) (by decide) (by decide) (by decide) (by decide)
      (by decide) (by decide) (by decide) (by decide)).1⟩

/-! ## Theorems: row numbering -/

theorem rowsNumbered_of_map_idx (rows rows1 : List eRow)
    (h : rows1.map eRow.idx = rows.map eRow.idx) (hn : rowsNumbered rows) :
    rowsNumbered rows1 := by
  have hlen : rows1.length = rows.length := by
    have := congrArg List.length h
    simpa using this
  intro j hj
  have h1 : (rows1.map eRow.idx)[j]? = (rows.map eRow.idx)[j]? := by rw [h]
  have h2 := hn j (by omega)
  rw [List.getD_eq_getElem?_getD] at h2 ⊢
  rw [List.getElem?_map, List.getElem?_map] at h1
  rw [List.getElem?_eq_getElem (show j < rows.length by omega)] at h1 h2
  rw [List.getElem?_eq_getElem hj] at h1 ⊢
  simp only [Option.map_some', Option.some.injEq, Option.getD_some] at h1 h2 ⊢
  rw [h1, h2]

theorem rowsNumbered_insert (rows : List eRow) (p : Nat) (r : eRow) (hp : p ≤ rows.length)
    (hr : r.idx = (p : Int)) (hn : rowsNumbered rows) :
    rowsNumbered (rows.take p ++ r :: (rows.drop p).map (fun x => { x with idx := x.idx + 1 })) := by
  intro j hj
  simp only [List.length_append, List.length_take, List.length_cons, List.length_map,
    List.length_drop] at hj
  rw [List.getD_eq_getElem?_getD]
  rcases Nat.lt_trichotomy j p with h | h | h
  · rw [List.getElem?_append_left (by rw [List.length_take]; omega), List.getElem?_take_of_lt h]
    have := hn j (by omega)
    rw [List.getD_eq_getElem?_getD] at this
    exact this
  · subst h
    rw [List.getElem?_append_right (by rw [List.length_take]; omega), List.length_take,
      Nat.min_eq_left hp, Nat.sub_self]
    simpa using hr
  · rw [List.getElem?_append_right (by rw [List.length_take]; omega), List.length_take,
      Nat.min_eq_left hp]
    obtain ⟨k, rfl⟩ : ∃ k, j = p + 1 + k := ⟨j - (p + 1), by omega⟩
    rw [show p + 1 + k - p = k + 1 by omega, List.getElem?_cons_succ, List.getElem?_map,
      List.getElem?_drop]
    have := hn (p + k) (by omega)
    rw [List.getD_eq_getElem?_getD, List.getElem?_eq_getElem (by omega)] at this
    rw [List.getElem?_eq_getElem (by omega)]
    simp only [Option.getD_some, Option.map_some'] at this ⊢
    rw [this]
    push_cast
    omega

theorem rowsNumbered_delete (rows : List eRow) (p : Nat) (hn : rowsNumbered rows) :
    rowsNumbered (rows.take p ++ (rows.drop (p + 1)).map (fun x => { x with idx := x.idx - 1 })) := by
  intro j hj
  simp only [List.length_append, List.length_take, List.length_map, List.length_drop] at hj
  rw [List.getD_eq_getElem?_getD]
  by_cases h : j < p
  · rw [List.getElem?_append_left (by rw [List.length_take]; omega), List.getElem?_take_of_lt h]
    have := hn j (by omega)
    rw [List.getD_eq_getElem?_getD] at this
    exact this
  · have hp : p ≤ rows.length := by omega
    rw [List.getElem?_append_right (by rw [List.length_take]; omega), List.length_take,
      Nat.min_eq_left hp]
    obtain ⟨k, rfl⟩ : ∃ k, j = p + k := ⟨j - p, by omega⟩
    rw [show p + k - p = k by omega, List.getElem?_map, List.getElem?_drop]
    have := hn (p + 1 + k) (by omega)
    rw [List.getD_eq_getElem?_getD, List.getElem?_eq_getElem (by omega)] at this
    rw [List.getElem?_eq_getElem (by omega)]
    simp only [Option.getD_some, Option.map_some'] at this ⊢
    rw [this]
    push_cast
    omega

/-- C21: row numbering is an invariant of the row operations.  If the array
has `numRows` rows and every row at position `j` has `idx = j`, then after
`EditorInsertRow(at, text)` and after `EditorDelRow(at)`, for any integer `at`,
every row at position `j` again has `idx = j` and the array has `numRows` rows;
for `0 ≤ at ≤ numRows` insertion gives the logical contents
`rows[0..at) ++ [text] ++ rows[at..)` with `numRows + 1`; for `0 ≤ at < numRows`
deletion gives `rows[0..at) ++ rows[at+1..)` with `numRows - 1`, every row that
is left unchanged but for its `idx`; and for any other `at` the whole state,
with the rows, `numRows` and `dirty`, is unchanged. -/
theorem C21_row_numbering_invariant (E : EditorConfig) (pos : Int) (str : List Nat)
    (hnum : E.numRows = E.row.length) (hidx : rowsNumbered E.row) :
    (rowsNumbered (EditorInsertRow E pos str).row ∧
      (EditorInsertRow E pos str).numRows = (EditorInsertRow E pos str).row.length) ∧
    (rowsNumbered (EditorDelRow E pos).row ∧
      (EditorDelRow E pos).numRows = (EditorDelRow E pos).row.length) ∧
    (0 ≤ pos → pos ≤ E.numRows →
      (EditorInsertRow E pos str).row.map eRow.chars
        = (E.row.map eRow.chars).take pos.toNat ++ str :: (E.row.map eRow.chars).drop pos.toNat ∧
      (EditorInsertRow E pos str).numRows = E.numRows + 1) ∧
    (0 ≤ pos → pos < E.numRows →
      (EditorDelRow E pos).row.map eRow.chars
        = (E.row.map eRow.chars).take pos.toNat ++ (E.row.map eRow.chars).drop (pos.toNat + 1) ∧
      (EditorDelRow E pos).row.map (fun r => (r.chars, r.render, r.highlight, r.hlOpenComment))
        = (E.row.take pos.toNat ++ E.row.drop (pos.toNat + 1)).map
            (fun r => (r.chars, r.render, r.highlight, r.hlOpenComment)) ∧
      (EditorDelRow E pos).numRows = E.numRows - 1) ∧
    (pos < 0 ∨ pos > E.numRows → EditorInsertRow E pos str = E) ∧
    (pos < 0 ∨ pos ≥ E.numRows → EditorDelRow E pos = E) := by
  refine ⟨?_, ?_, ?_, ?_, ?_, ?_⟩
  · by_cases h : pos < 0 ∨ pos > E.numRows
    · have e : EditorInsertRow E pos str = E := by unfold EditorInsertRow; rw [if_pos h]
      rw [e]
      exact ⟨hidx, hnum⟩
    · have hp : pos.toNat ≤ E.row.length := by omega
      unfold EditorInsertRow
      rw [if_neg h]
      simp only []
      have hr : ∃ rows0 : List eRow, rows0 = E.row.take pos.toNat
          ++ (⟨pos, str, [], [], false⟩ : eRow)
            :: (E.row.drop pos.toNat).map (fun r => { r with idx := r.idx + 1 }) := ⟨_, rfl⟩
      obtain ⟨rows0, hrows0⟩ := hr
      rw [← hrows0]
      have hn0 : rowsNumbered rows0 := by
        rw [hrows0]
        exact rowsNumbered_insert E.row pos.toNat _ hp (by show pos = _; omega) hidx
      obtain ⟨rows, h2, h3, h4⟩ := EditorUpdateRow_frame { E with row := rows0 } pos.toNat
      rw [h2]
      refine ⟨rowsNumbered_of_map_idx rows0 rows h4 hn0, ?_⟩
      show E.numRows + 1 = (rows.length : Int)
      have hl : rows.length = rows0.length := by
        have := congrArg List.length h4
        simpa using this
      rw [hl, hrows0]
      simp only [List.length_append, List.length_take, List.length_cons, List.length_map,
        List.length_drop]
      omega
  · by_cases h : pos < 0 ∨ pos ≥ E.numRows
    · have e : EditorDelRow E pos = E := by unfold EditorDelRow; rw [if_pos h]
      rw [e]
      exact ⟨hidx, hnum⟩
    · unfold EditorDelRow
      rw [if_neg h]
      refine ⟨rowsNumbered_delete E.row pos.toNat hidx, ?_⟩
      show E.numRows - 1 = _
      simp only [List.length_append, List.length_take, List.length_map, List.length_drop]
      omega
  · intro h0 h1
    obtain ⟨rows, h2, h3⟩ := EditorInsertRow_chars E pos str h0 h1
    rw [h2]
    exact ⟨h3, rfl⟩
  · intro h0 h1
    have h := EditorDelRow_chars E pos h0 h1
    refine ⟨h.2.1, ?_, h.1⟩
    unfold EditorDelRow
    rw [if_neg (by omega)]
    simp only [List.map_append, List.map_map]
    rfl
  · intro h
    unfold EditorInsertRow
    rw [if_pos h]
  · intro h
    unfold EditorDelRow
    rw [if_pos h]

set_option maxRecDepth 100000 in
theorem C21_row_numbering_invariant_witness :
    rowsNumbered (EditorInsertRow blockCommentBuffer 1 (cstr "int x;")).row ∧
    rowsNumbered (EditorDelRow blockCommentBuffer 0).row ∧
    (EditorInsertRow blockCommentBuffer 1 (cstr "int x;")).row.map eRow.chars
      = [cstr "a /* b", cstr "int x;", cstr "c */ d"] ∧
    (EditorDelRow blockCommentBuffer 0).row.map eRow.chars = [cstr "c */ d"] ∧
    EditorInsertRow blockCommentBuffer 3 (cstr "int x;") = blockCommentBuffer ∧
    EditorDelRow blockCommentBuffer 2 = blockCommentBuffer :=
  ⟨(C21_row_numbering_invariant blockCommentBuffer 1 (cstr "int x;") (by decide) (by decide)).1.1,
    (C21_row_numbering_invariant blockCommentBuffer 0 [] (by decide) (by decide)).2.1.1,
    ((C21_row_numbering_invariant blockCommentBuffer 1 (cstr "int x;") (by decide)
      (by decide)).2.2.1 (by decide) (by decide)).1,
    ((C21_row_numbering_invariant blockCommentBuffer 0 [] (by decide) (by decide)).2.2.2.1
      (by decide) (by decide)).1,
    (C21_row_numbering_invariant blockCommentBuffer 3 (cstr "int x;") (by decide)
      (by decide)).2.2.2.2.1 (by decide),
    (C21_row_numbering_invariant blockCommentBuffer 2 [] (by decide) (by decide)).2.2.2.2.2
      (by decide)⟩

/-! ## Theorems: a newline undone by a deletion -/

/-- `EditorDelChar` at the start of a row that has a row above it: the two rows
are joined. -/
theorem EditorDelChar_merge (E : EditorConfig) (hx : E.curX = 0)
    (hy0 : 0 < E.curY) (hy : E.curY < E.numRows) (hnum : E.numRows = E.row.length) :
    (EditorDelChar E).row.map eRow.chars
        = (E.row.map eRow.chars).take (E.curY.toNat - 1)
          ++ ((E.rowAt (E.curY.toNat - 1)).chars ++ (E.rowAt E.curY.toNat).chars)
            :: (E.row.map eRow.chars).drop (E.curY.toNat + 1) ∧
    (EditorDelChar E).numRows = E.numRows - 1 ∧
    (EditorDelChar E).curX = (E.rowAt (E.curY.toNat - 1)).size ∧
    (EditorDelChar E).curY = E.curY - 1 := by
  have hym : (E.curY - 1).toNat = E.curY.toNat - 1 := by omega
  unfold EditorDelChar
  rw [if_neg (by omega), if_neg (by omega), if_neg (by omega)]
  simp only []
  obtain ⟨rows2, h4, h5⟩ := EditorRowAppendString_frame
    { E with curX := (E.rowAt (E.curY - 1).toNat).size } (E.curY - 1).toNat
    (E.rowAt E.curY.toNat).chars
  rw [h4]
  simp only []
  obtain ⟨h6a, h6b, h6c, h6d⟩ := EditorDelRow_chars
    { E with curX := (E.rowAt (E.curY - 1).toNat).size, row := rows2, dirty := E.dirty + 1 }
    E.curY (by omega) (by show E.curY < E.numRows; omega)
  simp only [] at h6a h6b h6c h6d
  refine ⟨?_, h6a, ?_, ?_⟩
  · show (EditorDelRow _ _).row.map eRow.chars = _
    rw [h6b, h5, List.map_set]
    simp only []
    rw [hym]
    have hlen : E.curY.toNat < (E.row.map eRow.chars).length := by
      rw [List.length_map]; omega
    exact take_drop_set_merge (E.row.map eRow.chars) E.curY.toNat _ (by omega) hlen
  · show (EditorDelRow _ _).curX = _
    rw [h6c, hym]
  · show (EditorDelRow _ _).curY - 1 = _
    rw [h6d]

theorem take_cons_cons_drop_merge {α : Type} (l : List (List α)) (y x : Nat)
    (hy : y < l.length) :
    (l.take y ++ (l.getD y []).take x :: (l.getD y []).drop x :: l.drop (y + 1)).take y
        ++ (((l.getD y []).take x) ++ ((l.getD y []).drop x))
          :: (l.take y ++ (l.getD y []).take x :: (l.getD y []).drop x :: l.drop (y + 1)).drop
              (y + 2)
      = l := by
  have h1 : (l.take y).length = y := by rw [List.length_take]; omega
  have h2 : (l.take y ++ [(l.getD y []).take x, (l.getD y []).drop x]).length = y + 2 := by
    rw [List.length_append, h1]; rfl
  have e : l.take y ++ (l.getD y []).take x :: (l.getD y []).drop x :: l.drop (y + 1)
      = (l.take y ++ [(l.getD y []).take x, (l.getD y []).drop x]) ++ l.drop (y + 1) := by
    simp
  rw [List.take_left' h1]
  rw [e, List.drop_left' h2, List.take_append_drop, List.getD_eq_getElem _ _ hy,
    ← List.drop_eq_getElem_cons hy, List.take_append_drop]

/-- C25: for every buffer and every cursor `(x, y)` with `y < numRows` and
`0 ≤ x ≤ size of row y`, `EditorInsertNewline` followed by `EditorDelChar`
gives back the row count, the logical content of every row and the cursor
position `(x, y)` from before the newline was inserted. -/
theorem C25_newline_then_delete_restores (E : EditorConfig)
    (hnum : E.numRows = E.row.length) (hy0 : 0 ≤ E.curY) (hy : E.curY < E.numRows)
    (hx0 : 0 ≤ E.curX) (hx : E.curX ≤ (E.rowAt E.curY.toNat).size) :
    (EditorDelChar (EditorInsertNewline E)).numRows = E.numRows ∧
    (EditorDelChar (EditorInsertNewline E)).row.map eRow.chars = E.row.map eRow.chars ∧
    (∀ j, ((EditorDelChar (EditorInsertNewline E)).rowAt j).chars = (E.rowAt j).chars) ∧
    (EditorDelChar (EditorInsertNewline E)).curX = E.curX ∧
    (EditorDelChar (EditorInsertNewline E)).curY = E.curY := by
  obtain ⟨hc, hn, hcx, hcy, _, _⟩ := EditorInsertNewline_spec E hnum hy0 hy hx0
  have hylen : E.curY.toNat < (E.row.map eRow.chars).length := by
    rw [List.length_map]; omega
  have hlen1 : ((EditorInsertNewline E).row.map eRow.chars).length = E.row.length + 1 := by
    rw [hc, List.length_append, List.length_cons, List.length_cons, List.length_take,
      List.length_drop, List.length_map]
    omega
  have hnum1 : (EditorInsertNewline E).numRows = (EditorInsertNewline E).row.length := by
    rw [hn, hnum]
    rw [List.length_map] at hlen1
    rw [hlen1]
    push_cast
    rfl
  obtain ⟨m1, m2, m3, m4⟩ := EditorDelChar_merge (EditorInsertNewline E) hcx
    (by rw [hcy]; omega) (by rw [hcy, hn]; omega) hnum1
  have hyy : (EditorInsertNewline E).curY.toNat = E.curY.toNat + 1 := by rw [hcy]; omega
  obtain ⟨g1, g2, _, _⟩ := getD_take_cons_cons_drop (E.row.map eRow.chars) E.curY.toNat
    ((E.rowAt E.curY.toNat).chars.take E.curX.toNat)
    ((E.rowAt E.curY.toNat).chars.drop E.curX.toNat) [] hylen
  have r1 : ((EditorInsertNewline E).rowAt E.curY.toNat).chars
      = (E.rowAt E.curY.toNat).chars.take E.curX.toNat := by
    show ((EditorInsertNewline E).row.getD E.curY.toNat default).chars = _
    rw [← getD_map_chars, hc, g1]
  have r2 : ((EditorInsertNewline E).rowAt (E.curY.toNat + 1)).chars
      = (E.rowAt E.curY.toNat).chars.drop E.curX.toNat := by
    show ((EditorInsertNewline E).row.getD (E.curY.toNat + 1) default).chars = _
    rw [← getD_map_chars, hc, g2]
  rw [hyy, Nat.add_sub_cancel, r1, r2] at m1
  rw [hyy, Nat.add_sub_cancel] at m3
  have hrow : (E.rowAt E.curY.toNat).chars = (E.row.map eRow.chars).getD E.curY.toNat [] := by
    show (E.row.getD E.curY.toNat default).chars = _
    rw [getD_map_chars]
  have hmap : (EditorDelChar (EditorInsertNewline E)).row.map eRow.chars
      = E.row.map eRow.chars := by
    rw [m1, hc, hrow]
    exact take_cons_cons_drop_merge (E.row.map eRow.chars) E.curY.toNat E.curX.toNat hylen
  refine ⟨by rw [m2, hn]; omega, hmap, ?_, ?_, by rw [m4, hcy]; omega⟩
  · intro j
    show ((EditorDelChar (EditorInsertNewline E)).row.getD j default).chars
      = (E.row.getD j default).chars
    rw [← getD_map_chars, ← getD_map_chars, hmap]
  · rw [m3]
    have : ((EditorInsertNewline E).rowAt E.curY.toNat).size
        = (((EditorInsertNewline E).rowAt E.curY.toNat).chars.length : Int) := rfl
    rw [this, r1, List.length_take]
    have hsz : (E.rowAt E.curY.toNat).size = ((E.rowAt E.curY.toNat).chars.length : Int) := rfl
    rw [hsz] at hx
    rw [Nat.min_eq_left (by omega)]
    omega

set_option maxRecDepth 100000 in
theorem C25_newline_then_delete_restores_witness :
    (EditorDelChar (EditorInsertNewline { blockCommentBuffer with curX := 2 })).numRows
      = blockCommentBuffer.numRows ∧
    (EditorDelChar (EditorInsertNewline { blockCommentBuffer with curX := 2 })).row.map
      eRow.chars = blockCommentBuffer.row.map eRow.chars ∧
    (EditorDelChar (EditorInsertNewline { blockCommentBuffer with curX := 2 })).curX = 2 ∧
    (EditorInsertNewline { blockCommentBuffer with curX := 2 }).row.map eRow.chars
      = [cstr "a ", cstr "/* b", cstr "c */ d"] :=
  ⟨(C25_newline_then_delete_restores { blockCommentBuffer with curX := 2 } (by decide)
      (by decide) (by decide) (by decide) (by decide)).1,
    (C25_newline_then_delete_restores { blockCommentBuffer with curX := 2 } (by decide)
      (by decide) (by decide) (by decide) (by decide)).2.1,
    (C25_newline_then_delete_restores { blockCommentBuffer with curX := 2 } (by decide)
      (by decide) (by decide) (by decide) (by decide)).2.2.2.1,
    by decide⟩

/-! ## Theorems: drawing a row -/

theorem iscntrl_false_ne_esc (c : Nat) (h : iscntrl (c : Int) = false) : c ≠ 27 := by
  intro hc
  rw [hc] at h
  exact absurd h (by decide)

theorem EditorSyntaxToColor_ne (hl : Nat) : ((EditorSyntaxToColor hl : Nat) : Int) ≠ -1 := by
  omega

theorem drawColumn_plain (ab : List Nat) (c hl : Nat) (after : Nat × Nat) (cur : Int)
    (h : iscntrl (c : Int) = false) :
    drawColumn ab c hl after cur
      = (ab ++ ((if requiredColor hl ≠ cur then selectColor (requiredColor hl) else [])
          ++ [c]), requiredColor hl) := by
  unfold drawColumn requiredColor selectColor abAppend
  rw [if_neg (by rw [h]; exact Bool.false_ne_true)]
  by_cases hn : hl = HL_NORMAL
  · rw [if_pos hn, if_pos hn]
    by_cases hc : cur = -1
    · rw [if_neg (not_not.2 hc), if_neg (by rw [hc]; exact fun h => h rfl)]
      rw [hc]
      rfl
    · rw [if_pos hc, if_pos (fun h => hc h.symm), if_pos rfl]
      simp
  · rw [if_neg hn, if_neg hn]
    simp only []
    rw [if_neg (EditorSyntaxToColor_ne hl)]
    by_cases hc : ((EditorSyntaxToColor hl : Nat) : Int) = cur
    · rw [if_neg (not_not.2 hc), if_neg (not_not.2 hc)]
      rw [hc]
      rfl
    · rw [if_pos hc, if_pos hc]
      simp

theorem drawColumns_plain (render highlight : List Nat) (colOff : Int)
    (mem : Nat → Nat × Nat) :
    ∀ (n j : Nat) (ab : List Nat) (cur : Int),
      (∀ k, k < n → iscntrl ((render.getD (colOff + ((j + k : Nat) : Int)).toNat 0 : Nat) : Int)
        = false) →
      cur = colorInEffect highlight colOff j →
      drawColumns render highlight colOff mem n j ab cur
        = ab ++ (List.range n).flatMap
            (fun k => expectedColumn render highlight colOff (j + k)) := by
  intro n
  induction n with
  | zero =>
    intro j ab cur _ _
    simp [drawColumns]
  | succ n ih =>
    intro j ab cur hp hcur
    have h0 : iscntrl ((render.getD (colOff + (j : Int)).toNat 0 : Nat) : Int) = false :=
      hp 0 (Nat.succ_pos n)
    rw [drawColumns, drawColumn_plain _ _ _ _ _ h0]
    simp only []
    rw [ih (j + 1) _ (requiredColor (highlight.getD (colOff + (j : Int)).toNat 0)) (fun k hk => by
      have := hp (k + 1) (by omega)
      rw [show j + 1 + k = j + (k + 1) by omega]
      exact this) rfl]
    rw [List.range_succ_eq_map, List.flatMap_cons, List.flatMap_map, List.append_assoc]
    congr 1
    congr 1
    · unfold expectedColumn
      rw [hcur]
      rfl
    · congr 1
      funext k
      rw [show j + 1 + k = j + k.succ by omega]

theorem strip_plain (c : Nat) (rest : List Nat) (h : c ≠ 27) :
    stripEscapes 0 (c :: rest) = c :: stripEscapes 0 rest := by
  rw [stripEscapes, if_neg h]

theorem strip_selectColor (hl : Nat) (rest : List Nat) :
    stripEscapes 0 (selectColor (requiredColor hl) ++ rest) = stripEscapes 0 rest := by
  unfold requiredColor EditorSyntaxToColor
  split_ifs <;> rfl

theorem strip_expectedColumn (render highlight : List Nat) (colOff : Int) (j : Nat)
    (rest : List Nat)
    (h : iscntrl ((render.getD (colOff + (j : Int)).toNat 0 : Nat) : Int) = false) :
    stripEscapes 0 (expectedColumn render highlight colOff j ++ rest)
      = render.getD (colOff + (j : Int)).toNat 0 :: stripEscapes 0 rest := by
  unfold expectedColumn
  split_ifs
  · rw [List.append_assoc, strip_selectColor, List.singleton_append,
      strip_plain _ _ (iscntrl_false_ne_esc _ h)]
  · rw [List.nil_append, List.singleton_append, strip_plain _ _ (iscntrl_false_ne_esc _ h)]

theorem strip_columns (render highlight : List Nat) (colOff : Int) (rest : List Nat) :
    ∀ (n j : Nat),
      (∀ k, k < n → iscntrl ((render.getD (colOff + ((j + k : Nat) : Int)).toNat 0 : Nat) : Int)
        = false) →
      stripEscapes 0 ((List.range n).flatMap
          (fun k => expectedColumn render highlight colOff (j + k)) ++ rest)
        = (List.range n).map (fun k => render.getD (colOff + ((j + k : Nat) : Int)).toNat 0)
            ++ stripEscapes 0 rest := by
  intro n
  induction n with
  | zero => intro j _; rfl
  | succ n ih =>
    intro j hp
    rw [List.range_succ_eq_map, List.flatMap_cons, List.flatMap_map, List.map_cons,
      List.map_map, List.append_assoc]
    have h0 : iscntrl ((render.getD (colOff + (j : Int)).toNat 0 : Nat) : Int) = false :=
      hp 0 (Nat.succ_pos n)
    rw [show j + 0 = j from rfl, strip_expectedColumn _ _ _ _ _ h0]
    have := ih (j + 1) (fun k hk => by
      have := hp (k + 1) (by omega)
      rw [show j + 1 + k = j + (k + 1) by omega]
      exact this)
    have e1 : (fun k => expectedColumn render highlight colOff (j + 1 + k))
        = (fun k => expectedColumn render highlight colOff (j + k.succ)) := by
      funext k
      rw [show j + 1 + k = j + k.succ by omega]
    have e2 : (fun k => render.getD (colOff + ((j + 1 + k : Nat) : Int)).toNat 0)
        = ((fun k => render.getD (colOff + ((j + k : Nat) : Int)).toNat 0) ∘ Nat.succ) := by
      funext k
      show _ = render.getD (colOff + ((j + k.succ : Nat) : Int)).toNat 0
      rw [show j + 1 + k = j + k.succ by omega]
    rw [e1, e2] at this
    rw [this]
    rfl

theorem map_getD_range (l : List Nat) (a : Nat) :
    ∀ n, a + n ≤ l.length →
      (List.range n).map (fun k => l.getD (a + k) 0) = (l.drop a).take n := by
  intro n
  induction n with
  | zero => intro _; simp
  | succ n ih =>
    intro h
    rw [List.range_succ, List.map_append, ih (by omega), List.take_succ, List.getElem?_drop,
      List.getElem?_eq_getElem (by omega)]
    simp [List.getElem?_eq_getElem (show a + n < l.length by omega)]

theorem drawLen_eq (E : EditorConfig) (fileRow : Nat) : drawLen E fileRow = visibleLen E fileRow := by
  unfold drawLen visibleLen
  simp only [min_def, max_def]
  split_ifs <;> omega

theorem drawFileRow_plain (E : EditorConfig) (fileRow : Nat) (mem : Nat → Nat × Nat)
    (ab : List Nat)
    (hplain : ∀ j : Nat, j < (visibleLen E fileRow).toNat →
      iscntrl (((E.rowAt fileRow).render.getD (E.colOff + (j : Int)).toNat 0 : Nat) : Int)
        = false) :
    drawFileRow E fileRow mem ab
      = ab ++ (List.range (visibleLen E fileRow).toNat).flatMap
          (expectedColumn (E.rowAt fileRow).render (E.rowAt fileRow).highlight E.colOff)
        ++ [27, 91, 51, 57, 109] := by
  unfold drawFileRow abAppend
  simp only []
  rw [drawLen_eq]
  have h := drawColumns_plain (E.rowAt fileRow).render (E.rowAt fileRow).highlight E.colOff mem
    (visibleLen E fileRow).toNat 0 ab (-1) (fun k hk => by
      rw [Nat.zero_add]
      exact hplain k hk) rfl
  simp only [Nat.zero_add] at h
  rw [h]
  rfl

/-- C23: for every row whose visible slice holds no control character (and
`colOff ≥ 0`), `EditorDrawRows` draws the row as follows.  The local `len` is
`min(max(rndrSize - colOff, 0), terminalCols)`.  For each column `j` of the
slice it appends a colour escape exactly when the colour required for the
column (`EditorSyntaxToColor` of its tag, the default colour for `HL_NORMAL`)
differs from the colour in effect, and then the byte of the column, so columns
of equal colour, `HL_COMMENT` next to `HL_MCOMMENT` included, have no escape
between them; after the last column it appends `ESC[39m`.  With the escape
sequences removed, the line (up to and including the `ESC[K` that follows the
row) is exactly `render[colOff .. colOff + len)`.  This is the line the loop
of `EditorDrawRows` emits, followed by `ESC[K` and CR LF, for a screen line
that shows a row of the file. -/
theorem C23_draw_row_minimal_colour_escapes (E : EditorConfig) (fileRow : Nat)
    (mem : Nat → Nat × Nat) (ab : List Nat) (hcol : 0 ≤ E.colOff)
    (hplain : ∀ j : Nat, j < (visibleLen E fileRow).toNat →
      iscntrl (((E.rowAt fileRow).render.getD (E.colOff + (j : Int)).toNat 0 : Nat) : Int)
        = false) :
    drawLen E fileRow = visibleLen E fileRow ∧
    drawFileRow E fileRow mem ab
      = ab ++ (List.range (visibleLen E fileRow).toNat).flatMap
          (expectedColumn (E.rowAt fileRow).render (E.rowAt fileRow).highlight E.colOff)
        ++ [27, 91, 51, 57, 109] ∧
    (∀ j : Nat,
      (requiredColor ((E.rowAt fileRow).highlight.getD (E.colOff + (j : Int)).toNat 0)
          = colorInEffect (E.rowAt fileRow).highlight E.colOff j →
        expectedColumn (E.rowAt fileRow).render (E.rowAt fileRow).highlight E.colOff j
          = [(E.rowAt fileRow).render.getD (E.colOff + (j : Int)).toNat 0]) ∧
      (requiredColor ((E.rowAt fileRow).highlight.getD (E.colOff + (j : Int)).toNat 0)
          ≠ colorInEffect (E.rowAt fileRow).highlight E.colOff j →
        expectedColumn (E.rowAt fileRow).render (E.rowAt fileRow).highlight E.colOff j
          = selectColor
              (requiredColor ((E.rowAt fileRow).highlight.getD (E.colOff + (j : Int)).toNat 0))
            ++ [(E.rowAt fileRow).render.getD (E.colOff + (j : Int)).toNat 0])) ∧
    requiredColor HL_COMMENT = requiredColor HL_MCOMMENT ∧
    stripEscapes 0 (drawFileRow E fileRow mem [] ++ [27, 91, 75])
      = ((E.rowAt fileRow).render.drop E.colOff.toNat).take (visibleLen E fileRow).toNat ∧
    (∀ y : Nat, (y : Int) + E.rowOff = (fileRow : Int) → (fileRow : Int) < E.numRows →
      drawScreenLine E mem y ab = drawFileRow E fileRow mem ab ++ [27, 91, 75] ++ [13, 10]) := by
  refine ⟨drawLen_eq E fileRow, drawFileRow_plain E fileRow mem ab hplain, ?_, by decide, ?_, ?_⟩
  · intro j
    constructor
    · intro h
      unfold expectedColumn
      rw [if_neg (not_not.2 h), List.nil_append]
    · intro h
      unfold expectedColumn
      rw [if_pos h]
  · rw [drawFileRow_plain E fileRow mem [] hplain, List.nil_append, List.append_assoc]
    have h := strip_columns (E.rowAt fileRow).render (E.rowAt fileRow).highlight E.colOff
      ([27, 91, 51, 57, 109] ++ [27, 91, 75]) (visibleLen E fileRow).toNat 0 (fun k hk => by
        rw [Nat.zero_add]
        exact hplain k hk)
    simp only [Nat.zero_add] at h
    rw [h]
    have e0 : stripEscapes 0 ([27, 91, 51, 57, 109] ++ [27, 91, 75]) = [] := by decide
    rw [e0, List.append_nil]
    have e1 : (fun k : Nat => (E.rowAt fileRow).render.getD (E.colOff + (k : Int)).toNat 0)
        = (fun k : Nat => (E.rowAt fileRow).render.getD (E.colOff.toNat + k) 0) := by
      funext k
      rw [show (E.colOff + (k : Int)).toNat = E.colOff.toNat + k by omega]
    rw [e1]
    by_cases hn : (visibleLen E fileRow).toNat = 0
    · rw [hn]
      rfl
    · apply map_getD_range
      have hv : visibleLen E fileRow ≤ max ((E.rowAt fileRow).rndrSize - E.colOff) 0 :=
        min_le_left _ _
      have hr : (E.rowAt fileRow).rndrSize = ((E.rowAt fileRow).render.length : Int) := rfl
      rw [max_def] at hv
      split_ifs at hv <;> omega
  · intro y hy hlt
    unfold drawScreenLine abAppend
    simp only []
    rw [hy, if_neg (by omega), Int.toNat_ofNat]
    simp

/-- C24 fails on the code: for a control character the glyph is appended with
`abAppend(ab, &sym, 3)`, three bytes from the address of the one-byte local
`sym`.  For every control character `c` from 0 to 31, whatever the two bytes
`j1`, `j2` behind `sym` are, the column gets `ESC[7m`, the glyph, `j1`, `j2`,
`ESC[m` (and the colour escape again when a colour is in effect), which is two
bytes more than `ESC[7m`, the glyph, `ESC[m`; so does the byte 127.  On the row
`//a^Ab` of a C file the line is `ESC[36m//a ESC[7m A j1 j2 ESC[m ESC[36m b
ESC[39m`. -/
theorem C24_control_glyph_appends_three_bytes (c : Fin 32) (hl j1 j2 : Nat) (ab : List Nat) :
    (drawColumn ab c.val hl (j1, j2) (-1)).1
        = ab ++ [27, 91, 55, 109] ++ [if c.val ≤ 26 then 64 + c.val else 63, j1, j2]
            ++ [27, 91, 109] ∧
    (drawColumn ab c.val hl (j1, j2) (-1)).1
        ≠ ab ++ [27, 91, 55, 109] ++ [if c.val ≤ 26 then 64 + c.val else 63] ++ [27, 91, 109] ∧
    (drawColumn ab c.val hl (j1, j2) 36).1
        = ab ++ [27, 91, 55, 109] ++ [if c.val ≤ 26 then 64 + c.val else 63, j1, j2]
            ++ [27, 91, 109] ++ [27, 91, 51, 54, 109] ∧
    (drawColumn ab 127 hl (j1, j2) (-1)).1
        = ab ++ [27, 91, 55, 109] ++ [63, j1, j2] ++ [27, 91, 109] ∧
    rowsFresh controlRowBuffer ∧
    drawFileRow controlRowBuffer 0 (fun _ => (j1, j2)) []
        = [27, 91, 51, 54, 109, 47, 47, 97, 27, 91, 55, 109, 65, j1, j2, 27, 91, 109,
            27, 91, 51, 54, 109, 98, 27, 91, 51, 57, 109] := by
  have hc : iscntrl ((c.val : Nat) : Int) = true := by
    have := c.isLt
    unfold iscntrl
    simp only [Bool.or_eq_true, Bool.and_eq_true, decide_eq_true_eq]
    left
    omega
  have h1 : (drawColumn ab c.val hl (j1, j2) (-1)).1
      = ab ++ [27, 91, 55, 109] ++ [if c.val ≤ 26 then 64 + c.val else 63, j1, j2]
          ++ [27, 91, 109] := by
    unfold drawColumn abAppend
    rw [if_pos hc]
    simp
  refine ⟨h1, ?_, ?_, ?_, by decide, ?_⟩
  · rw [h1]
    intro h
    have := congrArg List.length h
    simp at this
  · unfold drawColumn abAppend
    rw [if_pos hc]
    simp only []
    rw [if_pos (by decide)]
    simp
    rfl
  · unfold drawColumn abAppend
    rw [if_pos (by decide)]
    simp
  · simp [drawFileRow, drawLen, drawColumns, drawColumn, abAppend, controlRowBuffer, loadedBuffer,
      InitEditor, EditorConfig.rowAt, eRow.rndrSize, iscntrl, EditorSyntaxToColor, colorEscape,
      formatInt, decimalDigits, HL_COMMENT, HL_MCOMMENT, HL_NORMAL]

set_option maxRecDepth 100000 in
theorem C23_draw_row_minimal_colour_escapes_witness :
    drawFileRow blockCommentBuffer 0 (fun _ => (0, 0)) []
      = cstr "a " ++ [27, 91, 51, 54, 109] ++ cstr "/* b" ++ [27, 91, 51, 57, 109] ∧
    stripEscapes 0 (drawFileRow blockCommentBuffer 0 (fun _ => (0, 0)) [] ++ [27, 91, 75])
      = ((blockCommentBuffer.rowAt 0).render.drop blockCommentBuffer.colOff.toNat).take
          (visibleLen blockCommentBuffer 0).toNat :=
  ⟨((C23_draw_row_minimal_colour_escapes blockCommentBuffer 0 (fun _ => (0, 0)) [] (by decide)
      (by decide)).2.1).trans (by decide),
    (C23_draw_row_minimal_colour_escapes blockCommentBuffer 0 (fun _ => (0, 0)) [] (by decide)
      (by decide)).2.2.2.2.1⟩

/-! ## Theorems: keyword tags -/

theorem prevOk_congr (render hl hl1 : List Nat) (s : Nat)
    (h : ∀ q, q < s → hl1.getD q 0 = hl.getD q 0) (hp : prevOk render hl s) :
    prevOk render hl1 s := by
  rcases hp with hp | hp | ⟨hp1, hp2⟩
  · exact Or.inl hp
  · exact Or.inr (Or.inl hp)
  · by_cases h0 : s = 0
    · exact Or.inl h0
    · exact Or.inr (Or.inr ⟨hp1, by rw [h (s - 1) (by omega)]; exact hp2⟩)

theorem goodBelow_congr (render hl hl1 : List Nat) (n n1 p : Nat) (hn : n ≤ n1)
    (h : ∀ q, q < n → hl1.getD q 0 = hl.getD q 0) (hg : goodBelow render hl n p) :
    goodBelow render hl1 n1 p := by
  obtain ⟨s, kw, h1, h2, h3, hk1, hk2, hk3, hk4, hk5⟩ := hg
  refine ⟨s, kw, h1, h2, by omega, hk1, ?_, hk3, hk4, ?_⟩
  · intro q hq
    refine ⟨(hk2 q hq).1, ?_⟩
    rw [h (s + q) (by omega)]
    exact (hk2 q hq).2
  · exact prevOk_congr render hl hl1 s (fun q hq => h q (by omega)) hk5

theorem scanInv_done (render : List Nat) (s : ScanState) (h : scanInv render s) :
    scanDone render s.hl := by
  intro p hp
  by_cases hlt : p < s.i
  · exact ⟨s.i, h.2.2.1 p hlt hp⟩
  · rw [h.2.1 p (by omega)] at hp
    exact absurd hp (by decide)

/-- A pass of the scan that writes no keyword tag and writes only from the
column it stands at up to the column it moves to. -/
theorem scan_pass_plain (render : List Nat) (s s1 : ScanState) (hinv : scanInv render s)
    (hW : ∀ q, s1.hl.getD q 0 = s.hl.getD q 0
      ∨ (s.i ≤ q ∧ q < s1.i ∧ ¬ kwTagged (s1.hl.getD q 0)))
    (hlen : s1.hl.length = s.hl.length) (hi : s.i ≤ s1.i)
    (hstr : s1.inString = 0 ∨ s1.inString = 34 ∨ s1.inString = 39)
    (hprev : s1.prevSep = true → s1.inComment = false → s1.inString = 0 →
      prevOk render s1.hl s1.i) :
    scanInv render s1 := by
  obtain ⟨ha, hb, hc, hd, he⟩ := hinv
  have hold : ∀ q, q < s.i → s1.hl.getD q 0 = s.hl.getD q 0 := by
    intro q hq
    rcases hW q with h | ⟨h, _, _⟩
    · exact h
    · omega
  refine ⟨by rw [hlen, ha], ?_, ?_, hstr, hprev⟩
  · intro q hq
    rcases hW q with h | ⟨_, h, _⟩
    · rw [h]
      exact hb q (by omega)
    · omega
  · intro p hp hk
    by_cases hlt : p < s.i
    · rw [hold p hlt] at hk
      exact goodBelow_congr render s.hl s1.hl s.i s1.i p hi hold (hc p hlt hk)
    · rcases hW p with h | ⟨_, _, h⟩
      · rw [h, hb p (by omega)] at hk
        exact absurd hk (by decide)
      · exact absurd hk h

/-- The pass of the scan that leaves the loop: only tags from the column it
stands at on are written, none of them a keyword tag. -/
theorem scan_pass_break (render : List Nat) (s : ScanState) (hl1 : List Nat)
    (hinv : scanInv render s)
    (hW : ∀ q, hl1.getD q 0 = s.hl.getD q 0 ∨ (s.i ≤ q ∧ ¬ kwTagged (hl1.getD q 0))) :
    scanDone render hl1 := by
  obtain ⟨ha, hb, hc, hd, he⟩ := hinv
  have hold : ∀ q, q < s.i → hl1.getD q 0 = s.hl.getD q 0 := by
    intro q hq
    rcases hW q with h | ⟨h, _⟩
    · exact h
    · omega
  intro p hk
  by_cases hlt : p < s.i
  · rw [hold p hlt] at hk
    exact ⟨s.i, goodBelow_congr render s.hl hl1 s.i s.i p (Nat.le_refl _) hold (hc p hlt hk)⟩
  · rcases hW p with h | ⟨_, h⟩
    · rw [h, hb p (by omega)] at hk
      exact absurd hk (by decide)
    · exact absurd hk h

theorem getD_set_cases (l : List Nat) (i v q : Nat) :
    (l.set i v).getD q 0 = l.getD q 0 ∨ (q = i ∧ (l.set i v).getD q 0 = v) := by
  by_cases h : i = q
  · subst h
    by_cases hl : i < l.length
    · exact Or.inr ⟨rfl, getD_set_self _ _ _ _ hl⟩
    · rw [List.set_eq_of_length_le (by omega)]
      exact Or.inl rfl
  · exact Or.inl (getD_set_ne _ _ _ _ _ h)

theorem memset_getD_cases (hl : List Nat) (i v n q : Nat) :
    (memset hl i v n).getD q 0 = hl.getD q 0
      ∨ (i ≤ q ∧ q < i + n ∧ (memset hl i v n).getD q 0 = v) := by
  by_cases h : i ≤ q ∧ q < i + n
  · by_cases hq : q < hl.length
    · exact Or.inr ⟨h.1, h.2, memset_getD _ _ _ _ _ _ h.1 h.2 hq⟩
    · left
      rw [List.getD_eq_default _ _ (by rw [memset_length]; omega),
        List.getD_eq_default _ _ (by omega)]
  · exact Or.inl (memset_getD_out _ _ _ _ _ _ (by omega))

theorem hW_set (hl : List Nat) (i v j q : Nat) (hv : ¬ kwTagged v) (hj : i < j) :
    (hl.set i v).getD q 0 = hl.getD q 0
      ∨ (i ≤ q ∧ q < j ∧ ¬ kwTagged ((hl.set i v).getD q 0)) := by
  rcases getD_set_cases hl i v q with h | ⟨h1, h2⟩
  · exact Or.inl h
  · exact Or.inr ⟨by omega, by omega, by rw [h2]; exact hv⟩

theorem hW_memset (hl : List Nat) (i v n j q : Nat) (hv : ¬ kwTagged v) (hj : i + n ≤ j) :
    (memset hl i v n).getD q 0 = hl.getD q 0
      ∨ (i ≤ q ∧ q < j ∧ ¬ kwTagged ((memset hl i v n).getD q 0)) := by
  rcases memset_getD_cases hl i v n q with h | ⟨h1, h2, h3⟩
  · exact Or.inl h
  · exact Or.inr ⟨h1, by omega, by rw [h3]; exact hv⟩

theorem hW_comp (hl hl1 hl2 : List Nat) (i j q : Nat)
    (h1 : hl1.getD q 0 = hl.getD q 0 ∨ (i ≤ q ∧ q < j ∧ ¬ kwTagged (hl1.getD q 0)))
    (h2 : hl2.getD q 0 = hl1.getD q 0 ∨ (i ≤ q ∧ q < j ∧ ¬ kwTagged (hl2.getD q 0))) :
    hl2.getD q 0 = hl.getD q 0 ∨ (i ≤ q ∧ q < j ∧ ¬ kwTagged (hl2.getD q 0)) := by
  rcases h2 with h2 | h2
  · rw [h2]
    exact h1
  · exact Or.inr h2

theorem matchKeyword_spec (render : List Nat) (i : Nat) :
    ∀ (kws : List (List Nat)) (kLen : Nat) (kw2 : Bool),
      matchKeyword render i kws = some (kLen, kw2) →
      ∃ kw, kw ∈ kws ∧ kLen = kwLen kw ∧ (if kw2 = true then HL_KEYWORD2 else HL_KEYWORD1) = kwTag kw
        ∧ strncmpEq render i kw kLen = true ∧ IsSeparator (render.getD (i + kLen) 0) = true := by
  intro kws
  induction kws with
  | nil =>
    intro kLen kw2 h
    simp [matchKeyword] at h
  | cons kw rest ih =>
    intro kLen kw2 h
    rw [matchKeyword] at h
    split_ifs at h with h1 h2 h3
    · simp only [Option.some.injEq, Prod.mk.injEq] at h
      obtain ⟨e1, e2⟩ := h
      rw [Bool.and_eq_true] at h2
      have hk : kw.getD (kw.length - 1) 0 = 124 := by simpa using h1
      refine ⟨kw, List.mem_cons_self _ _, ?_, ?_, ?_, ?_⟩
      · rw [← e1]; unfold kwLen; rw [if_pos hk]
      · rw [← e2, decide_eq_true hk]; unfold kwTag; rw [if_pos hk, if_pos rfl]
      · rw [← e1]; exact h2.1
      · rw [← e1]; exact h2.2
    · obtain ⟨kw1, m, r⟩ := ih kLen kw2 h
      exact ⟨kw1, List.mem_cons_of_mem _ m, r⟩
    · simp only [Option.some.injEq, Prod.mk.injEq] at h
      obtain ⟨e1, e2⟩ := h
      rw [Bool.and_eq_true] at h3
      have hk : ¬ kw.getD (kw.length - 1) 0 = 124 := by simpa using h1
      refine ⟨kw, List.mem_cons_self _ _, ?_, ?_, ?_, ?_⟩
      · rw [← e1]; unfold kwLen; rw [if_neg hk]
      · rw [← e2, decide_eq_false hk]; unfold kwTag; rw [if_neg hk, if_neg (by decide)]
      · rw [← e1]; exact h3.1
      · rw [← e1]; exact h3.2
    · obtain ⟨kw1, m, r⟩ := ih kLen kw2 h
      exact ⟨kw1, List.mem_cons_of_mem _ m, r⟩

theorem strncmpEq_text (a : List Nat) :
    ∀ (n i : Nat) (s : List Nat), strncmpEq a i s n = true →
      (∀ q, q < n → s.getD q 0 ≠ 0) → ∀ q, q < n → a.getD (i + q) 0 = s.getD q 0 := by
  intro n
  induction n with
  | zero => intro i s _ _ q hq; omega
  | succ n ih =>
    intro i s h hs q hq
    rw [strncmpEq] at h
    have h0 := hs 0 (Nat.succ_pos n)
    have hhead : s.headD 0 = s.getD 0 0 := by cases s <;> rfl
    rw [hhead] at h
    by_cases h1 : a.getD i 0 = s.getD 0 0
    · rw [if_neg (not_not.2 h1), if_neg (by rw [h1]; exact h0)] at h
      cases q with
      | zero => exact h1
      | succ q =>
        have htail : ∀ k, s.tail.getD k 0 = s.getD (k + 1) 0 := by
          intro k
          cases s <;> rfl
        have := ih (i + 1) s.tail h (fun k hk => by rw [htail]; exact hs (k + 1) (by omega)) q
          (by omega)
        rw [htail] at this
        rw [show i + (q + 1) = i + 1 + q by omega]
        exact this
    · rw [if_pos h1] at h
      exact absurd h (by simp)

/-- The keyword entries of the C rule set are made of bytes that are neither a
NUL, nor a separator, nor a quote. -/
theorem C_HL_Keywords_letters : ∀ kw ∈ C_HL_Keywords,
    0 < kwLen kw ∧ kwLen kw ≤ kw.length ∧
    ∀ q, q < kwLen kw → kw.getD q 0 ≠ 0 ∧ IsSeparator (kw.getD q 0) = false
      ∧ kw.getD q 0 ≠ 34 ∧ kw.getD q 0 ≠ 39 := by
  decide

theorem kwBody_length (kw : List Nat) (h : kwLen kw ≤ kw.length) :
    (kwBody kw).length = kwLen kw := by
  unfold kwBody
  rw [List.length_take, Nat.min_eq_left h]

theorem kwBody_getD (kw : List Nat) (q : Nat) (h : q < kwLen kw) :
    (kwBody kw).getD q 0 = kw.getD q 0 := by
  unfold kwBody
  rw [List.getD_eq_getElem?_getD, List.getD_eq_getElem?_getD, List.getElem?_take_of_lt h]

/-- The pass of the scan that tags a keyword. -/
theorem scan_pass_keyword (render : List Nat) (s : ScanState) (kLen : Nat) (kw2 : Bool)
    (hinv : scanInv render s)
    (hm : matchKeyword render s.i C_HL_Keywords = some (kLen, kw2))
    (hp : s.prevSep = true) (hs : s.inString = 0) (hc : s.inComment = false) :
    scanInv render (ScanState.mk (s.i + kLen) false s.inString s.inComment
      (memset s.hl s.i (if kw2 = true then HL_KEYWORD2 else HL_KEYWORD1) kLen)) := by
  obtain ⟨ha, hb, hcc, hd, he⟩ := hinv
  obtain ⟨kw, hmem, hlen, htag, hcmp, hsep⟩ := matchKeyword_spec render s.i _ _ _ hm
  obtain ⟨hpos, hle, hlet⟩ := C_HL_Keywords_letters kw hmem
  rw [htag]
  have htext : ∀ q, q < kLen → render.getD (s.i + q) 0 = kw.getD q 0 :=
    strncmpEq_text render kLen s.i kw hcmp (fun q hq => (hlet q (by omega)).1)
  have hin : ∀ q, q < kLen → s.i + q < render.length := by
    intro q hq
    by_contra hcon
    have := htext q hq
    rw [List.getD_eq_default _ _ (by omega)] at this
    exact (hlet q (by omega)).1 this.symm
  have hold : ∀ q, q < s.i → (memset s.hl s.i (kwTag kw) kLen).getD q 0 = s.hl.getD q 0 :=
    fun q hq => memset_getD_out _ _ _ _ _ _ (Or.inl hq)
  have hbl : (kwBody kw).length = kLen := by rw [kwBody_length kw hle, hlen]
  refine ⟨by rw [memset_length]; exact ha, ?_, ?_, hd, ?_⟩
  · intro q hq
    have hq1 : s.i + kLen ≤ q := hq
    show (memset s.hl s.i (kwTag kw) kLen).getD q 0 = HL_NORMAL
    rw [memset_getD_out _ _ _ _ _ _ (Or.inr hq1)]
    exact hb q (by omega)
  · intro p hlt hk
    by_cases hps : p < s.i
    · have hk1 : kwTagged (s.hl.getD p 0) := by
        have := hold p hps
        rw [← this]
        exact hk
      exact goodBelow_congr render s.hl _ s.i (s.i + kLen) p (Nat.le_add_right _ _) hold
        (hcc p hps hk1)
    · have hlt1 : p < s.i + kLen := hlt
      refine ⟨s.i, kw, by omega, by rw [hbl]; exact hlt1, by rw [hbl],
        hmem, ?_, ?_, ?_, ?_⟩
      · intro q hq
        rw [hbl] at hq
        refine ⟨?_, ?_⟩
        · rw [kwBody_getD kw q (by omega)]
          exact htext q hq
        · exact memset_getD _ _ _ _ _ _ (Nat.le_add_right _ _) (by omega)
            (by rw [ha]; exact hin q hq)
      · rw [hbl]
        have := hin (kLen - 1) (by omega)
        omega
      · rw [hbl]
        exact Or.inr hsep
      · exact prevOk_congr render s.hl _ s.i hold (he hp hc hs)
  · intro h
    exact absurd h (by simp)

/-- One pass of the scan loop under the C rule set keeps `scanInv`, and the
pass that leaves the loop leaves every keyword tag in a keyword span. -/
theorem scanStep_inv (render : List Nat) (s : ScanState) (hi : s.i < render.length)
    (hinv : scanInv render s) :
    ((scanStep cSyntax render s).2 = true → scanInv render (scanStep cSyntax render s).1) ∧
    ((scanStep cSyntax render s).2 = false →
      scanDone render (scanStep cSyntax render s).1.hl) := by
  have hstr := hinv.2.2.2.1
  have hlen := hinv.1
  have hS : 3 &&& HL_HIGHLIGHT_STRINGS ≠ 0 := by decide
  unfold scanStep
  simp only [cSyntax_scs, cSyntax_mcs, cSyntax_mce, cSyntax_flags, cSyntax_keywords,
    Option.getD_some]
  generalize (if s.i > 0 then s.hl.getD (s.i - 1) HL_NORMAL else HL_NORMAL) = prevHL
  split_ifs with h1 h2 h3 h4 h5 h6 h7 h8 h9 h10
  · refine ⟨fun h => by simp at h, fun _ => ?_⟩
    apply scan_pass_break render s _ hinv
    intro q
    rcases memset_getD_cases s.hl s.i HL_COMMENT (render.length - s.i) q with h | ⟨a, _, c⟩
    · exact Or.inl h
    · exact Or.inr ⟨a, by rw [c]; decide⟩
  · refine ⟨fun _ => ?_, fun h => by simp at h⟩
    apply scan_pass_plain render s _ hinv
    · intro q
      exact hW_comp _ _ _ _ _ _ (hW_set s.hl s.i HL_MCOMMENT (s.i + 2) q (by decide) (by omega))
        (hW_memset _ s.i HL_MCOMMENT 2 (s.i + 2) q (by decide) (Nat.le_refl _))
    · show (memset (s.hl.set s.i HL_MCOMMENT) s.i HL_MCOMMENT 2).length = _
      rw [memset_length, List.length_set]
    · exact Nat.le_add_right _ _
    · exact hstr
    · intro _ _ _
      right; left
      have h3c : closeAt render s.i = true := by rw [← strncmpEq_close]; exact h3
      unfold closeAt at h3c
      rw [Bool.and_eq_true, decide_eq_true_eq, decide_eq_true_eq] at h3c
      show IsSeparator (render.getD (s.i + 2 - 1) 0) = true
      rw [show s.i + 2 - 1 = s.i + 1 by omega, h3c.2]
      decide
  · refine ⟨fun _ => ?_, fun h => by simp at h⟩
    apply scan_pass_plain render s _ hinv
    · intro q
      exact hW_set s.hl s.i HL_MCOMMENT (s.i + 1) q (by decide) (by omega)
    · exact List.length_set _ _ _
    · exact Nat.le_add_right _ _
    · exact hstr
    · intro _ hc2 _
      exact absurd (h2.2.2.2.symm.trans hc2) (by decide)
  · refine ⟨fun _ => ?_, fun h => by simp at h⟩
    apply scan_pass_plain render s _ hinv
    · intro q
      exact hW_memset s.hl s.i HL_MCOMMENT 2 (s.i + 2) q (by decide) (Nat.le_refl _)
    · exact memset_length _ _ _ _
    · exact Nat.le_add_right _ _
    · exact hstr
    · intro _ hc2 _
      exact absurd hc2 (by simp)
  · refine ⟨fun _ => ?_, fun h => by simp at h⟩
    apply scan_pass_plain render s _ hinv
    · intro q
      exact hW_comp _ _ _ _ _ _ (hW_set s.hl s.i HL_STRING (s.i + 2) q (by decide) (by omega))
        (hW_set _ (s.i + 1) HL_STRING (s.i + 2) q (by decide) (by omega)
          |>.imp id (fun h => ⟨by omega, h.2.1, h.2.2⟩))
    · show ((s.hl.set s.i HL_STRING).set (s.i + 1) HL_STRING).length = _
      rw [List.length_set, List.length_set]
    · exact Nat.le_add_right _ _
    · exact hstr
    · intro _ _ hs2
      exact absurd hs2 h5.2
  · refine ⟨fun _ => ?_, fun h => by simp at h⟩
    apply scan_pass_plain render s _ hinv
    · intro q
      exact hW_set s.hl s.i HL_STRING (s.i + 1) q (by decide) (by omega)
    · exact List.length_set _ _ _
    · exact Nat.le_add_right _ _
    · exact Or.inl rfl
    · intro _ _ _
      right; right
      show (render.getD (s.i + 1 - 1) 0 = 34 ∨ render.getD (s.i + 1 - 1) 0 = 39)
        ∧ (s.hl.set s.i HL_STRING).getD (s.i + 1 - 1) 0 = HL_STRING
      rw [Nat.add_sub_cancel, h7]
      refine ⟨?_, getD_set_self _ _ _ _ (by rw [hlen]; exact hi)⟩
      rcases hstr with h | h | h
      · exact absurd h h5.2
      · exact Or.inl h
      · exact Or.inr h
  · refine ⟨fun _ => ?_, fun h => by simp at h⟩
    apply scan_pass_plain render s _ hinv
    · intro q
      exact hW_set s.hl s.i HL_STRING (s.i + 1) q (by decide) (by omega)
    · exact List.length_set _ _ _
    · exact Nat.le_add_right _ _
    · exact hstr
    · intro _ _ hs2
      exact absurd hs2 h5.2
  · refine ⟨fun _ => ?_, fun h => by simp at h⟩
    apply scan_pass_plain render s _ hinv
    · intro q
      exact hW_set s.hl s.i HL_STRING (s.i + 1) q (by decide) (by omega)
    · exact List.length_set _ _ _
    · exact Nat.le_add_right _ _
    · exact Or.inr h8.2
    · intro _ _ hs2
      have hs3 : render.getD s.i 0 = 0 := hs2
      rcases h8.2 with h | h <;> omega
  · refine ⟨fun _ => ?_, fun h => by simp at h⟩
    apply scan_pass_plain render s _ hinv
    · intro q
      exact hW_set s.hl s.i HL_NUMBER (s.i + 1) q (by decide) (by omega)
    · exact List.length_set _ _ _
    · exact Nat.le_add_right _ _
    · exact hstr
    · intro hp2 _ _
      exact absurd hp2 (by simp)
  · have hs0 : s.inString = 0 := by
      by_contra hcon
      exact h5 ⟨hS, hcon⟩
    have hc0 : s.inComment = false := by
      cases hcm : s.inComment with
      | false => rfl
      | true => exact absurd ⟨by decide, by decide, hs0, hcm⟩ h2
    cases hm : matchKeyword render s.i C_HL_Keywords with
    | none =>
      refine ⟨fun _ => ?_, fun h => by simp at h⟩
      apply scan_pass_plain render s _ hinv
      · intro q
        exact Or.inl rfl
      · rfl
      · exact Nat.le_add_right _ _
      · exact hstr
      · intro hp2 _ _
        right; left
        show IsSeparator (render.getD (s.i + 1 - 1) 0) = true
        rw [Nat.add_sub_cancel]
        exact hp2
    | some r =>
      obtain ⟨kLen, kw2⟩ := r
      refine ⟨fun _ => ?_, fun h => by simp at h⟩
      exact scan_pass_keyword render s kLen kw2 hinv hm h10 hs0 hc0
  · refine ⟨fun _ => ?_, fun h => by simp at h⟩
    apply scan_pass_plain render s _ hinv
    · intro q
      exact Or.inl rfl
    · rfl
    · exact Nat.le_add_right _ _
    · exact hstr
    · intro hp2 _ _
      right; left
      show IsSeparator (render.getD (s.i + 1 - 1) 0) = true
      rw [Nat.add_sub_cancel]
      exact hp2

theorem scanLoop_inv (render : List Nat) :
    ∀ (fuel : Nat) (s : ScanState), scanInv render s →
      scanDone render (scanLoop cSyntax render fuel s).hl := by
  intro fuel
  induction fuel with
  | zero =>
    intro s h
    exact scanInv_done render s h
  | succ n ih =>
    intro s h
    rw [scanLoop]
    by_cases hi : s.i < render.length
    · rw [if_pos hi]
      obtain ⟨h1, h2⟩ := scanStep_inv render s hi h
      by_cases hf : (scanStep cSyntax render s).2 = true
      · rw [if_pos hf]
        exact ih _ (h1 hf)
      · rw [if_neg hf]
        exact h2 (by simpa using hf)
    · rw [if_neg hi]
      exact scanInv_done render s h

theorem scanRow_done (render : List Nat) (seed : Bool) :
    scanDone render (scanRow cSyntax render seed).hl := by
  apply scanLoop_inv
  refine ⟨List.length_replicate _ _, ?_, ?_, Or.inl rfl, fun _ _ _ => Or.inl rfl⟩
  · intro q _
    show (List.replicate render.length HL_NORMAL).getD q 0 = HL_NORMAL
    rw [List.getD_eq_getElem?_getD]
    by_cases hq : q < render.length
    · rw [List.getElem?_replicate, if_pos hq]
      rfl
    · rw [List.getElem?_replicate, if_neg hq]
      rfl
  · intro p hp
    exact absurd hp (Nat.not_lt_zero _)

theorem kwTag_cases (kw : List Nat) : kwTag kw = HL_KEYWORD1 ∨ kwTag kw = HL_KEYWORD2 := by
  unfold kwTag
  split_ifs
  · exact Or.inr rfl
  · exact Or.inl rfl

/-- A keyword span is a whole run of keyword tags: the column after it and the
column before it carry no keyword tag. -/
theorem keywordSpan_maximal (render hl : List Nat) (s : Nat) (kw : List Nat)
    (hdone : scanDone render hl) (h : keywordSpan render hl s kw) :
    ¬ kwTagged (hl.getD (s + (kwBody kw).length) 0)
      ∧ (0 < s → ¬ kwTagged (hl.getD (s - 1) 0)) := by
  have key : ∀ q, kwTagged (hl.getD q 0) →
      render.getD q 0 ≠ 0 ∧ IsSeparator (render.getD q 0) = false
        ∧ render.getD q 0 ≠ 34 ∧ render.getD q 0 ≠ 39 := by
    intro q hq
    obtain ⟨n, s1, kw1, a1, a2, _, b1, b2, _⟩ := hdone q hq
    obtain ⟨_, c2, c3⟩ := C_HL_Keywords_letters kw1 b1
    have hb : (kwBody kw1).length = kwLen kw1 := kwBody_length kw1 c2
    have hq1 : q - s1 < (kwBody kw1).length := by omega
    have e := (b2 (q - s1) hq1).1
    rw [show s1 + (q - s1) = q by omega, kwBody_getD kw1 _ (by omega)] at e
    rw [e]
    exact c3 (q - s1) (by omega)
  obtain ⟨_, _, h3, h4, h5⟩ := h
  refine ⟨?_, ?_⟩
  · intro hk
    obtain ⟨k1, k2, _, _⟩ := key _ hk
    rcases h4 with h4 | h4
    · rw [h4, List.getD_eq_default _ _ (Nat.le_refl _)] at k1
      exact k1 rfl
    · rw [h4] at k2
      exact absurd k2 (by decide)
  · intro hs hk
    obtain ⟨_, k2, k3, k4⟩ := key _ hk
    rcases h5 with h5 | h5 | h5
    · omega
    · rw [h5] at k2
      exact absurd k2 (by decide)
    · rcases h5.1 with h | h
      · exact k3 h
      · exact k4 h

set_option maxRecDepth 100000 in
/-- C22, counterexample: in the row `"a"int x` the columns 3..5 are tagged
HL_KEYWORD2 although the character before them, the closing quote of the
string, is not a separator and the span does not start the row. -/
theorem C22_keyword_after_closing_quote :
    rowsFresh quoteKeywordBuffer
      ∧ (quoteKeywordBuffer.rowAt 0).render = [34, 97, 34, 105, 110, 116, 32, 120]
      ∧ ((EditorUpdateSyntax quoteKeywordBuffer 0).rowAt 0).highlight
          = [HL_STRING, HL_STRING, HL_STRING, HL_KEYWORD2, HL_KEYWORD2, HL_KEYWORD2,
              HL_NORMAL, HL_NORMAL]
      ∧ IsSeparator 34 = false
      ∧ ¬ (∀ p, kwTagged (((EditorUpdateSyntax quoteKeywordBuffer 0).rowAt 0).highlight.getD p 0) →
            ∃ s kw, s ≤ p ∧ p < s + (kwBody kw).length
              ∧ claimedSpan (quoteKeywordBuffer.rowAt 0).render
                  ((EditorUpdateSyntax quoteKeywordBuffer 0).rowAt 0).highlight s kw) := by
  have hr : (quoteKeywordBuffer.rowAt 0).render = [34, 97, 34, 105, 110, 116, 32, 120] := by
    decide
  have hh : ((EditorUpdateSyntax quoteKeywordBuffer 0).rowAt 0).highlight
      = [HL_STRING, HL_STRING, HL_STRING, HL_KEYWORD2, HL_KEYWORD2, HL_KEYWORD2,
          HL_NORMAL, HL_NORMAL] := by
    decide
  refine ⟨by decide, hr, hh, by decide, ?_⟩
  rw [hr, hh]
  intro h
  obtain ⟨s, kw, h1, h2, hmem, htxt, _, _, hprev⟩ := h 3 (by decide)
  obtain ⟨c1, c2, _⟩ := C_HL_Keywords_letters kw hmem
  have hb : (kwBody kw).length = kwLen kw := kwBody_length kw c2
  have h0 := (htxt 0 (by omega)).2
  have ht := kwTag_cases kw
  have hs : s = 0 ∨ s = 1 ∨ s = 2 ∨ s = 3 := by omega
  rcases hs with hs | hs | hs | hs
  · subst hs
    rcases ht with ht | ht <;> rw [ht] at h0 <;> exact absurd h0 (by decide)
  · subst hs
    rcases ht with ht | ht <;> rw [ht] at h0 <;> exact absurd h0 (by decide)
  · subst hs
    rcases ht with ht | ht <;> rw [ht] at h0 <;> exact absurd h0 (by decide)
  · subst hs
    rcases hprev with hp | hp
    · exact absurd hp (by decide)
    · exact absurd hp (by decide)

/-- C22 (amended): with the C rule set, after `EditorUpdateSyntax` every column
of the row tagged HL_KEYWORD1 or HL_KEYWORD2 lies in a span whose text is a
keyword of the table, tagged throughout HL_KEYWORD2 when the entry has a
trailing `|` and HL_KEYWORD1 otherwise; the span starts the row or follows a
separator or a quote character tagged HL_STRING, it ends the row or is followed
by a separator, and the columns next to it carry no keyword tag. So `int x` tags
columns 0..2 as HL_KEYWORD2 while `intx` and `print` get no keyword tag. -/
theorem C22_keyword_tags_are_table_keywords (E : EditorConfig) (pos : Nat)
    (hsyn : E.syntaxRules = some cSyntax) (hidx : rowsNumbered E.row)
    (hpos : pos < E.row.length) :
    ((EditorUpdateSyntax E pos).rowAt pos).render = (E.rowAt pos).render
      ∧ ((EditorUpdateSyntax E pos).rowAt pos).highlight
          = (scanRow cSyntax (E.rowAt pos).render (seedOf E pos)).hl
      ∧ (∀ p, kwTagged (((EditorUpdateSyntax E pos).rowAt pos).highlight.getD p 0) →
          ∃ s kw, s ≤ p ∧ p < s + (kwBody kw).length
            ∧ keywordSpan (E.rowAt pos).render
                ((EditorUpdateSyntax E pos).rowAt pos).highlight s kw
            ∧ ¬ kwTagged (((EditorUpdateSyntax E pos).rowAt pos).highlight.getD
                  (s + (kwBody kw).length) 0)
            ∧ (0 < s →
                ¬ kwTagged (((EditorUpdateSyntax E pos).rowAt pos).highlight.getD (s - 1) 0)))
      ∧ (∀ kw ∈ C_HL_Keywords,
          (kwTag kw = HL_KEYWORD2 ↔ kw.getD (kw.length - 1) 0 = 124)
            ∧ (kwTag kw = HL_KEYWORD1 ↔ kw.getD (kw.length - 1) 0 ≠ 124))
      ∧ (scanRow cSyntax (cstr "int x") false).hl
          = [HL_KEYWORD2, HL_KEYWORD2, HL_KEYWORD2, HL_NORMAL, HL_NORMAL]
      ∧ (scanRow cSyntax (cstr "intx") false).hl
          = [HL_NORMAL, HL_NORMAL, HL_NORMAL, HL_NORMAL]
      ∧ (scanRow cSyntax (cstr "print") false).hl
          = [HL_NORMAL, HL_NORMAL, HL_NORMAL, HL_NORMAL, HL_NORMAL] := by
  have hrow : (EditorUpdateSyntax E pos).rowAt pos = freshRow E pos :=
    updateSyntaxFuel_rowAt E.row.length E pos hidx hpos
  have hfr : freshRow E pos
      = { E.rowAt pos with
            highlight := (scanRow cSyntax (E.rowAt pos).render (seedOf E pos)).hl,
            hlOpenComment := (scanRow cSyntax (E.rowAt pos).render (seedOf E pos)).inComment } := by
    unfold freshRow
    rw [hsyn]
  have hdone := scanRow_done (E.rowAt pos).render (seedOf E pos)
  refine ⟨by rw [hrow, hfr], by rw [hrow, hfr], ?_, ?_, by decide, by decide, by decide⟩
  · rw [hrow, hfr]
    intro p hp
    obtain ⟨n, s, kw, h1, h2, _, h4⟩ := hdone p hp
    exact ⟨s, kw, h1, h2, h4,
      keywordSpan_maximal (E.rowAt pos).render _ s kw hdone h4⟩
  · intro kw _
    unfold kwTag
    by_cases hk : kw.getD (kw.length - 1) 0 = 124
    · rw [if_pos hk]
      exact ⟨⟨fun _ => hk, fun _ => rfl⟩, ⟨fun h => absurd h (by decide), fun h => absurd hk h⟩⟩
    · rw [if_neg hk]
      exact ⟨⟨fun h => absurd h (by decide), fun h => absurd h hk⟩, ⟨fun _ => hk, fun _ => rfl⟩⟩

set_option maxRecDepth 100000 in
theorem C22_keyword_tags_are_table_keywords_witness :
    quoteKeywordBuffer.syntaxRules = some cSyntax
      ∧ rowsNumbered quoteKeywordBuffer.row
      ∧ 0 < quoteKeywordBuffer.row.length
      ∧ kwTagged (((EditorUpdateSyntax quoteKeywordBuffer 0).rowAt 0).highlight.getD 4 0)
      ∧ ∃ s kw, s ≤ 4 ∧ 4 < s + (kwBody kw).length
          ∧ keywordSpan (quoteKeywordBuffer.rowAt 0).render
              ((EditorUpdateSyntax quoteKeywordBuffer 0).rowAt 0).highlight s kw :=
  ⟨by decide, by decide, by decide, by decide,
    (((C22_keyword_tags_are_table_keywords quoteKeywordBuffer 0 (by decide) (by decide)
      (by decide)).2.2.1 4 (by decide)).imp
        (fun _ h => h.imp (fun _ h1 => ⟨h1.1, h1.2.1, h1.2.2.1⟩)))⟩

end Jeditor
